import Mathlib

/-!
Verification of the line-level Myers diff implementation
(`internal/lsp/diff/diff.go`): the line comparer `stringEqualIgnoreLF`,
the forward search `shortestEditSequence`, the backward walk `backtrack`,
the operation builder `Operations`, the replay helper `ApplyEdits`, and the
line splitter `SplitLines`.

Go strings are modelled as lists of characters (one `Char` per byte).
Go's `int` is modelled as `Int`.  Runtime panics (out-of-range slice
indexing) are modelled by returning `none`: every slice read or write in
the source is translated through `vget` / `vset` / `goSlice`, which fail
exactly when the corresponding Go access would panic.

Loops are translated as structural recursions.  Loops whose counter is not
already a natural number recurse on an exact iteration bound computed from
the loop variables; the unfolding lemmas proved right below each such
definition recover the literal loop body, showing the bound is never hit.
-/

namespace MyersDiff

/-- A Go string: one `Char` per byte. -/
abbrev GoStr := List Char

/-- `type OpKind int` with constants `Delete`, `Insert`, `Equal`. -/
inductive OpKind where
  | del
  | ins
  | eq
deriving DecidableEq, Repr

/-- `type Op struct { Kind OpKind; Content []string; I1, I2 int; J1 int }` -/
structure Op where
  kind : OpKind
  content : List GoStr
  i1 : Int
  i2 : Int
  j1 : Int
deriving DecidableEq, Repr

/-- Go slice read `v[i]`: panics (`none`) when out of range. -/
def vget (v : List Int) (i : Int) : Option Int :=
  if 0 ≤ i ∧ i < (v.length : Int) then some (v.getD i.toNat 0) else none

/-- Go slice write `v[i] = x`: panics (`none`) when out of range. -/
def vset (v : List Int) (i x : Int) : Option (List Int) :=
  if 0 ≤ i ∧ i < (v.length : Int) then some (v.set i.toNat x) else none

/-- Go slicing `l[i:j]`: panics (`none`) unless `0 ≤ i ≤ j ≤ len l`. -/
def goSlice (l : List GoStr) (i j : Int) : Option (List GoStr) :=
  if 0 ≤ i ∧ i ≤ j ∧ j ≤ (l.length : Int) then
    some ((l.drop i.toNat).take (j - i).toNat)
  else none

/-- The adjusted length computed by `stringEqualIgnoreLF` for one argument:
`l := len(s) - 1`, decremented once more when `l > 0 && s[l-1] == '\r'`. -/
def lfAdjLen (s : GoStr) : Int :=
  let l : Int := (s.length : Int) - 1
  if 0 < l ∧ s.getD (l - 1).toNat ' ' = '\r' then l - 1 else l

/-- `stringEqualIgnoreLF(a, b string) bool`: compares the prefixes of length
`lfAdjLen` byte for byte after checking the adjusted lengths agree. -/
def stringEqualIgnoreLF (a b : GoStr) : Bool :=
  let la := lfAdjLen a
  let lb := lfAdjLen b
  if la ≠ lb then false
  else (List.range la.toNat).all fun i => a.getD i ' ' == b.getD i ' '

section Core

variable (a b : List GoStr) (M N : Int)

/-- Body of the diagonal extension loop of `shortestEditSequence`,
recursing on an exact bound for the number of iterations. -/
def extendGo : Nat → Int → Int → Int × Int
  | 0, x, y => (x, y)
  | f + 1, x, y =>
      if x < M ∧ y < N ∧
          stringEqualIgnoreLF (a.getD x.toNat []) (b.getD y.toNat []) then
        extendGo f (x + 1) (y + 1)
      else (x, y)

/-- The diagonal extension loop of `shortestEditSequence`:
`for x < M && y < N && stringEqualIgnoreLF(a[x], b[y]) { x++; y++ }`. -/
def extendDiag (x y : Int) : Int × Int :=
  extendGo a b M N ((M - x).toNat + 1) x y

/-- `extendDiag` satisfies the literal loop unfolding. -/
theorem extendDiag_unfold (x y : Int) :
    extendDiag a b M N x y =
      if x < M ∧ y < N ∧
          stringEqualIgnoreLF (a.getD x.toNat []) (b.getD y.toNat []) then
        extendDiag a b M N (x + 1) (y + 1)
      else (x, y) := by
  show extendGo a b M N ((M - x).toNat + 1) x y = _
  rw [extendGo]
  split
  · next h =>
      have : (M - x).toNat = (M - (x + 1)).toNat + 1 := by omega
      rw [this]; rfl
  · rfl

end Core

/-- One iteration of the inner `k` loop of `shortestEditSequence`: returns the
updated vector and whether `x == M && y == N` triggered the early return. -/
def sesBody (a b : List GoStr) (M N offset : Int) (d k : Int) (V : List Int) :
    Option (List Int × Bool) := do
  let down ←
    if k = -d then pure true
    else if k ≠ d then do
      let l ← vget V (k - 1 + offset)
      let r ← vget V (k + 1 + offset)
      pure (decide (l < r))
    else pure false
  let x ←
    if down then vget V (k + 1 + offset)
    else do
      let t ← vget V (k - 1 + offset)
      pure (t + 1)
  let p := extendDiag a b M N x (x - k)
  let V' ← vset V (k + offset) p.1
  pure (V', decide (p.1 = M ∧ p.2 = N))

/-- The list of diagonals visited by `for k := -d; k <= d; k += 2`. -/
def ksList (d : Nat) : List Int :=
  (List.range (d + 1)).map fun (j : Nat) => -(d : Int) + 2 * (j : Int)

/-- The inner `k` loop of `shortestEditSequence`, iterating over the
remaining diagonals: `Sum.inl` is normal completion, `Sum.inr` the early
return with the final vector. -/
def sesInner (a b : List GoStr) (M N offset : Int) (d : Int) :
    List Int → List Int → Option (List Int ⊕ List Int)
  | [], V => pure (Sum.inl V)
  | k :: ks, V => do
      let r ← sesBody a b M N offset d k V
      if r.2 then pure (Sum.inr r.1)
      else sesInner a b M N offset d ks r.1

/-- The outer `for d := 0; d <= N+M; d++` loop of `shortestEditSequence`,
recursing on the number `r` of remaining iterations (`r = N+M+1-d` at every
call).  `tr` accumulates the per-depth snapshots recorded so far.  On the
early return the Go code leaves `trace[e] = nil` for every depth beyond the
current one; loop exhaustion returns `nil, 0`, modelled as `([], 0)`. -/
def sesOuter (a b : List GoStr) (M N offset : Int) :
    Nat → Int → List Int → List (Option (List Int)) →
    Option (List (Option (List Int)) × Int)
  | 0, _, _, _ => pure ([], 0)
  | r + 1, d, V, tr => do
      let res ← sesInner a b M N offset d (ksList d.toNat) V
      match res with
      | Sum.inl V' => sesOuter a b M N offset r (d + 1) V' (tr ++ [some V'])
      | Sum.inr V' =>
          pure (tr ++ [some V'] ++ List.replicate (N + M - d).toNat none, offset)

/-- `shortestEditSequence(a, b []string) ([][]int, int)`. -/
def shortestEditSequence (a b : List GoStr) :
    Option (List (Option (List Int)) × Int) :=
  let M : Int := a.length
  let N : Int := b.length
  sesOuter a b M N (N + M) ((N + M + 1).toNat) 0
    (List.replicate (2 * (N + M) + 1).toNat 0) []

/-- The main loop of `backtrack`, recursing on the depth counter `d` (the
loop decrements `d` on every iteration, including on `continue`).  Returns
the snake array together with `d`, `x`, `y` at loop exit. -/
def backtrackLoop (trace : List (Option (List Int))) (offset : Int) :
    Nat → Int → Int → List (Option (List Int)) →
    Option (List (Option (List Int)) × Nat × Int × Int)
  | 0, x, y, snakes => pure (snakes, 0, x, y)
  | d + 1, x, y, snakes =>
      if 0 < x ∧ 0 < y then
        let Vl := (trace.getD (d + 1) none).getD []
        if Vl.length = 0 then
          backtrackLoop trace offset d x y snakes
        else do
          let snakes' := snakes.set (d + 1) (some [x, y])
          let k := x - y
          let down ←
            if k = -((d : Int) + 1) then pure true
            else if k ≠ ((d : Int) + 1) then do
              let l ← vget Vl (k - 1 + offset)
              let r ← vget Vl (k + 1 + offset)
              pure (decide (l < r))
            else pure false
          let kPrev := if down then k + 1 else k - 1
          let x' ← vget Vl (kPrev + offset)
          backtrackLoop trace offset d x' (x' - kPrev) snakes'
      else pure (snakes, d + 1, x, y)

/-- `backtrack(trace [][]int, x, y, offset int) [][]int`.  The final
`snakes[d] = []int{x, y}` panics (`none`) exactly when `trace` is empty
(Go's `nil` trace makes `d = -1` there). -/
def backtrack (trace : List (Option (List Int))) (x y offset : Int) :
    Option (List (Option (List Int))) := do
  let snakes0 := List.replicate trace.length (none : Option (List Int))
  let r ← backtrackLoop trace offset (trace.length - 1) x y snakes0
  let (snakes, d, x', y') := r
  if x' < 0 ∨ y' < 0 then pure snakes
  else if trace.length = 0 then none
  else pure (snakes.set d (some [x', y']))

/-- Body of the horizontal (delete) loop inside `Operations`, recursing on
an exact bound for the number of iterations. -/
def delGo (M s0 s1 : Int) : Nat → Int → Int → Option Op → Option Op × Int
  | 0, x, _, op => (op, x)
  | f + 1, x, y, op =>
      if s0 - s1 > x - y then
        let op' := match op with
          | none => some { kind := .del, content := [], i1 := x, i2 := 0, j1 := y }
          | some o => some o
        if x + 1 = M then (op', x + 1)
        else delGo M s0 s1 f (x + 1) y op'
      else (op, x)

/-- The horizontal (delete) loop inside `Operations`:
`for snake[0]-snake[1] > x-y { if op == nil {...}; x++; if x == M { break } }`.
Returns the operation in progress and the final `x`. -/
def delLoop (M s0 s1 x y : Int) (op : Option Op) : Option Op × Int :=
  delGo M s0 s1 ((s0 - s1 - (x - y)).toNat + 1) x y op

/-- `delLoop` satisfies the literal loop unfolding. -/
theorem delLoop_unfold (M s0 s1 x y : Int) (op : Option Op) :
    delLoop M s0 s1 x y op =
      if s0 - s1 > x - y then
        let op' := match op with
          | none => some { kind := .del, content := [], i1 := x, i2 := 0, j1 := y }
          | some o => some o
        if x + 1 = M then (op', x + 1)
        else delLoop M s0 s1 (x + 1) y op'
      else (op, x) := by
  show delGo M s0 s1 ((s0 - s1 - (x - y)).toNat + 1) x y op = _
  by_cases h : s0 - s1 > x - y
  · have h2 : (s0 - s1 - (x - y)).toNat = (s0 - s1 - (x + 1 - y)).toNat + 1 := by
      omega
    simp only [delGo, if_pos h, h2]
    rfl
  · simp only [delGo, if_neg h]

/-- Body of the vertical (insert) loop inside `Operations`. -/
def insGo (s0 s1 : Int) : Nat → Int → Int → Option Op → Option Op × Int
  | 0, _, y, op => (op, y)
  | f + 1, x, y, op =>
      if s0 - s1 < x - y then
        let op' := match op with
          | none => some { kind := .ins, content := [], i1 := x, i2 := 0, j1 := y }
          | some o => some o
        insGo s0 s1 f x (y + 1) op'
      else (op, y)

/-- The vertical (insert) loop inside `Operations`:
`for snake[0]-snake[1] < x-y { if op == nil {...}; y++ }`.
Returns the operation in progress and the final `y`. -/
def insLoop (s0 s1 x y : Int) (op : Option Op) : Option Op × Int :=
  insGo s0 s1 ((x - y - (s0 - s1)).toNat + 1) x y op

/-- `insLoop` satisfies the literal loop unfolding. -/
theorem insLoop_unfold (s0 s1 x y : Int) (op : Option Op) :
    insLoop s0 s1 x y op =
      if s0 - s1 < x - y then
        let op' := match op with
          | none => some { kind := .ins, content := [], i1 := x, i2 := 0, j1 := y }
          | some o => some o
        insLoop s0 s1 x (y + 1) op'
      else (op, y) := by
  show insGo s0 s1 ((x - y - (s0 - s1)).toNat + 1) x y op = _
  by_cases h : s0 - s1 < x - y
  · have h2 : (x - y - (s0 - s1)).toNat = (x - (y + 1) - (s0 - s1)).toNat + 1 := by
      omega
    simp only [insGo, if_pos h, h2]
    rfl
  · simp only [insGo, if_neg h]

/-- Body of the diagonal (equal) loop inside `Operations`:
`for x < snake[0] { x++; y++ }`, recursing on an exact iteration bound. -/
def eqLoopGo (s0 : Int) : Nat → Int → Int → Int × Int
  | 0, x, y => (x, y)
  | f + 1, x, y => if x < s0 then eqLoopGo s0 f (x + 1) (y + 1) else (x, y)

/-- The diagonal (equal) loop inside `Operations`. -/
def eqLoop (s0 x y : Int) : Int × Int :=
  eqLoopGo s0 ((s0 - x).toNat + 1) x y

/-- `eqLoop` satisfies the literal loop unfolding. -/
theorem eqLoop_unfold (s0 x y : Int) :
    eqLoop s0 x y = if x < s0 then eqLoop s0 (x + 1) (y + 1) else (x, y) := by
  show eqLoopGo s0 ((s0 - x).toNat + 1) x y = _
  by_cases h : x < s0
  · have h2 : (s0 - x).toNat = (s0 - (x + 1)).toNat + 1 := by omega
    simp only [eqLoopGo, if_pos h, h2]
    rfl
  · simp only [eqLoopGo, if_neg h]

/-- The `add` closure of `Operations`: fills in `I2` (and `Content` for an
insert, by slicing `b[J1:j2]`), then stores the operation; storing fails
(Go index panic) when the solution array of capacity `len a + len b` is
already full. -/
def addOp (b : List GoStr) (cap : Int) (op : Option Op) (i2 j2 : Int)
    (sol : List Op) : Option (List Op) :=
  match op with
  | none => pure sol
  | some o => do
      let o1 : Op := { o with i2 := i2 }
      let o2 ←
        if o1.kind = .ins then do
          let c ← goSlice b o1.j1 j2
          pure { o1 with content := c }
        else pure o1
      if (sol.length : Int) < cap then pure (sol ++ [o2]) else none

/-- The snake-consuming loop of `Operations`. -/
def opsLoop (b : List GoStr) (M N : Int) :
    List (Option (List Int)) → Int → Int → List Op → Option (List Op)
  | [], _, _, sol => pure sol
  | sn :: rest, x, y, sol => do
      let s := sn.getD []
      if s.length < 2 then opsLoop b M N rest x y sol
      else
        let s0 := s.getD 0 0
        let s1 := s.getD 1 0
        let pd := delLoop M s0 s1 x y none
        let sol1 ← addOp b (M + N) pd.1 pd.2 y sol
        let pi := insLoop s0 s1 pd.2 y none
        let sol2 ← addOp b (M + N) pi.1 pd.2 pi.2 sol1
        let pe := eqLoop s0 pd.2 pi.2
        if M ≤ pe.1 ∧ N ≤ pe.2 then pure sol2
        else opsLoop b M N rest pe.1 pe.2 sol2

/-- `Operations(a, b []string) []*Op`. -/
def Operations (a b : List GoStr) : Option (List Op) := do
  let r ← shortestEditSequence a b
  let snakes ← backtrack r.1 a.length b.length r.2
  opsLoop b a.length b.length snakes 0 0 []

/-- The per-operation loop of `ApplyEdits`, carrying the output built so far
and `prevI2`. -/
def applyLoop (a : List GoStr) :
    List Op → Int → List GoStr → Option (List GoStr × Int)
  | [], prevI2, out => pure (out, prevI2)
  | op :: rest, prevI2, out => do
      let out1 ←
        if 0 < op.i1 - prevI2 then do
          let s ← goSlice a prevI2 op.i1
          pure (out ++ s)
        else pure out
      let out2 :=
        match op.kind with
        | .eq | .ins => out1 ++ op.content
        | .del => out1
      applyLoop a rest op.i2 out2

/-- `ApplyEdits(a []string, operations []*Op) []string`. -/
def ApplyEdits (a : List GoStr) (ops : List Op) : Option (List GoStr) := do
  let r ← applyLoop a ops 0 []
  let (out, prevI2) := r
  if 0 < (a.length : Int) - prevI2 then do
    let s ← goSlice a prevI2 a.length
    pure (out ++ s)
  else pure out

/-- `strings.SplitAfter(text, "\n")`: splits after every newline, keeping
the separators; always returns a nonempty list whose concatenation is the
input. -/
def splitAfterLF : List Char → List (List Char)
  | [] => [[]]
  | c :: rest =>
      if c = '\n' then [c] :: splitAfterLF rest
      else
        match splitAfterLF rest with
        | [] => [[c]]
        | l :: ls => (c :: l) :: ls

/-- `SplitLines(text string) []string`: drops a trailing empty fragment. -/
def SplitLines (text : List Char) : List (List Char) :=
  let lines := splitAfterLF text
  if lines.getLast? = some [] then lines.dropLast else lines

/-- The textbook insert/delete-only edit distance between two line
sequences, under `stringEqualIgnoreLF` equality: the reference notion of
"minimal line-level edit distance". -/
def editDist : List GoStr → List GoStr → Nat
  | [], ys => ys.length
  | x :: xs, [] => (x :: xs).length
  | x :: xs, y :: ys =>
      if stringEqualIgnoreLF x y then
        min (editDist xs ys)
          (1 + min (editDist xs (y :: ys)) (editDist (x :: xs) ys))
      else 1 + min (editDist xs (y :: ys)) (editDist (x :: xs) ys)
termination_by xs ys => xs.length + ys.length

/-- Total number of line-level delete/insert operations carried by an
operation list: `I2 - I1` for a delete, `len Content` for an insert. -/
def opsCost (ops : List Op) : Int :=
  (ops.map fun o => match o.kind with
    | .del => o.i2 - o.i1
    | .ins => (o.content.length : Int)
    | .eq => 0).sum

/-! ### The line comparer -/

/-- The prefix of a line actually compared by `stringEqualIgnoreLF`: the
line with its final character removed, and a then-final `'\r'` removed as
well. -/
def chopTerm (s : GoStr) : GoStr :=
  let t := s.dropLast
  if t.getLast? = some '\r' then t.dropLast else t

theorem lfAdjLen_of_nil : lfAdjLen [] = -1 := by
  simp [lfAdjLen]

theorem lfAdjLen_nonneg (s : GoStr) (h : s ≠ []) : 0 ≤ lfAdjLen s := by
  have : 1 ≤ s.length := List.length_pos.mpr h
  simp only [lfAdjLen]
  split <;> omega

theorem lfAdjLen_le (s : GoStr) : lfAdjLen s ≤ (s.length : Int) - 1 := by
  simp only [lfAdjLen]
  split <;> omega

/-- The second-decrement condition inside `lfAdjLen` is exactly "the
second-to-last character exists and is a carriage return". -/
theorem chopTerm_cond (s : GoStr) :
    s.dropLast.getLast? = some '\r' ↔
      0 < (s.length : Int) - 1 ∧
        s.getD (((s.length : Int) - 1) - 1).toNat ' ' = '\r' := by
  rw [List.getLast?_eq_getElem?, List.dropLast_eq_take, List.length_take,
    List.getElem?_take]
  by_cases h2 : 2 ≤ s.length
  · have hm : min (s.length - 1) s.length - 1 = s.length - 2 := by omega
    rw [hm, if_pos (by omega)]
    have hlt : s.length - 2 < s.length := by omega
    rw [List.getElem?_eq_getElem hlt]
    have hix : (((s.length : Int) - 1) - 1).toNat = s.length - 2 := by omega
    rw [hix, List.getD_eq_getElem s ' ' hlt]
    constructor
    · intro hc
      exact ⟨by omega, by exact Option.some.inj hc⟩
    · intro hc
      rw [hc.2]
  · rcases Nat.lt_of_not_le h2 with _
    constructor
    · intro hc
      split at hc
      · next hlt =>
          rw [List.getElem?_eq_none (by omega)] at hc
          exact absurd hc (by simp)
      · exact absurd hc (by simp)
    · intro hc
      omega

theorem chopTerm_eq_take (s : GoStr) : chopTerm s = s.take (lfAdjLen s).toNat := by
  rcases eq_or_ne s [] with rfl | h
  · simp [chopTerm, lfAdjLen]
  · have hlen : 1 ≤ s.length := List.length_pos.mpr h
    rw [chopTerm, lfAdjLen]
    by_cases hc : s.dropLast.getLast? = some '\r'
    · rw [if_pos hc, if_pos ((chopTerm_cond s).mp hc)]
      have h2 : 2 ≤ s.length := by
        by_contra h2
        have := ((chopTerm_cond s).mp hc).1
        omega
      rw [List.dropLast_eq_take, List.dropLast_eq_take, List.length_take,
        List.take_take]
      congr 1
      omega
    · rw [if_neg hc, if_neg (fun hx => hc ((chopTerm_cond s).mpr hx))]
      rw [List.dropLast_eq_take]
      congr 1
      omega

theorem lfAdjLen_eq_chop_length (s : GoStr) (h : s ≠ []) :
    lfAdjLen s = ((chopTerm s).length : Int) := by
  rw [chopTerm_eq_take, List.length_take]
  have h0 := lfAdjLen_nonneg s h
  have h1 := lfAdjLen_le s
  have : 1 ≤ s.length := List.length_pos.mpr h
  omega

/-- The byte-comparison loop equals prefix equality. -/
theorem range_all_getD_eq_iff (a b : GoStr) (n : ℕ) (ha : n ≤ a.length)
    (hb : n ≤ b.length) :
    ((List.range n).all fun i => a.getD i ' ' == b.getD i ' ') = true ↔
      a.take n = b.take n := by
  rw [List.all_eq_true]
  constructor
  · intro hp
    apply List.ext_getElem?
    intro i
    rw [List.getElem?_take, List.getElem?_take]
    by_cases hi : i < n
    · rw [if_pos hi, if_pos hi]
      have h1 : i < a.length := lt_of_lt_of_le hi ha
      have h2 : i < b.length := lt_of_lt_of_le hi hb
      rw [List.getElem?_eq_getElem h1, List.getElem?_eq_getElem h2]
      have := hp i (List.mem_range.mpr hi)
      rw [beq_iff_eq] at this
      rw [List.getD_eq_getElem a ' ' h1, List.getD_eq_getElem b ' ' h2] at this
      rw [this]
    · rw [if_neg hi, if_neg hi]
  · intro ht i hi
    rw [List.mem_range] at hi
    have h1 : i < a.length := lt_of_lt_of_le hi ha
    have h2 : i < b.length := lt_of_lt_of_le hi hb
    rw [beq_iff_eq, List.getD_eq_getElem a ' ' h1, List.getD_eq_getElem b ' ' h2]
    have := congrArg (fun l => l[i]?) ht
    simp only [List.getElem?_take, if_pos hi] at this
    rw [List.getElem?_eq_getElem h1, List.getElem?_eq_getElem h2] at this
    exact Option.some.inj this

/-- Full characterization of the comparer: true iff the arguments are both
empty or both nonempty with equal chopped prefixes. -/
theorem stringEqualIgnoreLF_iff (a b : GoStr) :
    stringEqualIgnoreLF a b = true ↔
      ((a = [] ↔ b = []) ∧ chopTerm a = chopTerm b) := by
  rcases eq_or_ne a [] with rfl | ha <;> rcases eq_or_ne b [] with rfl | hb
  · simp [stringEqualIgnoreLF, lfAdjLen]
  · have h1 : lfAdjLen b ≠ lfAdjLen [] := by
      rw [lfAdjLen_of_nil]
      have := lfAdjLen_nonneg b hb
      omega
    simp only [stringEqualIgnoreLF]
    rw [if_pos (Ne.symm h1)]
    simp [hb, Iff.comm]
  · have h1 : lfAdjLen a ≠ lfAdjLen [] := by
      rw [lfAdjLen_of_nil]
      have := lfAdjLen_nonneg a ha
      omega
    simp only [stringEqualIgnoreLF]
    rw [if_pos h1]
    simp [ha]
  · simp only [stringEqualIgnoreLF]
    by_cases hl : lfAdjLen a = lfAdjLen b
    · rw [if_neg (by simpa using hl)]
      have hna := lfAdjLen_nonneg a ha
      have hla := lfAdjLen_le a
      have hlb := lfAdjLen_le b
      have h1 : 1 ≤ a.length := List.length_pos.mpr ha
      have h2 : 1 ≤ b.length := List.length_pos.mpr hb
      rw [range_all_getD_eq_iff a b (lfAdjLen a).toNat (by omega)
        (by rw [hl]; omega)]
      have hta : a.take (lfAdjLen a).toNat = chopTerm a :=
        (chopTerm_eq_take a).symm
      have htb : b.take (lfAdjLen a).toNat = chopTerm b := by
        rw [hl]
        exact (chopTerm_eq_take b).symm
      rw [hta, htb]
      simp [ha, hb]
    · rw [if_pos (by simpa using hl)]
      simp only [Bool.false_eq_true, false_iff, not_and]
      intro _ hch
      exact hl (by
        rw [lfAdjLen_eq_chop_length a ha, lfAdjLen_eq_chop_length b hb, hch])

theorem stringEqualIgnoreLF_refl (s : GoStr) : stringEqualIgnoreLF s s = true :=
  (stringEqualIgnoreLF_iff s s).mpr ⟨Iff.rfl, rfl⟩

/-- `chopTerm` on a string with its last character split off never looks at
that last character. -/
theorem chopTerm_concat (xs : GoStr) (c : Char) :
    chopTerm (xs ++ [c]) =
      if xs.getLast? = some '\r' then xs.dropLast else xs := by
  rw [chopTerm, List.dropLast_concat]

/-! ### SplitLines -/

theorem splitAfterLF_ne_nil (t : List Char) : splitAfterLF t ≠ [] := by
  induction t with
  | nil => simp [splitAfterLF]
  | cons c rest ih =>
      rw [splitAfterLF]
      split
      · simp
      · split
        · simp
        · simp

theorem splitAfterLF_flatten (t : List Char) : (splitAfterLF t).flatten = t := by
  induction t with
  | nil => simp [splitAfterLF]
  | cons c rest ih =>
      rw [splitAfterLF]
      split
      · simpa using ih
      · split
        · next hnil => exact absurd hnil (splitAfterLF_ne_nil rest)
        · next l ls hcons =>
            have : (l :: ls).flatten = rest := by rw [← hcons]; exact ih
            simpa using this

/-- Structure of `splitAfterLF`: every non-final fragment ends in a single
`'\n'` with none before it, and the final fragment contains no `'\n'`. -/
theorem splitAfterLF_struct (t : List Char) :
    (∀ l ∈ (splitAfterLF t).dropLast,
        l.getLast? = some '\n' ∧ ∀ c ∈ l.dropLast, c ≠ '\n') ∧
      (∀ l, (splitAfterLF t).getLast? = some l → ∀ c ∈ l, c ≠ '\n') := by
  induction t with
  | nil =>
      constructor
      · intro l hl
        simp [splitAfterLF] at hl
      · intro l hl
        simp [splitAfterLF] at hl
        subst hl
        simp
  | cons c rest ih =>
      rw [splitAfterLF]
      by_cases hc : c = '\n'
      · rw [if_pos hc]
        have hne := splitAfterLF_ne_nil rest
        constructor
        · intro l hl
          rw [List.dropLast_cons_of_ne_nil hne] at hl
          rcases List.mem_cons.mp hl with rfl | hl2
          · subst hc
            constructor
            · rfl
            · intro x hx
              simp at hx
          · exact ih.1 l hl2
        · intro l hl
          rcases hs2 : splitAfterLF rest with _ | ⟨m, ms⟩
          · exact absurd hs2 hne
          · rw [hs2, List.getLast?_cons_cons] at hl
            exact ih.2 l (by rw [hs2, hl])
      · rw [if_neg hc]
        rcases hs : splitAfterLF rest with _ | ⟨l0, ls⟩
        · exact absurd hs (splitAfterLF_ne_nil rest)
        · rw [hs] at ih
          rcases ls with _ | ⟨l1, ls'⟩
          · constructor
            · intro l hl
              simp at hl
            · intro l hl
              simp at hl
              subst hl
              intro x hx
              rcases List.mem_cons.mp hx with rfl | hx2
              · exact hc
              · exact ih.2 l0 rfl x hx2
          · constructor
            · intro l hl
              rw [List.dropLast_cons_of_ne_nil (by simp)] at hl
              rcases List.mem_cons.mp hl with rfl | hl2
              · have h0 : l0 ∈ (l0 :: l1 :: ls').dropLast := by
                  rw [List.dropLast_cons_of_ne_nil (by simp)]
                  exact List.mem_cons_self l0 _
                have hstr := ih.1 l0 h0
                have hl0ne : l0 ≠ [] := by
                  intro h
                  rw [h] at hstr
                  simp at hstr
                constructor
                · rcases List.exists_cons_of_ne_nil hl0ne with ⟨d, l0', rfl⟩
                  simpa using hstr.1
                · intro x hx
                  rcases List.exists_cons_of_ne_nil hl0ne with ⟨d, l0', rfl⟩
                  rw [show (c :: d :: l0' : List Char) = [c] ++ d :: l0' from rfl,
                    List.dropLast_append_cons] at hx
                  rcases List.mem_append.mp hx with hx1 | hx2
                  · simp at hx1
                    subst hx1
                    exact hc
                  · exact hstr.2 x hx2
              · exact ih.1 l (by
                  rw [List.dropLast_cons_of_ne_nil (by simp)]
                  exact List.mem_cons_of_mem _ hl2)
            · intro l hl
              rw [List.getLast?_cons_cons] at hl
              exact ih.2 l (by rw [List.getLast?_cons_cons, hl])

theorem splitLines_flatten (t : List Char) : (SplitLines t).flatten = t := by
  rw [SplitLines]
  split
  · next h =>
      rcases hs : splitAfterLF t with _ | ⟨l0, ls⟩
      · exact absurd hs (splitAfterLF_ne_nil t)
      · have h2 := splitAfterLF_flatten t
        rw [hs] at h2 h
        have h3 : l0 :: ls =
            (l0 :: ls).dropLast ++ [(l0 :: ls).getLast (by simp)] :=
          (List.dropLast_append_getLast _).symm
        rw [List.getLast?_eq_getLast _ (by simp)] at h
        have h4 : (l0 :: ls).getLast (by simp) = [] := Option.some.inj h
        have h5 : ((l0 :: ls).dropLast ++
            [(l0 :: ls).getLast (by simp)]).flatten = t := by
          rw [← h3]
          exact h2
        rw [h4] at h5
        simpa using h5
  · exact splitAfterLF_flatten t

/-! ### Claim theorems: comparer, splitter, example, backtrack fallback -/

/-- C3 counterexample: the claim "for every content string c, the line
c + \"\\r\\n\" compares equal to the line c + \"\\n\"" fails at c = "\r":
the comparer strips two characters from the first line but only one
adjusted position from the second, so the adjusted lengths differ. -/
theorem claim3_counterexample :
    stringEqualIgnoreLF (['\r'] ++ ['\r', '\n']) (['\r'] ++ ['\n']) = false := by
  decide

/-- C3 (amended): the comparer ignores the final character of each string
unconditionally (terminator or not) and also a then-final carriage return;
it returns true iff both strings are empty or both are nonempty with equal
remaining prefixes.  Consequently c + "\r\n" and c + "\n" compare equal
for every content c that does not end in a carriage return. -/
theorem claim3_comparer_contract :
    (∀ a b : GoStr, stringEqualIgnoreLF a b = true ↔
       ((a = [] ↔ b = []) ∧ chopTerm a = chopTerm b)) ∧
    (∀ c : GoStr, c.getLast? ≠ some '\r' →
       stringEqualIgnoreLF (c ++ ['\r', '\n']) (c ++ ['\n']) = true) := by
  constructor
  · exact stringEqualIgnoreLF_iff
  · intro c hc
    rw [stringEqualIgnoreLF_iff]
    constructor
    · simp
    · rw [show c ++ ['\r', '\n'] = (c ++ ['\r']) ++ ['\n'] by simp]
      rw [chopTerm_concat, chopTerm_concat]
      rw [if_pos (List.getLast?_concat c), if_neg hc, List.dropLast_concat]

/-- Witness for C3's amended theorem at c = "a". -/
theorem claim3_witness :
    stringEqualIgnoreLF (['a'] ++ ['\r', '\n']) (['a'] ++ ['\n']) = true :=
  claim3_comparer_contract.2 ['a'] (by decide)

/-- C10: two one-character lines always compare equal, whatever the
characters are; more generally the final character of each argument never
participates in the comparison. -/
theorem claim10_last_char_ignored :
    (∀ c d : Char, stringEqualIgnoreLF [c] [d] = true) ∧
    (∀ (xs ys : GoStr) (c c' d d' : Char),
       stringEqualIgnoreLF (xs ++ [c]) (ys ++ [d]) =
         stringEqualIgnoreLF (xs ++ [c']) (ys ++ [d'])) := by
  constructor
  · intro c d
    rw [stringEqualIgnoreLF_iff]
    exact ⟨by simp, by simp [chopTerm]⟩
  · intro xs ys c c' d d'
    rw [Bool.eq_iff_iff, stringEqualIgnoreLF_iff, stringEqualIgnoreLF_iff,
      chopTerm_concat, chopTerm_concat, chopTerm_concat, chopTerm_concat]
    simp

/-- C6: the worked example from the specification: replacing the middle
line produces exactly one delete of source line 1 followed by one insert
of "x\n" at source position 2, target position 1. -/
theorem claim6_concrete_example :
    Operations [['a', '\n'], ['b', '\n'], ['c', '\n']]
        [['a', '\n'], ['x', '\n'], ['c', '\n']] =
      some [{ kind := .del, content := [], i1 := 1, i2 := 2, j1 := 1 },
            { kind := .ins, content := [['x', '\n']], i1 := 2, i2 := 2, j1 := 1 }] := by
  decide

/-- C7: `SplitLines` produces lines that carry their terminator: every
non-final line is nonempty and ends in exactly one '\n' (none earlier),
the final line is nonempty with '\n' at most in final position, and the
two worked examples hold. -/
theorem claim7_splitlines_spec :
    (∀ text : List Char,
       (∀ l ∈ (SplitLines text).dropLast,
          l.getLast? = some '\n' ∧ ∀ c ∈ l.dropLast, c ≠ '\n') ∧
       (∀ l, (SplitLines text).getLast? = some l →
          l ≠ [] ∧ ∀ c ∈ l.dropLast, c ≠ '\n')) ∧
    SplitLines ['a', '\n', 'b', '\n'] = [['a', '\n'], ['b', '\n']] ∧
    SplitLines ['a', '\n', 'b'] = [['a', '\n'], ['b']] := by
  refine ⟨?_, by decide, by decide⟩
  intro text
  have hstruct := splitAfterLF_struct text
  rw [SplitLines]
  split
  · next hdrop =>
      constructor
      · intro l hl
        exact hstruct.1 l (List.dropLast_subset _ hl)
      · intro l hl
        have hmem : l ∈ (splitAfterLF text).dropLast := by
          have hmem0 : l ∈ ((splitAfterLF text).dropLast).getLast? :=
            Option.mem_def.mpr hl
          rcases List.mem_getLast?_eq_getLast hmem0 with ⟨hne, heq⟩
          rw [heq]
          exact List.getLast_mem hne
        have h2 := hstruct.1 l hmem
        refine ⟨?_, h2.2⟩
        intro hnil
        rw [hnil] at h2
        simp at h2
  · next hdrop =>
      constructor
      · exact hstruct.1
      · intro l hl
        refine ⟨?_, fun c hc => hstruct.2 l hl c (List.dropLast_subset _ hc)⟩
        intro hnil
        rw [hnil] at hl
        exact hdrop hl

/-- Witness for C7 at text = "a\nb". -/
theorem claim7_witness :
    (['a', '\n'] : List Char).getLast? = some '\n' ∧
      ∀ c ∈ (['a', '\n'] : List Char).dropLast, c ≠ '\n' :=
  (claim7_splitlines_spec.1 ['a', '\n', 'b']).1 ['a', '\n'] (by decide)

/-- C9: concatenating the lines returned by `SplitLines` restores the
input text exactly, and the empty text splits into the empty sequence. -/
theorem claim9_splitlines_flatten :
    (∀ text : List Char, (SplitLines text).flatten = text) ∧
      SplitLines [] = [] :=
  ⟨splitLines_flatten, by decide⟩

theorem backtrackLoop_exit_nonpos (trace : List (Option (List Int)))
    (offset : Int) (d : Nat) (x y : Int) (snakes : List (Option (List Int)))
    (h : x ≤ 0 ∨ y ≤ 0) :
    backtrackLoop trace offset d x y snakes = some (snakes, d, x, y) := by
  cases d with
  | zero => rfl
  | succ n =>
      simp only [backtrackLoop]
      rw [if_neg (by omega)]
      rfl

/-- C8 (amended): when a walked coordinate is negative the backtracking
loop exits at once, and `backtrack` then returns the snakes accumulated so
far, without writing the forced terminal entry and without failing.
(The further statement of C8 — that `backtrack` never faults on any input
trace — is refuted by `claim8_counterexample`: an out-of-range read of a
malformed trace snapshot is a fault.) -/
theorem claim8_backtrack_early_exit :
    (∀ (trace : List (Option (List Int))) (offset : Int) (d : Nat) (x y : Int)
       (snakes : List (Option (List Int))), x < 0 ∨ y < 0 →
       backtrackLoop trace offset d x y snakes = some (snakes, d, x, y)) ∧
    (∀ (trace : List (Option (List Int))) (x y offset : Int) s d x' y',
       backtrackLoop trace offset (trace.length - 1) x y
         (List.replicate trace.length none) = some (s, d, x', y') →
       x' < 0 ∨ y' < 0 → backtrack trace x y offset = some s) := by
  constructor
  · intro trace offset d x y snakes h
    exact backtrackLoop_exit_nonpos trace offset d x y snakes (by omega)
  · intro trace x y offset s d x' y' hrun hneg
    simp only [backtrack, hrun, Option.bind_eq_bind, Option.some_bind]
    rw [if_pos hneg]
    rfl

/-- C8 counterexample: `backtrack` does fault on a malformed trace — the
stored snapshot is too short for the diagonal arithmetic, and the Go code
would panic on an out-of-range index (modelled as `none`). -/
theorem claim8_counterexample :
    backtrack [some [0], some [0]] 5 3 0 = none := by decide

/-- Witness for C8's amended theorem on a concrete malformed walk. -/
theorem claim8_witness :
    backtrack [some [9]] (-2) 5 0 = some [none] :=
  claim8_backtrack_early_exit.2 [some [9]] (-2) 5 0 [none] 0 (-2) 5
    (by decide) (by decide)

/-! ### C4: the operation list is sorted and non-overlapping -/

theorem delGo_fst_some (M s0 s1 : Int) (f : Nat) (x y : Int) (o : Op) :
    (delGo M s0 s1 f x y (some o)).1 = some o := by
  induction f generalizing x with
  | zero => rfl
  | succ n ih =>
      simp only [delGo]
      split
      · split
        · rfl
        · exact ih (x + 1)
      · rfl

theorem delGo_snd_mono (M s0 s1 : Int) (f : Nat) (x y : Int) (op : Option Op) :
    x ≤ (delGo M s0 s1 f x y op).2 := by
  induction f generalizing x op with
  | zero => exact le_refl x
  | succ n ih =>
      simp only [delGo]
      split
      · split
        · omega
        · exact le_trans (by omega) (ih (x + 1) _)
      · exact le_refl x

theorem delGo_none_cases (M s0 s1 : Int) (f : Nat) (x y : Int) :
    delGo M s0 s1 f x y none = (none, x) ∨
      ∃ x', delGo M s0 s1 f x y none =
        (some { kind := .del, content := [], i1 := x, i2 := 0, j1 := y }, x') ∧
        x < x' := by
  cases f with
  | zero => exact Or.inl rfl
  | succ n =>
      simp only [delGo]
      split
      · right
        split
        · exact ⟨x + 1, rfl, by omega⟩
        · refine ⟨(delGo M s0 s1 n (x + 1) y
              (some { kind := .del, content := [], i1 := x, i2 := 0, j1 := y })).2,
              ?_, ?_⟩
          · rw [Prod.ext_iff]
            exact ⟨delGo_fst_some M s0 s1 n (x + 1) y _, rfl⟩
          · have := delGo_snd_mono M s0 s1 n (x + 1) y
              (some { kind := .del, content := [], i1 := x, i2 := 0, j1 := y })
            omega
      · exact Or.inl rfl

theorem insGo_fst_some (s0 s1 : Int) (f : Nat) (x y : Int) (o : Op) :
    (insGo s0 s1 f x y (some o)).1 = some o := by
  induction f generalizing y with
  | zero => rfl
  | succ n ih =>
      simp only [insGo]
      split
      · exact ih (y + 1)
      · rfl

theorem insGo_snd_mono (s0 s1 : Int) (f : Nat) (x y : Int) (op : Option Op) :
    y ≤ (insGo s0 s1 f x y op).2 := by
  induction f generalizing y op with
  | zero => exact le_refl y
  | succ n ih =>
      simp only [insGo]
      split
      · exact le_trans (by omega) (ih (y + 1) _)
      · exact le_refl y

theorem insGo_none_cases (s0 s1 : Int) (f : Nat) (x y : Int) :
    insGo s0 s1 f x y none = (none, y) ∨
      ∃ y', insGo s0 s1 f x y none =
        (some { kind := .ins, content := [], i1 := x, i2 := 0, j1 := y }, y') ∧
        y < y' := by
  cases f with
  | zero => exact Or.inl rfl
  | succ n =>
      simp only [insGo]
      split
      · right
        refine ⟨(insGo s0 s1 n x (y + 1)
            (some { kind := .ins, content := [], i1 := x, i2 := 0, j1 := y })).2,
            ?_, ?_⟩
        · rw [Prod.ext_iff]
          exact ⟨insGo_fst_some s0 s1 n x (y + 1) _, rfl⟩
        · have := insGo_snd_mono s0 s1 n x (y + 1)
            (some { kind := .ins, content := [], i1 := x, i2 := 0, j1 := y })
          omega
      · exact Or.inl rfl

theorem eqLoopGo_fst_mono (s0 : Int) (f : Nat) (x y : Int) :
    x ≤ (eqLoopGo s0 f x y).1 := by
  induction f generalizing x y with
  | zero => exact le_refl x
  | succ n ih =>
      simp only [eqLoopGo]
      split
      · have := ih (x + 1) (y + 1)
        omega
      · exact le_refl x

/-- The state invariant maintained by `opsLoop`: every emitted operation
has an ordered source range ending at or before the cursor `x`, and
consecutive operations have non-decreasing, non-overlapping ranges. -/
def OpsInv (x : Int) (sol : List Op) : Prop :=
  (∀ o ∈ sol, o.i1 ≤ o.i2 ∧ o.i2 ≤ x) ∧
    List.Chain' (fun p q : Op => p.i2 ≤ q.i1) sol

theorem opsInv_mono {x x' : Int} {sol : List Op} (h : OpsInv x sol)
    (hx : x ≤ x') : OpsInv x' sol :=
  ⟨fun o ho => ⟨(h.1 o ho).1, le_trans (h.1 o ho).2 hx⟩, h.2⟩

theorem opsInv_append {x : Int} {sol : List Op} {o : Op} (h : OpsInv x sol)
    (h1 : x ≤ o.i1) (h2 : o.i1 ≤ o.i2) : OpsInv o.i2 (sol ++ [o]) := by
  constructor
  · intro p hp
    rcases List.mem_append.mp hp with hp | hp
    · have := h.1 p hp
      omega
    · rw [List.mem_singleton.mp hp]
      omega
  · rw [List.chain'_append]
    refine ⟨h.2, List.chain'_singleton o, ?_⟩
    intro p hp q hq
    simp only [List.head?_cons, Option.mem_def, Option.some.injEq] at hq
    subst hq
    have hpmem : p ∈ sol := by
      rcases List.mem_getLast?_eq_getLast hp with ⟨hne, heq⟩
      rw [heq]
      exact List.getLast_mem hne
    have := h.1 p hpmem
    omega

/-- `addOp` either keeps the solution or appends the operation with its
`i2` field set to the given value. -/
theorem addOp_cases (b : List GoStr) (cap : Int) (op : Option Op)
    (i2 j2 : Int) (sol sol' : List Op)
    (h : addOp b cap op i2 j2 sol = some sol') :
    (op = none ∧ sol' = sol) ∨
      ∃ o c, op = some o ∧
        sol' = sol ++ [{ o with i2 := i2, content := c }] := by
  match op with
  | none =>
      left
      exact ⟨rfl, (Option.some.inj h).symm⟩
  | some o =>
      right
      simp only [addOp, Option.bind_eq_bind, Option.pure_def, Option.some_bind] at h
      split at h
      · rcases Option.bind_eq_some.mp h with ⟨c, hc, h2⟩
        refine ⟨o, c, rfl, ?_⟩
        split at h2
        · exact (Option.some.inj h2).symm
        · exact absurd h2 (by simp)
      · refine ⟨o, o.content, rfl, ?_⟩
        split at h
        · exact (Option.some.inj h).symm
        · exact absurd h (by simp)

/-- Sortedness invariant through the snake loop. -/
theorem opsLoop_inv (b : List GoStr) (M N : Int) :
    ∀ (snakes : List (Option (List Int))) (x y : Int) (sol ops : List Op),
      opsLoop b M N snakes x y sol = some ops → OpsInv x sol →
      ∃ x', x ≤ x' ∧ OpsInv x' ops := by
  intro snakes
  induction snakes with
  | nil =>
      intro x y sol ops h hinv
      exact ⟨x, le_refl x, (Option.some.inj h) ▸ hinv⟩
  | cons sn rest ih =>
      intro x y sol ops h hinv
      rw [opsLoop] at h
      split at h
      · exact ih x y sol ops h hinv
      · simp only [Option.bind_eq_bind] at h
        set s0 := ((sn.getD []).getD 0 0) with hs0
        set s1 := ((sn.getD []).getD 1 0) with hs1
        rcases Option.bind_eq_some.mp h with ⟨sol1, hadd1, h2⟩
        rcases Option.bind_eq_some.mp h2 with ⟨sol2, hadd2, h3⟩
        have hxd : x ≤ (delLoop M s0 s1 x y none).2 := delGo_snd_mono _ _ _ _ _ _ _
        have hinv1 : OpsInv (delLoop M s0 s1 x y none).2 sol1 := by
          rcases delGo_none_cases M s0 s1 ((s0 - s1 - (x - y)).toNat + 1) x y with
            hc | ⟨x', hc, hlt⟩
          · have hfst : (delLoop M s0 s1 x y none).1 = none := by
              show (delGo M s0 s1 _ x y none).1 = none
              rw [hc]
            rcases addOp_cases _ _ _ _ _ _ _ hadd1 with ⟨_, rfl⟩ | ⟨o, c, ho, _⟩
            · exact opsInv_mono hinv hxd
            · rw [hfst] at ho
              exact absurd ho (by simp)
          · have hfst : (delLoop M s0 s1 x y none).1 =
                some { kind := .del, content := [], i1 := x, i2 := 0, j1 := y } := by
              show (delGo M s0 s1 _ x y none).1 = _
              rw [hc]
            have hsnd : (delLoop M s0 s1 x y none).2 = x' := by
              show (delGo M s0 s1 _ x y none).2 = x'
              rw [hc]
            rcases addOp_cases _ _ _ _ _ _ _ hadd1 with ⟨hno, _⟩ | ⟨o, c, ho, hsol⟩
            · rw [hfst] at hno
              exact absurd hno (by simp)
            · rw [hfst] at ho
              rcases Option.some.inj ho with rfl
              subst hsol
              exact opsInv_append
                (o := ⟨.del, c, x, (delLoop M s0 s1 x y none).2, y⟩) hinv
                (le_refl x) (by rw [hsnd] at hxd ⊢; exact hxd)
        have hinv2 : OpsInv (delLoop M s0 s1 x y none).2 sol2 := by
          rcases insGo_none_cases s0 s1
              (((delLoop M s0 s1 x y none).2 - y - (s0 - s1)).toNat + 1)
              (delLoop M s0 s1 x y none).2 y with hc | ⟨y', hc, hlt⟩
          · have hfst :
                (insLoop s0 s1 (delLoop M s0 s1 x y none).2 y none).1 = none := by
              show (insGo s0 s1 _ _ y none).1 = none
              rw [hc]
            rcases addOp_cases _ _ _ _ _ _ _ hadd2 with ⟨_, rfl⟩ | ⟨o, c, ho, _⟩
            · exact hinv1
            · rw [hfst] at ho
              exact absurd ho (by simp)
          · have hfst : (insLoop s0 s1 (delLoop M s0 s1 x y none).2 y none).1 =
                some { kind := .ins, content := [],
                       i1 := (delLoop M s0 s1 x y none).2, i2 := 0, j1 := y } := by
              show (insGo s0 s1 _ _ y none).1 = _
              rw [hc]
            rcases addOp_cases _ _ _ _ _ _ _ hadd2 with ⟨hno, _⟩ | ⟨o, c, ho, hsol⟩
            · rw [hfst] at hno
              exact absurd hno (by simp)
            · rw [hfst] at ho
              rcases Option.some.inj ho with rfl
              subst hsol
              exact opsInv_append
                (o := ⟨.ins, c, (delLoop M s0 s1 x y none).2,
                  (delLoop M s0 s1 x y none).2, y⟩) hinv1
                (le_refl _) (le_refl _)
        split at h3
        · exact ⟨_, hxd, (Option.some.inj h3) ▸ hinv2⟩
        · have hxe : (delLoop M s0 s1 x y none).2 ≤
              (eqLoop s0 (delLoop M s0 s1 x y none).2
                (insLoop s0 s1 (delLoop M s0 s1 x y none).2 y none).2).1 :=
            eqLoopGo_fst_mono _ _ _ _
          rcases ih _ _ sol2 ops h3 (opsInv_mono hinv2 hxe) with ⟨x', hx', hinv'⟩
          exact ⟨x', by omega, hinv'⟩

theorem chain_le_all (o : Op) (rest : List Op)
    (hch : List.Chain (fun p q : Op => p.i2 ≤ q.i1) o rest)
    (hb : ∀ p ∈ rest, p.i1 ≤ p.i2) : ∀ q ∈ rest, o.i2 ≤ q.i1 := by
  induction rest generalizing o with
  | nil => intro q hq; simp at hq
  | cons r rs ih =>
      rcases List.chain_cons.mp hch with ⟨hor, hrest⟩
      intro q hq
      rcases List.mem_cons.mp hq with rfl | hq2
      · exact hor
      · have h1 := ih r hrest (fun p hp => hb p (List.mem_cons_of_mem r hp)) q hq2
        have h2 := hb r (List.mem_cons_self r rs)
        omega

theorem opsInv_pairwise {x : Int} {sol : List Op} (h : OpsInv x sol) :
    List.Pairwise (fun p q : Op => p.i2 ≤ q.i1) sol := by
  rcases h with ⟨hb, hch⟩
  induction sol with
  | nil => exact List.Pairwise.nil
  | cons o rest ih =>
      have hch2 : List.Chain (fun p q : Op => p.i2 ≤ q.i1) o rest := hch
      refine List.Pairwise.cons ?_ ?_
      · exact chain_le_all o rest hch2
          (fun p hp => (hb p (List.mem_cons_of_mem o hp)).1)
      · refine ih (fun p hp => hb p (List.mem_cons_of_mem o hp)) ?_
        cases rest with
        | nil => trivial
        | cons r rs => exact (List.chain_cons.mp hch2).2

/-- C4: every operation list produced by `Operations` is ordered by `I1`
ascending, and the half-open source ranges `[I1, I2)` of its operations are
pairwise disjoint. -/
theorem claim4_ops_sorted_nonoverlap (a b : List GoStr) (ops : List Op)
    (h : Operations a b = some ops) :
    List.Pairwise (fun p q : Op => p.i1 ≤ q.i1) ops ∧
      List.Pairwise (fun p q : Op =>
        ∀ t : Int, ¬(p.i1 ≤ t ∧ t < p.i2 ∧ q.i1 ≤ t ∧ t < q.i2)) ops := by
  rw [Operations] at h
  simp only [Option.bind_eq_bind] at h
  rcases Option.bind_eq_some.mp h with ⟨r, _, h2⟩
  rcases Option.bind_eq_some.mp h2 with ⟨snakes, _, h3⟩
  have hinv0 : OpsInv 0 [] := ⟨by simp, trivial⟩
  rcases opsLoop_inv b a.length b.length snakes 0 0 [] ops h3 hinv0 with
    ⟨x', _, hinv⟩
  have hpw := opsInv_pairwise hinv
  constructor
  · refine List.Pairwise.imp_of_mem ?_ hpw
    intro p q hp hq hle
    have := (hinv.1 p hp).1
    omega
  · refine hpw.imp ?_
    intro p q hle t
    omega

/-- Witness for C4 at a concrete input. -/
theorem claim4_witness :
    List.Pairwise (fun p q : Op => p.i1 ≤ q.i1)
        [({ kind := .del, content := [], i1 := 0, i2 := 1, j1 := 0 } : Op)] ∧
      List.Pairwise (fun p q : Op =>
        ∀ t : Int, ¬(p.i1 ≤ t ∧ t < p.i2 ∧ q.i1 ≤ t ∧ t < q.i2))
        [({ kind := .del, content := [], i1 := 0, i2 := 1, j1 := 0 } : Op)] :=
  claim4_ops_sorted_nonoverlap [['a', '\n']] []
    [{ kind := .del, content := [], i1 := 0, i2 := 1, j1 := 0 }] (by decide)

/-! ### The forward search: pure characterization -/

theorem extendGo_snd (a b : List GoStr) (M N : Int) (f : Nat) (x y : Int) :
    (extendGo a b M N f x y).2 = (extendGo a b M N f x y).1 - (x - y) := by
  induction f generalizing x y with
  | zero => simp only [extendGo]; omega
  | succ n ih =>
      simp only [extendGo]
      split
      · have := ih (x + 1) (y + 1)
        omega
      · omega

theorem extendDiag_snd (a b : List GoStr) (M N : Int) (x y : Int) :
    (extendDiag a b M N x y).2 = (extendDiag a b M N x y).1 - (x - y) :=
  extendGo_snd a b M N _ x y

theorem extendGo_fst_ge (a b : List GoStr) (M N : Int) (f : Nat) (x y : Int) :
    x ≤ (extendGo a b M N f x y).1 := by
  induction f generalizing x y with
  | zero => exact le_refl x
  | succ n ih =>
      simp only [extendGo]
      split
      · exact le_trans (by omega) (ih (x + 1) (y + 1))
      · exact le_refl x

theorem extendDiag_fst_ge (a b : List GoStr) (M N : Int) (x y : Int) :
    x ≤ (extendDiag a b M N x y).1 :=
  extendGo_fst_ge a b M N _ x y

theorem vget_in (V : List Int) (i : Int) (h1 : 0 ≤ i) (h2 : i < (V.length : Int)) :
    vget V i = some (V.getD i.toNat 0) :=
  if_pos ⟨h1, h2⟩

theorem vset_in (V : List Int) (i x : Int) (h1 : 0 ≤ i)
    (h2 : i < (V.length : Int)) :
    vset V i x = some (V.set i.toNat x) :=
  if_pos ⟨h1, h2⟩

/-- One step of the pure furthest-reach recurrence: the value the forward
search computes for diagonal `k` at depth `dd`, given the previous depth's
table `f` (out-of-range diagonals read as the array's initial zeros). -/
def reachStep (a b : List GoStr) (M N : Int) (f : Int → Int) (dd k : Int) : Int :=
  if k < -dd ∨ dd < k then 0
  else
    (extendDiag a b M N
      (if k = -dd ∨ (k ≠ dd ∧ f (k - 1) < f (k + 1)) then f (k + 1)
       else f (k - 1) + 1)
      ((if k = -dd ∨ (k ≠ dd ∧ f (k - 1) < f (k + 1)) then f (k + 1)
        else f (k - 1) + 1) - k)).1

/-- The furthest-reach table: `wreach a b M N (d+1) k` is the value the
forward search stores for diagonal `k` while working at depth `d`;
`wreach a b M N 0` is the virtual all-zero table before depth 0. -/
def wreach (a b : List GoStr) (M N : Int) : Nat → Int → Int
  | 0 => fun _ => 0
  | d + 1 => reachStep a b M N (wreach a b M N d) d

/-- The vector-state invariant of the inner loop: at depth `D`, about to
process diagonal `kLow` (diagonals `< kLow` of matching parity already
written this depth).  Entries of the non-matching parity hold the previous
depth's values, entries of matching parity not yet processed hold the
depth-before-previous values; `wreach`'s out-of-range-zero convention
absorbs the never-written entries. -/
def VFor (a b : List GoStr) (M N : Int) (D : Nat) (kLow : Int)
    (V : List Int) : Prop :=
  V.length = (2 * (N + M) + 1).toNat ∧
  ∀ k : Int, -(N + M) ≤ k → k ≤ N + M →
    V.getD (k + (N + M)).toNat 0 =
      if (k + D) % 2 = 0 then
        (if -(D : Int) ≤ k ∧ k < kLow then wreach a b M N (D + 1) k
         else wreach a b M N (D - 1) k)
      else wreach a b M N D k

/-- The initial all-zero vector satisfies the invariant at depth 0. -/
theorem vfor_init (a b : List GoStr) (M N : Int) :
    VFor a b M N 0 0 (List.replicate (2 * (N + M) + 1).toNat 0) := by
  constructor
  · exact List.length_replicate _ _
  · intro k h1 h2
    have : List.getD (List.replicate (2 * (N + M) + 1).toNat (0 : Int))
        (k + (N + M)).toNat 0 = 0 := by
      rw [List.getD_eq_getElem?_getD]
      rcases Nat.lt_or_ge (k + (N + M)).toNat (2 * (N + M) + 1).toNat with hlt | hge
      · rw [List.getElem?_replicate, if_pos hlt]
        rfl
      · rw [List.getElem?_eq_none (by rwa [List.length_replicate])]
        rfl
    rw [this]
    split
    · split
      · omega
      · rfl
    · rfl

/-- Writing the freshly computed reach for diagonal `k` advances the
invariant to `kLow = k + 2`. -/
theorem vfor_update (a b : List GoStr) (M N : Int) (D : Nat) (k : Int)
    (V : List Int) (hV : VFor a b M N D k V)
    (hk1 : -(D : Int) ≤ k) (hk2 : k ≤ (D : Int))
    (hpar : (k + (D : Int)) % 2 = 0) (hD : (D : Int) ≤ N + M) :
    VFor a b M N D (k + 2)
      (V.set (k + (N + M)).toNat (wreach a b M N (D + 1) k)) := by
  rcases hV with ⟨hlen, hpt⟩
  constructor
  · rw [List.length_set]
    exact hlen
  · intro k' h1 h2
    rcases eq_or_ne k' k with rfl | hne
    · have hidx : (k' + (N + M)).toNat < V.length := by
        rw [hlen]
        omega
      rw [List.getD_eq_getElem?_getD, List.getElem?_set_self hidx]
      rw [if_pos hpar, if_pos (by constructor <;> omega)]
      rfl
    · have hidx : (k + (N + M)).toNat ≠ (k' + (N + M)).toNat := by omega
      rw [List.getD_eq_getElem?_getD, List.getElem?_set_ne hidx,
        ← List.getD_eq_getElem?_getD]
      rw [hpt k' h1 h2]
      by_cases hp : (k' + (D : Int)) % 2 = 0
      · rw [if_pos hp, if_pos hp]
        by_cases ho : -(D : Int) ≤ k' ∧ k' < k
        · rw [if_pos ho, if_pos ⟨ho.1, by omega⟩]
        · rw [if_neg ho, if_neg (by
            intro hx
            apply ho
            refine ⟨hx.1, ?_⟩
            have : k' ≠ k + 1 := by omega
            omega)]
      · rw [if_neg hp, if_neg hp]


/-- Evaluating one iteration of the inner loop at depth `D`, diagonal `k`:
the body succeeds, stores `wreach (D+1) k`, and reports the early-return
flag exactly when that reach hits `(M, N)`. -/
theorem sesBody_step (a b : List GoStr) (M N : Int) (D : Nat) (k : Int)
    (V : List Int) (hV : VFor a b M N D k V)
    (hk1 : -(D : Int) ≤ k) (hk2 : k ≤ (D : Int))
    (hpar : (k + (D : Int)) % 2 = 0)
    (hD : (D : Int) ≤ N + M) (hNM : 1 ≤ N + M) :
    sesBody a b M N (N + M) (D : Int) k V =
      some (V.set (k + (N + M)).toNat (wreach a b M N (D + 1) k),
        decide (wreach a b M N (D + 1) k = M ∧
          wreach a b M N (D + 1) k - k = N)) := by
  have hlen := hV.1
  have hpt := hV.2
  have hlenI : (V.length : Int) = 2 * (N + M) + 1 := by
    rw [hlen]
    exact Int.toNat_of_nonneg (by omega)
  have hread : ∀ k', -(N + M) ≤ k' → k' ≤ N + M → (k' + (D : Int)) % 2 = 1 →
      vget V (k' + (N + M)) = some (wreach a b M N D k') := by
    intro k' h1 h2 hp
    rw [vget_in V _ (by omega) (by omega)]
    congr 1
    have h3 := hpt k' h1 h2
    rw [if_neg (by omega)] at h3
    exact h3
  have hext2 : ∀ x : Int, (extendDiag a b M N x (x - k)).2 =
      (extendDiag a b M N x (x - k)).1 - k := by
    intro x
    rw [extendDiag_snd]
    omega
  have hw : wreach a b M N (D + 1) k =
      (extendDiag a b M N
        (if k = -(D : Int) ∨ (k ≠ (D : Int) ∧
            wreach a b M N D (k - 1) < wreach a b M N D (k + 1)) then
          wreach a b M N D (k + 1)
         else wreach a b M N D (k - 1) + 1)
        ((if k = -(D : Int) ∨ (k ≠ (D : Int) ∧
            wreach a b M N D (k - 1) < wreach a b M N D (k + 1)) then
          wreach a b M N D (k + 1)
         else wreach a b M N D (k - 1) + 1) - k)).1 := by
    rw [wreach, reachStep, if_neg (by omega)]
  have hset : vset V (k + (N + M)) (wreach a b M N (D + 1) k) =
      some (V.set (k + (N + M)).toNat (wreach a b M N (D + 1) k)) :=
    vset_in V _ _ (by omega) (by omega)
  by_cases hA : k = -(D : Int)
  · -- forced down move
    have hsel : (k = -(D : Int) ∨ (k ≠ (D : Int) ∧
        wreach a b M N D (k - 1) < wreach a b M N D (k + 1))) := Or.inl hA
    rw [if_pos hsel] at hw
    have hrd : vget V (k + 1 + (N + M)) = some (wreach a b M N D (k + 1)) :=
      hread (k + 1) (by omega) (by omega) (by omega)
    simp only [sesBody, Option.bind_eq_bind]
    rw [if_pos hA]
    simp only [Option.pure_def, Option.some_bind]
    rw [if_pos trivial, hrd]
    simp only [Option.some_bind]
    rw [← hw, hset]
    simp only [Option.some_bind]
    rw [hext2, ← hw]
  · by_cases hB : k = (D : Int)
    · -- forced right move
      have hsel : ¬(k = -(D : Int) ∨ (k ≠ (D : Int) ∧
          wreach a b M N D (k - 1) < wreach a b M N D (k + 1))) := by
        intro hx
        rcases hx with hx | hx
        · exact hA hx
        · exact hx.1 hB
      rw [if_neg hsel] at hw
      have hDpos : 1 ≤ (D : Int) := by omega
      have hrd : vget V (k - 1 + (N + M)) = some (wreach a b M N D (k - 1)) :=
        hread (k - 1) (by omega) (by omega) (by omega)
      simp only [sesBody, Option.bind_eq_bind]
      rw [if_neg hA, if_neg (not_not_intro hB)]
      simp only [Option.pure_def, Option.some_bind]
      rw [if_neg Bool.false_ne_true, hrd]
      simp only [Option.pure_def, Option.some_bind]
      rw [← hw, hset]
      simp only [Option.some_bind]
      rw [hext2, ← hw]
    · -- interior diagonal: compare the two neighbors
      have hrdl : vget V (k - 1 + (N + M)) = some (wreach a b M N D (k - 1)) :=
        hread (k - 1) (by omega) (by omega) (by omega)
      have hrdr : vget V (k + 1 + (N + M)) = some (wreach a b M N D (k + 1)) :=
        hread (k + 1) (by omega) (by omega) (by omega)
      by_cases hlt : wreach a b M N D (k - 1) < wreach a b M N D (k + 1)
      · have hsel : (k = -(D : Int) ∨ (k ≠ (D : Int) ∧
            wreach a b M N D (k - 1) < wreach a b M N D (k + 1))) :=
          Or.inr ⟨hB, hlt⟩
        rw [if_pos hsel] at hw
        simp only [sesBody, Option.bind_eq_bind]
        rw [if_neg hA, if_pos hB]
        rw [hrdl]
        simp only [Option.pure_def, Option.some_bind]
        rw [hrdr]
        simp only [Option.some_bind]
        simp only [decide_eq_true_eq]
        rw [if_pos hlt]
        rw [← hw, hset]
        simp only [Option.some_bind]
        rw [hext2, ← hw]
      · have hsel : ¬(k = -(D : Int) ∨ (k ≠ (D : Int) ∧
            wreach a b M N D (k - 1) < wreach a b M N D (k + 1))) := by
          intro hx
          rcases hx with hx | hx
          · exact hA hx
          · exact hlt hx.2
        rw [if_neg hsel] at hw
        simp only [sesBody, Option.bind_eq_bind]
        rw [if_neg hA, if_pos hB]
        rw [hrdl]
        simp only [Option.pure_def, Option.some_bind]
        rw [hrdr]
        simp only [Option.some_bind]
        simp only [decide_eq_true_eq]
        rw [if_neg hlt]
        rw [← hw, hset]
        simp only [Option.some_bind]
        rw [hext2, ← hw]


/-- The early-return condition at depth `D`: the solution diagonal `M - N`
is scanned at this depth and its stored reach is exactly `M` (hence the
corresponding `y` is exactly `N`). -/
def FireAt (a b : List GoStr) (M N : Int) (D : Nat) : Prop :=
  -(D : Int) ≤ M - N ∧ M - N ≤ (D : Int) ∧ (M - N + (D : Int)) % 2 = 0 ∧
    wreach a b M N (D + 1) (M - N) = M

theorem ksList_length (d : Nat) : (ksList d).length = d + 1 := by
  simp only [ksList, List.length_map, List.length_range]

theorem ksList_drop_cons (d j : Nat) (hj : j ≤ d) :
    (ksList d).drop j = (-(d : Int) + 2 * (j : Int)) :: (ksList d).drop (j + 1) := by
  have hlt : j < (ksList d).length := by
    rw [ksList_length]
    omega
  rw [List.drop_eq_getElem_cons hlt]
  congr 1
  simp only [ksList, List.getElem_map, List.getElem_range]

/-- Relaxing the processed bound of `VFor` by one position of the wrong
parity. -/
theorem vfor_kLow_shift (a b : List GoStr) (M N : Int) (D : Nat) (k : Int)
    (V : List Int) (hpar : (k + (D : Int)) % 2 = 0)
    (hV : VFor a b M N D (k + 2) V) : VFor a b M N D (k + 1) V := by
  refine ⟨hV.1, ?_⟩
  intro k' h1 h2
  rw [hV.2 k' h1 h2]
  by_cases hp : (k' + (D : Int)) % 2 = 0
  · rw [if_pos hp, if_pos hp]
    by_cases ho : -(D : Int) ≤ k' ∧ k' < k + 1
    · rw [if_pos ho, if_pos ⟨ho.1, by omega⟩]
    · rw [if_neg ho, if_neg (by
        intro hx
        exact ho ⟨hx.1, by omega⟩)]
  · rw [if_neg hp, if_neg hp]

/-- Running the inner loop from scan position `j` at depth `D`: if the
early-return condition holds at this depth (and its diagonal has not yet
been passed), the loop returns `Sum.inr` with the partially updated
snapshot; otherwise it completes the depth normally. -/
theorem sesInner_run (a b : List GoStr) (M N : Int) (D : Nat)
    (hD : (D : Int) ≤ N + M) (hNM : 1 ≤ N + M) :
    ∀ (j : Nat) (V : List Int), j ≤ D + 1 →
      VFor a b M N D (-(D : Int) + 2 * (j : Int)) V →
      ((FireAt a b M N D ∧ -(D : Int) + 2 * (j : Int) ≤ M - N →
        ∃ V', sesInner a b M N (N + M) (D : Int) ((ksList D).drop j) V =
            some (Sum.inr V') ∧ VFor a b M N D (M - N + 1) V') ∧
       (¬(FireAt a b M N D ∧ -(D : Int) + 2 * (j : Int) ≤ M - N) →
        ∃ V', sesInner a b M N (N + M) (D : Int) ((ksList D).drop j) V =
            some (Sum.inl V') ∧ VFor a b M N D ((D : Int) + 2) V')) := by
  suffices H : ∀ (n j : Nat) (V : List Int), n = D + 1 - j → j ≤ D + 1 →
      VFor a b M N D (-(D : Int) + 2 * (j : Int)) V →
      ((FireAt a b M N D ∧ -(D : Int) + 2 * (j : Int) ≤ M - N →
        ∃ V', sesInner a b M N (N + M) (D : Int) ((ksList D).drop j) V =
            some (Sum.inr V') ∧ VFor a b M N D (M - N + 1) V') ∧
       (¬(FireAt a b M N D ∧ -(D : Int) + 2 * (j : Int) ≤ M - N) →
        ∃ V', sesInner a b M N (N + M) (D : Int) ((ksList D).drop j) V =
            some (Sum.inl V') ∧ VFor a b M N D ((D : Int) + 2) V')) by
    intro j V hj hV
    exact H (D + 1 - j) j V rfl hj hV
  intro n
  induction n with
  | zero =>
      intro j V hn hj hV
      have hj2 : j = D + 1 := by omega
      subst hj2
      constructor
      · intro hx
        have h1 := hx.1.2.1
        have h2 := hx.2
        push_cast at h2
        omega
      · intro _
        refine ⟨V, ?_, ?_⟩
        · rw [List.drop_eq_nil_of_le (by rw [ksList_length])]
          rfl
        · have harith : -(D : Int) + 2 * ((D + 1 : Nat) : Int) = (D : Int) + 2 := by
            push_cast
            ring
          rw [harith] at hV
          exact hV
  | succ n ih =>
      intro j V hn hj hV
      have hjD : j ≤ D := by omega
      set k : Int := -(D : Int) + 2 * (j : Int) with hk
      have hk1 : -(D : Int) ≤ k := by omega
      have hk2 : k ≤ (D : Int) := by omega
      have hkpar : (k + (D : Int)) % 2 = 0 := by omega
      have hstep := sesBody_step a b M N D k V hV hk1 hk2 hkpar hD hNM
      have hupd := vfor_update a b M N D k V hV hk1 hk2 hkpar hD
      have hcons : sesInner a b M N (N + M) (D : Int) ((ksList D).drop j) V =
          (sesBody a b M N (N + M) (D : Int) k V).bind
            (fun r => if r.2 = true then pure (Sum.inr r.1)
              else sesInner a b M N (N + M) (D : Int)
                ((ksList D).drop (j + 1)) r.1) := by
        rw [ksList_drop_cons D j hjD]
        rfl
      rw [hcons, hstep]
      simp only [Option.some_bind]
      by_cases hfire : wreach a b M N (D + 1) k = M ∧
          wreach a b M N (D + 1) k - k = N
      · have hkMN : k = M - N := by omega
        rw [if_pos (by
          rw [decide_eq_true_eq]
          exact hfire)]
        have h2 := vfor_kLow_shift a b M N D k _ hkpar hupd
        rw [hkMN] at h2
        constructor
        · intro _
          refine ⟨_, rfl, ?_⟩
          rw [hkMN]
          exact h2
        · intro hno
          exfalso
          apply hno
          refine ⟨⟨by omega, by omega, by omega, ?_⟩, by omega⟩
          rw [← hkMN]
          exact hfire.1
      · rw [if_neg (by
          rw [decide_eq_true_eq]
          exact hfire)]
        have harith : k + 2 = -(D : Int) + 2 * ((j + 1 : Nat) : Int) := by
          push_cast
          omega
        rw [harith] at hupd
        have hrec := ih (j + 1) _ (by omega) (by omega) hupd
        constructor
        · intro hFA
          have hkne : M - N ≠ k := by
            intro hx
            apply hfire
            have h1 := hFA.1.2.2.2
            rw [hx] at h1
            exact ⟨h1, by omega⟩
          have hpar2 : (M - N + (D : Int)) % 2 = 0 := hFA.1.2.2.1
          refine hrec.1 ⟨hFA.1, ?_⟩
          push_cast
          have := hFA.2
          omega
        · intro hFA
          refine hrec.2 ?_
          intro hx
          apply hFA
          refine ⟨hx.1, ?_⟩
          have := hx.2
          push_cast at this ⊢
          omega


theorem wreach_oor (a b : List GoStr) (M N : Int) (n : Nat) (k : Int)
    (h : k < -((n : Int) - 1) ∨ (n : Int) - 1 < k) : wreach a b M N n k = 0 := by
  cases n with
  | zero => rfl
  | succ m =>
      rw [wreach, reachStep, if_pos (by push_cast at h ⊢; omega)]

/-- Completing a depth turns the invariant into the starting invariant of
the next depth. -/
theorem vfor_depth_advance (a b : List GoStr) (M N : Int) (d : Nat)
    (V : List Int) (hV : VFor a b M N d ((d : Int) + 2) V) :
    VFor a b M N (d + 1) (-((d : Int) + 1)) V := by
  refine ⟨hV.1, ?_⟩
  intro k h1 h2
  rw [hV.2 k h1 h2]
  by_cases hp : (k + (d : Int)) % 2 = 0
  · rw [if_pos hp,
      if_neg (show ¬((k + ((d + 1 : Nat) : Int)) % 2 = 0) by push_cast; omega)]
    by_cases ho : -(d : Int) ≤ k ∧ k < (d : Int) + 2
    · rw [if_pos ho]
    · rw [if_neg ho]
      rw [wreach_oor a b M N (d - 1) k (by push_cast; omega),
        wreach_oor a b M N (d + 1) k (by push_cast; omega)]
  · rw [if_neg hp,
      if_pos (show (k + ((d + 1 : Nat) : Int)) % 2 = 0 by push_cast; omega),
      if_neg (show ¬(-((d + 1 : Nat) : Int) ≤ k ∧ k < -((d : Int) + 1)) by
        push_cast; omega)]
    simp only [Nat.add_sub_cancel]

/-- Running the outer loop from depth `d ≤ D`, where `D` is the first
firing depth: the search returns the accumulated prefix extended by full
snapshots for depths `d..D-1`, the partial firing snapshot at `D`, and
`nil` entries beyond. -/
theorem sesOuter_run (a b : List GoStr) (M N : Int) (hNM : 1 ≤ N + M)
    (D : Nat) (hfireD : FireAt a b M N D)
    (hleast : ∀ e : Nat, e < D → ¬FireAt a b M N e)
    (hD : (D : Int) ≤ N + M) :
    ∀ (n d : Nat) (V : List Int) (tr : List (Option (List Int))),
      n = D - d → d ≤ D →
      VFor a b M N d (-(d : Int)) V →
      ∃ tl : List (Option (List Int)),
        sesOuter a b M N (N + M) ((N + M + 1).toNat - d) (d : Int) V tr =
          some (tr ++ tl, N + M) ∧
        tl.length = (N + M + 1).toNat - d ∧
        (∀ i : Nat, i < D - d → ∃ Ve, tl[i]? = some (some Ve) ∧
            VFor a b M N (d + i) (((d + i : Nat) : Int) + 2) Ve) ∧
        (∃ Vf, tl[D - d]? = some (some Vf) ∧
            VFor a b M N D (M - N + 1) Vf) ∧
        (∀ i : Nat, D - d < i → i < tl.length → tl[i]? = some none) := by
  intro n
  induction n with
  | zero =>
      intro d V tr hn hdD hV
      have hdeq : d = D := by omega
      subst hdeq
      have hr : (N + M + 1).toNat - d = ((N + M + 1).toNat - d - 1) + 1 := by
        omega
      rw [hr]
      have hV0 : VFor a b M N d (-(d : Int) + 2 * ((0 : Nat) : Int)) V := by
        have : -(d : Int) + 2 * ((0 : Nat) : Int) = -(d : Int) := by push_cast; ring
        rw [this]
        exact hV
      have hrun := (sesInner_run a b M N d hD hNM 0 V (by omega) hV0).1
        (by
          refine ⟨hfireD, ?_⟩
          have := hfireD.1
          push_cast
          omega)
      rcases hrun with ⟨V', hV', hVf⟩
      rw [List.drop_zero] at hV'
      refine ⟨some V' :: List.replicate (N + M - (d : Int)).toNat none, ?_, ?_, ?_, ?_, ?_⟩
      · show (sesInner a b M N (N + M) (d : Int) (ksList (d : Int).toNat) V).bind _ =
          _
        rw [Int.toNat_natCast, hV']
        simp only [Option.some_bind]
        rw [List.append_assoc]
        rfl
      · simp only [List.length_cons, List.length_replicate]
        omega
      · intro i hi
        omega
      · refine ⟨V', ?_, hVf⟩
        simp only [Nat.sub_self]
        rw [List.getElem?_cons_zero]
      · intro i h1 h2
        simp only [List.length_cons, List.length_replicate] at h2
        rcases Nat.exists_eq_succ_of_ne_zero (show i ≠ 0 by omega) with ⟨i', rfl⟩
        simp only [List.getElem?_cons_succ]
        rw [List.getElem?_replicate, if_pos (by omega)]
  | succ n ih =>
      intro d V tr hn hdD hV
      have hdlt : d < D := by omega
      have hr : (N + M + 1).toNat - d = ((N + M + 1).toNat - d - 1) + 1 := by
        omega
      rw [hr]
      have hV0 : VFor a b M N d (-(d : Int) + 2 * ((0 : Nat) : Int)) V := by
        have : -(d : Int) + 2 * ((0 : Nat) : Int) = -(d : Int) := by push_cast; ring
        rw [this]
        exact hV
      have hrun := (sesInner_run a b M N d (by omega) hNM 0 V (by omega) hV0).2
        (by
          intro hx
          exact hleast d hdlt hx.1)
      rcases hrun with ⟨V', hV', hVd⟩
      rw [List.drop_zero] at hV'
      have hnext : VFor a b M N (d + 1) (-((d + 1 : Nat) : Int)) V' := by
        have := vfor_depth_advance a b M N d V' hVd
        have harith : -((d : Int) + 1) = -((d + 1 : Nat) : Int) := by push_cast; ring
        rwa [harith] at this
      have hrec := ih (d + 1) V' (tr ++ [some V']) (by omega) (by omega) hnext
      rcases hrec with ⟨tl', heq', hlen', hfull', hfire', hnone'⟩
      refine ⟨some V' :: tl', ?_, ?_, ?_, ?_, ?_⟩
      · show (sesInner a b M N (N + M) (d : Int) (ksList (d : Int).toNat) V).bind _ =
          _
        rw [Int.toNat_natCast, hV']
        simp only [Option.some_bind]
        have harg : (N + M + 1).toNat - d - 1 = (N + M + 1).toNat - (d + 1) := by
          omega
        have hcast : ((d : Int) + 1) = ((d + 1 : Nat) : Int) := by push_cast; ring
        rw [harg, hcast, heq']
        rw [List.append_assoc]
        rfl
      · simp only [List.length_cons, hlen']
        omega
      · intro i hi
        cases i with
        | zero =>
            refine ⟨V', ?_, ?_⟩
            · rw [List.getElem?_cons_zero]
            · have : ((d + 0 : Nat) : Int) = (d : Int) := by push_cast; ring
              rw [this]
              exact hVd
        | succ i' =>
            simp only [List.getElem?_cons_succ]
            have h2 := hfull' i' (by omega)
            rcases h2 with ⟨Ve, hVe, hVfor⟩
            refine ⟨Ve, hVe, ?_⟩
            have : (d + (i' + 1)) = (d + 1 + i') := by omega
            rw [this]
            exact hVfor
      · have hds : D - d = (D - (d + 1)) + 1 := by omega
        rw [hds]
        simp only [List.getElem?_cons_succ]
        exact hfire'
      · intro i h1 h2
        simp only [List.length_cons] at h2
        rcases Nat.exists_eq_succ_of_ne_zero (show i ≠ 0 by omega) with ⟨i', rfl⟩
        simp only [List.getElem?_cons_succ]
        exact hnone' i' (by omega) (by omega)


/-- The trace produced by a firing run: full snapshots below the firing
depth `D`, the partial firing snapshot at `D`, `nil` beyond. -/
def TraceOK (a b : List GoStr) (M N : Int) (D : Nat)
    (tr : List (Option (List Int))) : Prop :=
  tr.length = (N + M + 1).toNat ∧
  (∀ e : Nat, e < D → ∃ Ve, tr[e]? = some (some Ve) ∧
      VFor a b M N e ((e : Int) + 2) Ve) ∧
  (∃ Vf, tr[D]? = some (some Vf) ∧ VFor a b M N D (M - N + 1) Vf) ∧
  (∀ e : Nat, D < e → e < tr.length → tr[e]? = some none)

/-- Top-level characterization of `shortestEditSequence` when depth `D` is
the first firing depth. -/
theorem shortestEditSequence_run (a b : List GoStr) (D : Nat)
    (hfireD : FireAt a b a.length b.length D)
    (hleast : ∀ e : Nat, e < D → ¬FireAt a b a.length b.length e)
    (hNM : 1 ≤ (b.length : Int) + (a.length : Int))
    (hD : (D : Int) ≤ (b.length : Int) + (a.length : Int)) :
    ∃ tr, shortestEditSequence a b =
        some (tr, (b.length : Int) + (a.length : Int)) ∧
      TraceOK a b a.length b.length D tr := by
  have hinit := vfor_init a b (a.length : Int) (b.length : Int)
  have hinit0 : VFor a b (a.length : Int) (b.length : Int) 0 (-((0 : Nat) : Int))
      (List.replicate (2 * ((b.length : Int) + (a.length : Int)) + 1).toNat 0) := by
    have : -((0 : Nat) : Int) = (0 : Int) := by norm_num
    rw [this]
    exact hinit
  have hrun := sesOuter_run a b (a.length : Int) (b.length : Int) hNM D hfireD
    hleast hD D 0 _ [] (by omega) (by omega) hinit0
  rcases hrun with ⟨tl, heq, hlen, hfull, hfire, hnone⟩
  refine ⟨tl, ?_, ?_, ?_, ?_, ?_⟩
  · show sesOuter a b (a.length : Int) (b.length : Int)
        ((b.length : Int) + (a.length : Int))
        ((b.length : Int) + (a.length : Int) + 1).toNat ((0 : Nat) : Int)
        (List.replicate (2 * ((b.length : Int) + (a.length : Int)) + 1).toNat 0)
        [] = _
    have hsub : ((b.length : Int) + (a.length : Int) + 1).toNat =
        ((b.length : Int) + (a.length : Int) + 1).toNat - 0 := by omega
    rw [hsub, heq]
    rfl
  · rw [hlen]
    omega
  · intro e he
    have h2 := hfull e (by omega)
    rcases h2 with ⟨Ve, hVe, hVfor⟩
    refine ⟨Ve, hVe, ?_⟩
    simp only [Nat.zero_add] at hVfor
    exact hVfor
  · have h2 := hfire
    rw [Nat.sub_zero] at h2
    exact h2
  · intro e h1 h2
    rw [hlen] at h2
    exact hnone e (by omega) (by omega)

theorem wreach_nonneg (a b : List GoStr) (M N : Int) (n : Nat) (k : Int) :
    0 ≤ wreach a b M N n k := by
  induction n generalizing k with
  | zero => exact le_refl 0
  | succ m ih =>
      rw [wreach, reachStep]
      split
      · exact le_refl 0
      · refine le_trans ?_ (extendDiag_fst_ge a b M N _ _)
        split
        · exact ih (k + 1)
        · have := ih (k - 1)
          omega

theorem wreach_ge_k (a b : List GoStr) (M N : Int) (n : Nat) (k : Int)
    (h1 : -(n : Int) ≤ k) (h2 : k ≤ (n : Int)) :
    k ≤ wreach a b M N (n + 1) k := by
  induction n generalizing k with
  | zero =>
      have hk : k = 0 := by omega
      subst hk
      exact wreach_nonneg a b M N 1 0
  | succ m ih =>
      rcases le_or_lt k 0 with hk0 | hk0
      · exact le_trans hk0 (wreach_nonneg a b M N (m + 2) k)
      · rw [wreach, reachStep, if_neg (by omega)]
        refine le_trans ?_ (extendDiag_fst_ge a b M N _ _)
        split
        · next hcond =>
            have hkm : k + 1 ≤ (m : Int) + 1 := by omega
            rcases hcond with hcond | hcond
            · omega
            · rcases eq_or_lt_of_le hkm with heq | hlt
              · exfalso
                have h0 := wreach_nonneg a b M N (m + 1) (k - 1)
                have hoor : wreach a b M N (m + 1) (k + 1) = 0 :=
                  wreach_oor a b M N (m + 1) (k + 1) (by push_cast; omega)
                have h2 := hcond.2
                omega
              · have := ih (k + 1) (by omega) (by omega)
                omega
        · have := ih (k - 1) (by omega) (by omega)
          omega

theorem extendGo_fst_le (a b : List GoStr) (M N : Int) (f : Nat) (x y : Int)
    (hx : x ≤ M) : (extendGo a b M N f x y).1 ≤ M := by
  induction f generalizing x y with
  | zero => exact hx
  | succ n ih =>
      simp only [extendGo]
      split
      · next h => exact ih (x + 1) (y + 1) (by omega)
      · exact hx

theorem extendDiag_fst_le (a b : List GoStr) (M N : Int) (x y : Int)
    (hx : x ≤ M) : (extendDiag a b M N x y).1 ≤ M :=
  extendGo_fst_le a b M N _ x y hx

theorem extendGo_snd_le (a b : List GoStr) (M N : Int) (f : Nat) (x y : Int)
    (hy : y ≤ N) : (extendGo a b M N f x y).2 ≤ N := by
  induction f generalizing x y with
  | zero => exact hy
  | succ n ih =>
      simp only [extendGo]
      split
      · next h => exact ih (x + 1) (y + 1) (by omega)
      · exact hy

theorem extendDiag_snd_le (a b : List GoStr) (M N : Int) (x y : Int)
    (hy : y ≤ N) : (extendDiag a b M N x y).2 ≤ N :=
  extendGo_snd_le a b M N _ x y hy

/-- Every column crossed by the diagonal extension joins comparer-equal
lines of `a` and `b`. -/
theorem extendGo_run (a b : List GoStr) (M N : Int) (f : Nat) (x y : Int) :
    ∀ i : Int, x ≤ i → i < (extendGo a b M N f x y).1 →
      i < M ∧ i - (x - y) < N ∧
        stringEqualIgnoreLF (a.getD i.toNat []) (b.getD (i - (x - y)).toNat [])
          = true := by
  induction f generalizing x y with
  | zero =>
      intro i h1 h2
      simp only [extendGo] at h2
      omega
  | succ n ih =>
      intro i h1 h2
      simp only [extendGo] at h2 ⊢
      by_cases hc : x < M ∧ y < N ∧
          stringEqualIgnoreLF (a.getD x.toNat []) (b.getD y.toNat []) = true
      · rw [if_pos hc] at h2
        rcases eq_or_lt_of_le h1 with heq | hlt
        · subst heq
          refine ⟨hc.1, ?_, ?_⟩
          · have h3 : x - (x - y) = y := by omega
            rw [h3]
            exact hc.2.1
          · have h3 : x - (x - y) = y := by omega
            rw [h3]
            exact hc.2.2
        · have := ih (x + 1) (y + 1) i (by omega) h2
          have harith : i - (x + 1 - (y + 1)) = i - (x - y) := by omega
          rw [harith] at this
          exact this
      · rw [if_neg hc] at h2
        omega

theorem extendDiag_run (a b : List GoStr) (M N : Int) (x y : Int) :
    ∀ i : Int, x ≤ i → i < (extendDiag a b M N x y).1 →
      i < M ∧ i - (x - y) < N ∧
        stringEqualIgnoreLF (a.getD i.toNat []) (b.getD (i - (x - y)).toNat [])
          = true :=
  extendGo_run a b M N _ x y

/-- The step selector of the forward search at depth `e`, diagonal `k`. -/
def wSel (a b : List GoStr) (M N : Int) (e : Nat) (k : Int) : Int :=
  if k = -(e : Int) ∨ (k ≠ (e : Int) ∧
      wreach a b M N e (k - 1) < wreach a b M N e (k + 1)) then
    wreach a b M N e (k + 1)
  else wreach a b M N e (k - 1) + 1

theorem wreach_succ_eq (a b : List GoStr) (M N : Int) (e : Nat) (k : Int)
    (h1 : -(e : Int) ≤ k) (h2 : k ≤ (e : Int)) :
    wreach a b M N (e + 1) k =
      (extendDiag a b M N (wSel a b M N e k) (wSel a b M N e k - k)).1 := by
  rw [wreach, reachStep, if_neg (by omega), wSel]


/-- Reading a previous-depth entry out of a snapshot satisfying `VFor`. -/
theorem vfor_read (a b : List GoStr) (M N : Int) (e : Nat) (kLow : Int)
    (Ve : List Int) (hV : VFor a b M N e kLow Ve) (k' : Int)
    (h1 : -(N + M) ≤ k') (h2 : k' ≤ N + M) (hp : (k' + (e : Int)) % 2 = 1) :
    vget Ve (k' + (N + M)) = some (wreach a b M N e k') := by
  have hlen := hV.1
  rw [vget_in Ve _ (by omega) (by
    rw [hlen]
    push_cast [Int.toNat_of_nonneg (show (0:Int) ≤ 2 * (N + M) + 1 by omega)]
    omega)]
  congr 1
  have h3 := hV.2 k' h1 h2
  rw [if_neg (by omega)] at h3
  exact h3

/-- The walk-position invariant of the backward pass: at depth `e` the
position is the stored furthest reach of its own diagonal, lies in the
grid, and its diagonal is within the depth's band with matching parity. -/
def WPos (a b : List GoStr) (M N : Int) (e : Nat) (x y : Int) : Prop :=
  x = wreach a b M N (e + 1) (x - y) ∧ 0 ≤ x ∧ 0 ≤ y ∧ x ≤ M ∧ y ≤ N ∧
    -(e : Int) ≤ x - y ∧ x - y ≤ (e : Int) ∧ (x - y + (e : Int)) % 2 = 0

/-- One backward-walk gap: `q` is reached from `p` by a single horizontal
or vertical move followed by the maximal diagonal extension. -/
def SnakeStep (a b : List GoStr) (M N : Int) (p q : Int × Int) : Prop :=
  p.1 ≤ q.1 ∧ p.2 ≤ q.2 ∧
    ((q.1 - q.2 = p.1 - p.2 + 1 ∧ extendDiag a b M N (p.1 + 1) p.2 = q) ∨
     (q.1 - q.2 = p.1 - p.2 - 1 ∧ extendDiag a b M N p.1 (p.2 + 1) = q))

/-- Skipping the `nil` trace entries above the firing depth. -/
theorem btSkip (tr : List (Option (List Int))) (off : Int) (D : Nat)
    (hnone : ∀ e : Nat, D < e → e < tr.length → tr[e]? = some none) :
    ∀ (d : Nat) (x y : Int) (s : List (Option (List Int))),
      D ≤ d → d < tr.length → 0 < x → 0 < y →
      backtrackLoop tr off d x y s = backtrackLoop tr off D x y s := by
  intro d
  induction d with
  | zero =>
      intro x y s h1 h2 hx hy
      have : D = 0 := by omega
      rw [this]
  | succ n ih =>
      intro x y s h1 h2 hx hy
      rcases eq_or_lt_of_le h1 with heq | hlt
      · rw [heq]
      · have hD : D ≤ n := by omega
        show (if 0 < x ∧ 0 < y then _ else _) = _
        rw [if_pos ⟨hx, hy⟩]
        have hentry : tr[n + 1]? = some none := hnone (n + 1) (by omega) h2
        have hgd : tr.getD (n + 1) none = none := by
          rw [List.getD_eq_getElem?_getD, hentry]
          rfl
        rw [hgd]
        rw [if_pos (by rfl)]
        exact ih x y s hD (by omega) hx hy


/-- One step of the backward walk at positive depth `d + 1`: the body
picks the predecessor diagonal with the same selection rule as the
forward pass (`wSel`), reads its stored reach from the snapshot, stores
the current position as the snake at index `d + 1`, and recurses. -/
theorem btBody (a b : List GoStr) (M N : Int) (tr : List (Option (List Int)))
    (d : Nat) (x y : Int) (s : List (Option (List Int)))
    (hx : 0 < x) (hy : 0 < y)
    (Ve : List Int) (kL : Int)
    (hVe : tr[d + 1]? = some (some Ve))
    (hVF : VFor a b M N (d + 1) kL Ve)
    (hNM : 1 ≤ N + M) (hdD : (d : Int) + 1 ≤ N + M)
    (hb1 : -((d : Int) + 1) ≤ x - y) (hb2 : x - y ≤ (d : Int) + 1)
    (hp : (x - y + ((d : Int) + 1)) % 2 = 0) :
    ∃ kPrev : Int,
      (kPrev = x - y + 1 ∨ kPrev = x - y - 1) ∧
      -(d : Int) ≤ kPrev ∧ kPrev ≤ (d : Int) ∧
      wSel a b M N (d + 1) (x - y) =
        (if kPrev = x - y + 1 then wreach a b M N (d + 1) kPrev
         else wreach a b M N (d + 1) kPrev + 1) ∧
      backtrackLoop tr (N + M) (d + 1) x y s =
        backtrackLoop tr (N + M) d (wreach a b M N (d + 1) kPrev)
          (wreach a b M N (d + 1) kPrev - kPrev) (s.set (d + 1) (some [x, y])) := by
  have hlen0 : ¬ Ve.length = 0 := by
    have h := hVF.1
    omega
  have hgd : tr.getD (d + 1) none = some Ve := by
    rw [List.getD_eq_getElem?_getD, hVe]
    rfl
  have hread : ∀ k', -(N + M) ≤ k' → k' ≤ N + M →
      (k' + ((d : Int) + 1)) % 2 = 1 →
      vget Ve (k' + (N + M)) = some (wreach a b M N (d + 1) k') := by
    intro k' h1 h2 hpp
    exact vfor_read a b M N (d + 1) kL Ve hVF k' h1 h2 (by push_cast; omega)
  by_cases hA : x - y = -((d : Int) + 1)
  · -- forced down move
    have hrd : vget Ve (x - y + 1 + (N + M)) =
        some (wreach a b M N (d + 1) (x - y + 1)) :=
      hread (x - y + 1) (by omega) (by omega) (by omega)
    refine ⟨x - y + 1, Or.inl rfl, by omega, by omega, ?_, ?_⟩
    · have hR : (if x - y + 1 = x - y + 1 then wreach a b M N (d + 1) (x - y + 1)
          else wreach a b M N (d + 1) (x - y + 1) + 1) =
          wreach a b M N (d + 1) (x - y + 1) := if_pos rfl
      rw [hR]
      simp only [wSel]
      rw [if_pos (Or.inl (by push_cast; omega))]
    · show (if 0 < x ∧ 0 < y then _ else _) = _
      rw [if_pos ⟨hx, hy⟩, hgd]
      simp only [Option.getD_some]
      rw [if_neg hlen0]
      simp only [Option.bind_eq_bind]
      rw [if_pos hA]
      simp only [Option.pure_def, Option.some_bind]
      rw [if_pos trivial, hrd]
      simp only [Option.some_bind]
  · by_cases hB : x - y = (d : Int) + 1
    · -- forced right move
      have hrd : vget Ve (x - y - 1 + (N + M)) =
          some (wreach a b M N (d + 1) (x - y - 1)) :=
        hread (x - y - 1) (by omega) (by omega) (by omega)
      refine ⟨x - y - 1, Or.inr rfl, by omega, by omega, ?_, ?_⟩
      · have hR : (if x - y - 1 = x - y + 1 then wreach a b M N (d + 1) (x - y - 1)
            else wreach a b M N (d + 1) (x - y - 1) + 1) =
            wreach a b M N (d + 1) (x - y - 1) + 1 := if_neg (by omega)
        rw [hR]
        simp only [wSel]
        rw [if_neg ?hres]
        case hres =>
          intro hcon
          rcases hcon with hcon | hcon
          · push_cast at hcon
            omega
          · apply hcon.1
            push_cast
            omega
      · show (if 0 < x ∧ 0 < y then _ else _) = _
        rw [if_pos ⟨hx, hy⟩, hgd]
        simp only [Option.getD_some]
        rw [if_neg hlen0]
        simp only [Option.bind_eq_bind]
        rw [if_neg hA, if_neg (not_not_intro hB)]
        simp only [Option.pure_def, Option.some_bind]
        rw [if_neg Bool.false_ne_true, hrd]
        simp only [Option.some_bind]
    · -- interior diagonal
      have hband : -(d : Int) + 1 ≤ x - y ∧ x - y ≤ (d : Int) - 1 := by omega
      have hrdl : vget Ve (x - y - 1 + (N + M)) =
          some (wreach a b M N (d + 1) (x - y - 1)) :=
        hread (x - y - 1) (by omega) (by omega) (by omega)
      have hrdr : vget Ve (x - y + 1 + (N + M)) =
          some (wreach a b M N (d + 1) (x - y + 1)) :=
        hread (x - y + 1) (by omega) (by omega) (by omega)
      by_cases hlt : wreach a b M N (d + 1) (x - y - 1) <
          wreach a b M N (d + 1) (x - y + 1)
      · refine ⟨x - y + 1, Or.inl rfl, by omega, by omega, ?_, ?_⟩
        · have hR : (if x - y + 1 = x - y + 1 then
              wreach a b M N (d + 1) (x - y + 1)
              else wreach a b M N (d + 1) (x - y + 1) + 1) =
              wreach a b M N (d + 1) (x - y + 1) := if_pos rfl
          rw [hR]
          simp only [wSel]
          rw [if_pos (Or.inr ⟨by push_cast; omega, hlt⟩)]
        · show (if 0 < x ∧ 0 < y then _ else _) = _
          rw [if_pos ⟨hx, hy⟩, hgd]
          simp only [Option.getD_some]
          rw [if_neg hlen0]
          simp only [Option.bind_eq_bind]
          rw [if_neg hA, if_pos hB]
          rw [hrdl]
          simp only [Option.pure_def, Option.some_bind]
          rw [hrdr]
          simp only [Option.some_bind]
          simp only [decide_eq_true_eq]
          rw [if_pos hlt, hrdr]
          simp only [Option.some_bind]
      · refine ⟨x - y - 1, Or.inr rfl, by omega, by omega, ?_, ?_⟩
        · have hR : (if x - y - 1 = x - y + 1 then
              wreach a b M N (d + 1) (x - y - 1)
              else wreach a b M N (d + 1) (x - y - 1) + 1) =
              wreach a b M N (d + 1) (x - y - 1) + 1 := if_neg (by omega)
          rw [hR]
          simp only [wSel]
          rw [if_neg ?hres2]
          case hres2 =>
            intro hcon
            rcases hcon with hcon | hcon
            · push_cast at hcon
              omega
            · exact hlt hcon.2
        · show (if 0 < x ∧ 0 < y then _ else _) = _
          rw [if_pos ⟨hx, hy⟩, hgd]
          simp only [Option.getD_some]
          rw [if_neg hlen0]
          simp only [Option.bind_eq_bind]
          rw [if_neg hA, if_pos hB]
          rw [hrdl]
          simp only [Option.pure_def, Option.some_bind]
          rw [hrdr]
          simp only [Option.some_bind]
          simp only [decide_eq_true_eq]
          rw [if_neg hlt, hrdl]
          simp only [Option.some_bind]


/-- The backward walk: starting from a position satisfying `WPos` at depth
`e`, `backtrackLoop` terminates at a position satisfying `WPos` at some
depth `dEx` that is `0` or on the boundary, having recorded one snake per
intermediate depth; consecutive walk positions are joined by `SnakeStep`. -/
theorem btWalk (a b : List GoStr) (M N : Int) (D : Nat)
    (tr : List (Option (List Int))) (hTr : TraceOK a b M N D tr)
    (hNM : 1 ≤ N + M) (hDle : (D : Int) ≤ N + M) :
    ∀ (e : Nat) (x y : Int) (s : List (Option (List Int))),
      e ≤ D → s.length = tr.length → WPos a b M N e x y →
      ∃ (s' : List (Option (List Int))) (dEx : Nat) (xe ye : Int)
        (ps : List (Int × Int)),
        backtrackLoop tr (N + M) e x y s = some (s', dEx, xe, ye) ∧
        s'.length = tr.length ∧
        dEx ≤ e ∧ (xe ≤ 0 ∨ ye ≤ 0 ∨ dEx = 0) ∧
        WPos a b M N dEx xe ye ∧
        ps.length = e - dEx + 1 ∧
        ps.head? = some (xe, ye) ∧
        ps.getLast? = some (x, y) ∧
        List.Chain' (SnakeStep a b M N) ps ∧
        (∀ j : Nat, 1 ≤ j → j < ps.length →
          ∃ p, ps[j]? = some p ∧ s'[dEx + j]? = some (some [p.1, p.2])) ∧
        (∀ i : Nat, i ≤ dEx ∨ e < i → s'[i]? = s[i]?) := by
  intro e
  induction e with
  | zero =>
      intro x y s he hsl hW
      refine ⟨s, 0, x, y, [(x, y)], rfl, hsl, le_refl 0, Or.inr (Or.inr rfl), hW,
        rfl, rfl, rfl, List.chain'_singleton _, ?_, ?_⟩
      · intro j hj1 hj2
        simp at hj2
        omega
      · intro i _
        rfl
  | succ d ih =>
      intro x y s he hsl hW
      by_cases hguard : 0 < x ∧ 0 < y
      · obtain ⟨kL, Ve, hVe, hVF⟩ :
            ∃ kL Ve, tr[d + 1]? = some (some Ve) ∧ VFor a b M N (d + 1) kL Ve := by
          rcases lt_or_eq_of_le he with h | h
          · obtain ⟨Ve, h1, h2⟩ := hTr.2.1 (d + 1) h
            exact ⟨_, Ve, h1, h2⟩
          · obtain ⟨Vf, h1, h2⟩ := hTr.2.2.1
            rw [h]
            exact ⟨_, Vf, h1, h2⟩
        obtain ⟨hW1, hW2, hW3, hW4, hW5, hW6, hW7, hW8⟩ := hW
        push_cast at hW6 hW7 hW8
        have hdD : (d : Int) + 1 ≤ N + M := by
          have h1 : ((d : Int) + 1) ≤ (D : Int) := by exact_mod_cast he
          omega
        obtain ⟨kPrev, hkalt, hkp1, hkp2, hwsel, heq⟩ :=
          btBody a b M N tr d x y s hguard.1 hguard.2 Ve kL hVe hVF hNM hdD hW6 hW7 hW8
        have hx'0 : 0 ≤ wreach a b M N (d + 1) kPrev :=
          wreach_nonneg a b M N (d + 1) kPrev
        have hy'0 : kPrev ≤ wreach a b M N (d + 1) kPrev :=
          wreach_ge_k a b M N d kPrev hkp1 hkp2
        have hxe : x = (extendDiag a b M N (wSel a b M N (d + 1) (x - y))
            (wSel a b M N (d + 1) (x - y) - (x - y))).1 :=
          hW1.trans (wreach_succ_eq a b M N (d + 1) (x - y)
            (by push_cast; omega) (by push_cast; omega))
        have hSx : wSel a b M N (d + 1) (x - y) ≤ x := by
          have h := extendDiag_fst_ge a b M N (wSel a b M N (d + 1) (x - y))
            (wSel a b M N (d + 1) (x - y) - (x - y))
          omega
        have hkey : wreach a b M N (d + 1) kPrev ≤ x ∧
            wreach a b M N (d + 1) kPrev - kPrev ≤ y := by
          rcases hkalt with hc | hc
          · rw [if_pos hc] at hwsel
            constructor <;> omega
          · rw [if_neg (by omega)] at hwsel
            constructor <;> omega
        have hpar' : (kPrev + (d : Int)) % 2 = 0 := by
          rcases hkalt with hc | hc <;> omega
        have hWnew : WPos a b M N d (wreach a b M N (d + 1) kPrev)
            (wreach a b M N (d + 1) kPrev - kPrev) := by
          refine ⟨?_, hx'0, by omega, by omega, by omega, by omega, by omega,
            by omega⟩
          have hdg : wreach a b M N (d + 1) kPrev -
              (wreach a b M N (d + 1) kPrev - kPrev) = kPrev := by ring
          rw [hdg]
        have hSnake : SnakeStep a b M N
            (wreach a b M N (d + 1) kPrev, wreach a b M N (d + 1) kPrev - kPrev)
            (x, y) := by
          have hye : (extendDiag a b M N (wSel a b M N (d + 1) (x - y))
              (wSel a b M N (d + 1) (x - y) - (x - y))).2 = y := by
            rw [extendDiag_snd]
            omega
          have hpair : extendDiag a b M N (wSel a b M N (d + 1) (x - y))
              (wSel a b M N (d + 1) (x - y) - (x - y)) = (x, y) :=
            Prod.ext hxe.symm hye
          refine ⟨hkey.1, hkey.2, ?_⟩
          rcases hkalt with hc | hc
          · rw [if_pos hc] at hwsel
            refine Or.inr ⟨by omega, ?_⟩
            show extendDiag a b M N (wreach a b M N (d + 1) kPrev)
              (wreach a b M N (d + 1) kPrev - kPrev + 1) = (x, y)
            have harg1 : wreach a b M N (d + 1) kPrev =
                wSel a b M N (d + 1) (x - y) := hwsel.symm
            have harg2 : wreach a b M N (d + 1) kPrev - kPrev + 1 =
                wSel a b M N (d + 1) (x - y) - (x - y) := by omega
            rw [harg2, harg1]
            exact hpair
          · rw [if_neg (by omega)] at hwsel
            refine Or.inl ⟨by omega, ?_⟩
            show extendDiag a b M N (wreach a b M N (d + 1) kPrev + 1)
              (wreach a b M N (d + 1) kPrev - kPrev) = (x, y)
            have harg1 : wreach a b M N (d + 1) kPrev + 1 =
                wSel a b M N (d + 1) (x - y) := by omega
            have harg2 : wreach a b M N (d + 1) kPrev - kPrev =
                wSel a b M N (d + 1) (x - y) - (x - y) := by omega
            rw [harg1, harg2]
            exact hpair
        obtain ⟨s'', dEx, xe, ye, ps', hrun', hlen'', hdEx, hterm, hWterm, hpl,
            hhd, hlast, hchain, hsnk, hunt⟩ :=
          ih (wreach a b M N (d + 1) kPrev) (wreach a b M N (d + 1) kPrev - kPrev)
            (s.set (d + 1) (some [x, y])) (by omega)
            (by rw [List.length_set]; exact hsl) hWnew
        refine ⟨s'', dEx, xe, ye, ps' ++ [(x, y)], ?_, hlen'', by omega, hterm,
          hWterm, ?_, ?_, List.getLast?_concat _, ?_, ?_, ?_⟩
        · rw [heq]
          exact hrun'
        · simp only [List.length_append, hpl, List.length_singleton]
          omega
        · rcases ps' with _ | ⟨p0, rest⟩
          · exfalso
            simp at hpl
          · simp only [List.cons_append, List.head?_cons]
            simp only [List.head?_cons] at hhd
            exact hhd
        · rw [List.chain'_append]
          refine ⟨hchain, List.chain'_singleton _, ?_⟩
          intro p hp q hq
          rw [Option.mem_def] at hp hq
          rw [hlast] at hp
          simp only [List.head?_cons] at hq
          injection hp with hp'
          injection hq with hq'
          rw [← hp', ← hq']
          exact hSnake
        · intro j hj1 hj2
          by_cases hjlt : j < ps'.length
          · obtain ⟨p, hp1, hp2⟩ := hsnk j hj1 hjlt
            refine ⟨p, ?_, hp2⟩
            rw [List.getElem?_append, if_pos hjlt]
            exact hp1
          · have hj : j = ps'.length := by
              have hl : (ps' ++ [(x, y)]).length = ps'.length + 1 := by simp
              omega
            subst hj
            refine ⟨(x, y), List.getElem?_concat_length ps' (x, y), ?_⟩
            have hidx : dEx + ps'.length = d + 1 := by omega
            rw [hidx]
            rw [hunt (d + 1) (Or.inr (by omega))]
            exact List.getElem?_set_self (by
              rw [hsl]
              have htl := hTr.1
              omega)
        · intro i hi
          have hne : d + 1 ≠ i := by
            rcases hi with h | h <;> omega
          have h' : i ≤ dEx ∨ d < i := by
            rcases hi with h | h
            · exact Or.inl h
            · exact Or.inr (by omega)
          rw [hunt i h']
          exact List.getElem?_set_ne hne
      · have hres : backtrackLoop tr (N + M) (d + 1) x y s =
            some (s, d + 1, x, y) := by
          show (if 0 < x ∧ 0 < y then _ else _) = _
          rw [if_neg hguard]
          rfl
        refine ⟨s, d + 1, x, y, [(x, y)], hres, hsl, le_refl _, ?_, hW, ?_, rfl,
          rfl, List.chain'_singleton _, ?_, ?_⟩
        · rcases not_and_or.mp hguard with h | h
          · exact Or.inl (by omega)
          · exact Or.inr (Or.inl (by omega))
        · show (1 : Nat) = d + 1 - (d + 1) + 1
          omega
        · intro j hj1 hj2
          simp at hj2
          omega
        · intro i _
          rfl


/-- With enough fuel the diagonal extension runs to a genuine stop: the
loop condition fails at the final position. -/
theorem extendGo_stop (a b : List GoStr) (M N : Int) :
    ∀ (f : Nat) (x y : Int), M - x < (f : Int) →
      ¬((extendGo a b M N f x y).1 < M ∧ (extendGo a b M N f x y).2 < N ∧
        stringEqualIgnoreLF (a.getD (extendGo a b M N f x y).1.toNat [])
          (b.getD (extendGo a b M N f x y).2.toNat []) = true) := by
  intro f
  induction f with
  | zero =>
      intro x y hf
      intro hcon
      simp only [extendGo] at hcon
      push_cast at hf
      omega
  | succ n ih =>
      intro x y hf
      by_cases hc : x < M ∧ y < N ∧
          stringEqualIgnoreLF (a.getD x.toNat []) (b.getD y.toNat []) = true
      · have hrec : extendGo a b M N (n + 1) x y = extendGo a b M N n (x + 1) (y + 1) := by
          rw [extendGo, if_pos hc]
        rw [hrec]
        exact ih (x + 1) (y + 1) (by push_cast at hf ⊢; omega)
      · have hstop : extendGo a b M N (n + 1) x y = (x, y) := by
          rw [extendGo, if_neg hc]
        rw [hstop]
        exact hc

/-- The loop condition fails at the result of `extendDiag`. -/
theorem extendDiag_stop (a b : List GoStr) (M N : Int) (x y : Int) :
    ¬((extendDiag a b M N x y).1 < M ∧ (extendDiag a b M N x y).2 < N ∧
      stringEqualIgnoreLF (a.getD (extendDiag a b M N x y).1.toNat [])
        (b.getD (extendDiag a b M N x y).2.toNat []) = true) :=
  extendGo_stop a b M N ((M - x).toNat + 1) x y (by push_cast; omega)

/-- The selected candidate is at least the stored reach of the upper
neighboring diagonal. -/
theorem sel_ge_r (a b : List GoStr) (M N : Int) (e : Nat) (j : Int) :
    wreach a b M N e (j + 1) ≤ wSel a b M N e j := by
  simp only [wSel]
  split
  · exact le_refl _
  · next hcon =>
      push_neg at hcon
      by_cases hje : j = (e : Int)
      · have hr : wreach a b M N e (j + 1) = 0 :=
          wreach_oor a b M N e (j + 1) (Or.inr (by omega))
        have hl := wreach_nonneg a b M N e (j - 1)
        omega
      · have hge := hcon.2 hje
        omega

/-- The selected candidate strictly exceeds the stored reach of the lower
neighboring diagonal, provided that diagonal is not below the band. -/
theorem sel_ge_l (a b : List GoStr) (M N : Int) (e : Nat) (j : Int)
    (hj : -(e : Int) < j) :
    wreach a b M N e (j - 1) + 1 ≤ wSel a b M N e j := by
  simp only [wSel]
  split
  · next hcond =>
      rcases hcond with hc | hc
      · omega
      · omega
  · exact le_refl _

/-- Reachability in the extended edit graph: down and right moves are
unrestricted, diagonal moves require in-grid comparer-equal lines.  The
furthest-reach values computed by the forward search correspond exactly
to these paths. -/
inductive RelReach (a b : List GoStr) (M N : Int) : Nat → Int → Int → Prop
  | start : RelReach a b M N 0 0 0
  | diag {d : Nat} {x y : Int} : RelReach a b M N d x y → 0 ≤ x → x < M →
      0 ≤ y → y < N →
      stringEqualIgnoreLF (a.getD x.toNat []) (b.getD y.toNat []) = true →
      RelReach a b M N d (x + 1) (y + 1)
  | down {d : Nat} {x y : Int} : RelReach a b M N d x y →
      RelReach a b M N (d + 1) x (y + 1)
  | right {d : Nat} {x y : Int} : RelReach a b M N d x y →
      RelReach a b M N (d + 1) (x + 1) y

/-- Coordinates along an extended path are nonnegative, the diagonal stays
within the band of the depth, and diagonal and depth have equal parity. -/
theorem relReach_bounds {a b : List GoStr} {M N : Int} {d : Nat} {x y : Int}
    (h : RelReach a b M N d x y) :
    0 ≤ x ∧ 0 ≤ y ∧ -(d : Int) ≤ x - y ∧ x - y ≤ (d : Int) ∧
      (x - y + (d : Int)) % 2 = 0 := by
  induction h with
  | start => norm_num
  | diag h h1 h2 h3 h4 h5 ih => obtain ⟨a1, a2, a3, a4, a5⟩ := ih; omega
  | down h ih =>
      obtain ⟨a1, a2, a3, a4, a5⟩ := ih
      push_cast
      omega
  | right h ih =>
      obtain ⟨a1, a2, a3, a4, a5⟩ := ih
      push_cast
      omega

/-- Extended paths are closed under maximal diagonal extension. -/
theorem relReach_ext (a b : List GoStr) (M N : Int) (d : Nat) (x y : Int)
    (h : RelReach a b M N d x y) :
    RelReach a b M N d (extendDiag a b M N x y).1 (extendDiag a b M N x y).2 := by
  have hrun := extendDiag_run a b M N x y
  have hfst := extendDiag_fst_ge a b M N x y
  have hsnd := extendDiag_snd a b M N x y
  have aux : ∀ n : Nat, (∀ i : Int, x ≤ i → i < x + (n : Int) →
      i < M ∧ i - (x - y) < N ∧
      stringEqualIgnoreLF (a.getD i.toNat []) (b.getD (i - (x - y)).toNat [])
        = true) →
      RelReach a b M N d (x + (n : Int)) (y + (n : Int)) := by
    intro n
    induction n with
    | zero =>
        intro _
        simp only [Nat.cast_zero, add_zero]
        exact h
    | succ m ih =>
        intro hall
        have hm := ih (fun i h1 h2 => hall i h1 (by push_cast at h2 ⊢; omega))
        have hi := hall (x + (m : Int)) (by omega) (by push_cast; omega)
        have hb := relReach_bounds hm
        have harg : x + (m : Int) - (x - y) = y + (m : Int) := by ring
        rw [harg] at hi
        have hstep := RelReach.diag hm hb.1 hi.1 hb.2.1 hi.2.1 hi.2.2
        have h1 : x + ((m + 1 : Nat) : Int) = x + (m : Int) + 1 := by
          push_cast
          ring
        have h2 : y + ((m + 1 : Nat) : Int) = y + (m : Int) + 1 := by
          push_cast
          ring
        rw [h1, h2]
        exact hstep
  have hn : x + (((extendDiag a b M N x y).1 - x).toNat : Int) =
      (extendDiag a b M N x y).1 := by omega
  have hy : y + (((extendDiag a b M N x y).1 - x).toNat : Int) =
      (extendDiag a b M N x y).2 := by omega
  have hres := aux ((extendDiag a b M N x y).1 - x).toNat
    (fun i h1 h2 => hrun i h1 (by omega))
  rw [hn, hy] at hres
  exact hres

/-- `editDist` against an empty source counts the target's lines. -/
theorem editDist_nil_left (ys : List GoStr) : editDist [] ys = ys.length := by
  rw [editDist]

/-- `editDist` against an empty target counts the source's lines. -/
theorem editDist_nil_right (xs : List GoStr) : editDist xs [] = xs.length := by
  cases xs with
  | nil => rw [editDist]
  | cons u us => rw [editDist]

/-- Inserting one extra target line costs at most one. -/
theorem editDist_le_ins (xs : List GoStr) (v : GoStr) (vs : List GoStr) :
    editDist xs (v :: vs) ≤ 1 + editDist xs vs := by
  cases xs with
  | nil =>
      rw [editDist_nil_left, editDist_nil_left]
      simp only [List.length_cons]
      omega
  | cons u us =>
      rw [editDist]
      split
      · have h1 := Nat.min_le_right (editDist us vs)
          (1 + min (editDist us (v :: vs)) (editDist (u :: us) vs))
        have h2 := Nat.min_le_right (editDist us (v :: vs)) (editDist (u :: us) vs)
        omega
      · have h2 := Nat.min_le_right (editDist us (v :: vs)) (editDist (u :: us) vs)
        omega

/-- Deleting one extra source line costs at most one. -/
theorem editDist_le_del (u : GoStr) (us ys : List GoStr) :
    editDist (u :: us) ys ≤ 1 + editDist us ys := by
  cases ys with
  | nil =>
      rw [editDist_nil_right, editDist_nil_right]
      simp only [List.length_cons]
      omega
  | cons v vs =>
      rw [editDist]
      split
      · have h1 := Nat.min_le_right (editDist us vs)
          (1 + min (editDist us (v :: vs)) (editDist (u :: us) vs))
        have h2 := Nat.min_le_left (editDist us (v :: vs)) (editDist (u :: us) vs)
        omega
      · have h2 := Nat.min_le_left (editDist us (v :: vs)) (editDist (u :: us) vs)
        omega

/-- Matching comparer-equal heads never increases the distance. -/
theorem editDist_diag_le (u v : GoStr) (us vs : List GoStr)
    (heq : stringEqualIgnoreLF u v = true) :
    editDist (u :: us) (v :: vs) ≤ editDist us vs := by
  rw [editDist, if_pos heq]
  exact Nat.min_le_left _ _


/-- Domination: the furthest-reach table bounds every extended path. -/
theorem relReach_dom (a b : List GoStr) (M N : Int) :
    ∀ {d : Nat} {x y : Int}, RelReach a b M N d x y →
      x ≤ wreach a b M N (d + 1) (x - y) := by
  intro d x y h
  induction h with
  | start =>
      exact wreach_nonneg a b M N (0 + 1) (0 - 0)
  | diag h hx0 hxM hy0 hyN heq ih =>
      rename_i e p q
      have harg : p + 1 - (q + 1) = p - q := by ring
      rw [harg]
      have hb := relReach_bounds h
      have hw := wreach_succ_eq a b M N e (p - q) (by omega) (by omega)
      by_contra hcon
      push_neg at hcon
      have hxw : wreach a b M N (e + 1) (p - q) = p := by omega
      have hstop := extendDiag_stop a b M N (wSel a b M N e (p - q))
        (wSel a b M N e (p - q) - (p - q))
      rw [extendDiag_snd] at hstop
      have hcc : wSel a b M N e (p - q) -
          (wSel a b M N e (p - q) - (p - q)) = p - q := by ring
      rw [hcc] at hstop
      rw [← hw, hxw] at hstop
      have hyy : p - (p - q) = q := by ring
      rw [hyy] at hstop
      exact hstop ⟨hxM, hyN, heq⟩
  | down h ih =>
      rename_i e p q
      have hb := relReach_bounds h
      have harg : p - (q + 1) = p - q - 1 := by ring
      rw [harg]
      have hw := wreach_succ_eq a b M N (e + 1) (p - q - 1)
        (by push_cast; omega) (by push_cast; omega)
      have hsel := sel_ge_r a b M N (e + 1) (p - q - 1)
      have harg2 : p - q - 1 + 1 = p - q := by ring
      rw [harg2] at hsel
      have hfst := extendDiag_fst_ge a b M N (wSel a b M N (e + 1) (p - q - 1))
        (wSel a b M N (e + 1) (p - q - 1) - (p - q - 1))
      omega
  | right h ih =>
      rename_i e p q
      have hb := relReach_bounds h
      have harg : p + 1 - q = p - q + 1 := by ring
      rw [harg]
      have hw := wreach_succ_eq a b M N (e + 1) (p - q + 1)
        (by push_cast; omega) (by push_cast; omega)
      have hsel := sel_ge_l a b M N (e + 1) (p - q + 1) (by push_cast; omega)
      have harg2 : p - q + 1 - 1 = p - q := by ring
      rw [harg2] at hsel
      have hfst := extendDiag_fst_ge a b M N (wSel a b M N (e + 1) (p - q + 1))
        (wSel a b M N (e + 1) (p - q + 1) - (p - q + 1))
      omega

/-- Legitimacy: every in-band furthest-reach value of matching parity is
attained by an extended path of that depth. -/
theorem relReach_legit (a b : List GoStr) (M N : Int) :
    ∀ (d : Nat) (k : Int), -(d : Int) ≤ k → k ≤ (d : Int) →
      (k + (d : Int)) % 2 = 0 →
      RelReach a b M N d (wreach a b M N (d + 1) k)
        (wreach a b M N (d + 1) k - k) := by
  intro d
  induction d with
  | zero =>
      intro k h1 h2 _
      push_cast at h1 h2
      have hk : k = 0 := by omega
      subst hk
      have hw := wreach_succ_eq a b M N 0 0 (by norm_num) (by norm_num)
      have hs : wSel a b M N 0 0 = 0 := by
        simp only [wSel]
        rw [if_pos (Or.inl (by norm_num))]
        rfl
      rw [hs] at hw
      have h00 : (0 : Int) - 0 = 0 := by norm_num
      rw [h00] at hw
      have hext := relReach_ext a b M N 0 0 0 RelReach.start
      have hsnd := extendDiag_snd a b M N 0 0
      rw [h00, sub_zero] at hsnd
      rw [hsnd] at hext
      rw [hw, sub_zero]
      exact hext
  | succ d ih =>
      intro k h1 h2 hp
      push_cast at h1 h2 hp
      have hw := wreach_succ_eq a b M N (d + 1) k (by push_cast; omega)
        (by push_cast; omega)
      have hcand : RelReach a b M N (d + 1) (wSel a b M N (d + 1) k)
          (wSel a b M N (d + 1) k - k) := by
        simp only [wSel]
        split
        · next hcond =>
            have hpb : -(d : Int) ≤ k + 1 ∧ k + 1 ≤ (d : Int) ∧
                (k + 1 + (d : Int)) % 2 = 0 := by
              rcases hcond with hc | hc
              · push_cast at hc
                omega
              · obtain ⟨hc1, _⟩ := hc
                push_cast at hc1
                omega
            have hpre := ih (k + 1) hpb.1 hpb.2.1 hpb.2.2
            have hstep := RelReach.down hpre
            have harg : wreach a b M N (d + 1) (k + 1) - (k + 1) + 1 =
                wreach a b M N (d + 1) (k + 1) - k := by ring
            rw [harg] at hstep
            exact hstep
        · next hcond =>
            push_neg at hcond
            obtain ⟨hc1, _⟩ := hcond
            push_cast at hc1
            have hpb : -(d : Int) ≤ k - 1 ∧ k - 1 ≤ (d : Int) ∧
                (k - 1 + (d : Int)) % 2 = 0 := by omega
            have hpre := ih (k - 1) hpb.1 hpb.2.1 hpb.2.2
            have hstep := RelReach.right hpre
            have harg : wreach a b M N (d + 1) (k - 1) - (k - 1) =
                wreach a b M N (d + 1) (k - 1) + 1 - k := by ring
            rw [harg] at hstep
            exact hstep
      have hext := relReach_ext a b M N (d + 1) (wSel a b M N (d + 1) k)
        (wSel a b M N (d + 1) k - k) hcand
      rw [extendDiag_snd] at hext
      have harg : wSel a b M N (d + 1) k -
          (wSel a b M N (d + 1) k - k) = k := by ring
      rw [harg] at hext
      rw [hw]
      exact hext


/-- Completeness with overshoot accounting: an extended path of depth `d`
ending at `(x, y)` yields an edit script, where every coordinate step past
the end of its sequence is a wasted move. -/
theorem relReach_complete (a b : List GoStr) (M N : Int)
    (hM : M = (a.length : Int)) (hN : N = (b.length : Int)) :
    ∀ {d : Nat} {x y : Int}, RelReach a b M N d x y →
      (editDist a b : Int) + ((x - M).toNat : Int) + ((y - N).toNat : Int) ≤
        (d : Int) + (editDist (a.drop x.toNat) (b.drop y.toNat) : Int) := by
  intro d x y h
  induction h with
  | start =>
      have hM0 : 0 ≤ M := by omega
      have hN0 : 0 ≤ N := by omega
      simp only [Int.toNat_zero, List.drop_zero]
      omega
  | diag h hx0 hxM hy0 hyN heq ih =>
      rename_i e p q
      have hpa : p.toNat < a.length := by omega
      have hqb : q.toNat < b.length := by omega
      have hdx : a.drop p.toNat = a.getD p.toNat [] :: a.drop (p.toNat + 1) := by
        rw [List.getD_eq_getElem a [] hpa]
        exact List.drop_eq_getElem_cons hpa
      have hdy : b.drop q.toNat = b.getD q.toNat [] :: b.drop (q.toNat + 1) := by
        rw [List.getD_eq_getElem b [] hqb]
        exact List.drop_eq_getElem_cons hqb
      have hstep : editDist (a.drop p.toNat) (b.drop q.toNat) ≤
          editDist (a.drop (p.toNat + 1)) (b.drop (q.toNat + 1)) := by
        rw [hdx, hdy]
        exact editDist_diag_le _ _ _ _ heq
      have h1 : (p + 1).toNat = p.toNat + 1 := by omega
      have h2 : (q + 1).toNat = q.toNat + 1 := by omega
      rw [h1, h2]
      omega
  | down h ih =>
      rename_i e p q
      have hb := relReach_bounds h
      by_cases hyN : q < N
      · have hqb : q.toNat < b.length := by omega
        have hdy : b.drop q.toNat = b.getD q.toNat [] :: b.drop (q.toNat + 1) := by
          rw [List.getD_eq_getElem b [] hqb]
          exact List.drop_eq_getElem_cons hqb
        have hstep : editDist (a.drop p.toNat) (b.drop q.toNat) ≤
            1 + editDist (a.drop p.toNat) (b.drop (q.toNat + 1)) := by
          rw [hdy]
          exact editDist_le_ins _ _ _
        have h2 : (q + 1).toNat = q.toNat + 1 := by omega
        rw [h2]
        push_cast
        omega
      · have hd1 : b.drop q.toNat = [] := List.drop_eq_nil_of_le (by omega)
        have hd2 : b.drop (q + 1).toNat = [] := List.drop_eq_nil_of_le (by omega)
        rw [hd2]
        rw [hd1] at ih
        push_cast
        omega
  | right h ih =>
      rename_i e p q
      have hb := relReach_bounds h
      by_cases hxM : p < M
      · have hpa : p.toNat < a.length := by omega
        have hdx : a.drop p.toNat = a.getD p.toNat [] :: a.drop (p.toNat + 1) := by
          rw [List.getD_eq_getElem a [] hpa]
          exact List.drop_eq_getElem_cons hpa
        have hstep : editDist (a.drop p.toNat) (b.drop q.toNat) ≤
            1 + editDist (a.drop (p.toNat + 1)) (b.drop q.toNat) := by
          rw [hdx]
          exact editDist_le_del _ _ _
        have h1 : (p + 1).toNat = p.toNat + 1 := by omega
        rw [h1]
        push_cast
        omega
      · have hd1 : a.drop p.toNat = [] := List.drop_eq_nil_of_le (by omega)
        have hd2 : a.drop (p + 1).toNat = [] := List.drop_eq_nil_of_le (by omega)
        rw [hd2]
        rw [hd1] at ih
        push_cast
        omega

/-- Existence of a minimal extended path: the full grid corner is reached
in exactly `editDist a b` nondiagonal steps. -/
theorem relReach_exists (a b : List GoStr) (M N : Int)
    (hM : M = (a.length : Int)) (hN : N = (b.length : Int)) :
    RelReach a b M N (editDist a b) M N := by
  have aux : ∀ fuel : Nat, ∀ x y : Nat, x ≤ a.length → y ≤ b.length →
      a.length - x + (b.length - y) ≤ fuel →
      ∀ d : Nat, RelReach a b M N d (x : Int) (y : Int) →
      RelReach a b M N (d + editDist (a.drop x) (b.drop y)) M N := by
    intro fuel
    induction fuel with
    | zero =>
        intro x y hx hy hf d h
        have hx' : x = a.length := by omega
        have hy' : y = b.length := by omega
        subst hx'
        subst hy'
        rw [List.drop_length, List.drop_length, editDist_nil_left]
        simp only [List.length_nil, Nat.add_zero]
        rw [← hM, ← hN] at h
        exact h
    | succ m ihf =>
        intro x y hx hy hf d h
        rcases eq_or_lt_of_le hx with hxe | hxlt
        · rcases eq_or_lt_of_le hy with hye | hylt
          · subst hxe
            subst hye
            rw [List.drop_length, List.drop_length, editDist_nil_left]
            simp only [List.length_nil, Nat.add_zero]
            rw [← hM, ← hN] at h
            exact h
          · subst hxe
            have hstep := RelReach.down h
            have hcast : ((y + 1 : Nat) : Int) = (y : Int) + 1 := by
              push_cast
              ring
            rw [← hcast] at hstep
            have hrec := ihf a.length (y + 1) (le_refl _) (by omega) (by omega)
              (d + 1) hstep
            rw [List.drop_length] at hrec ⊢
            rw [editDist_nil_left] at hrec ⊢
            have harith : d + (b.drop y).length =
                d + 1 + (b.drop (y + 1)).length := by
              rw [List.length_drop, List.length_drop]
              omega
            rw [harith]
            exact hrec
        · rcases eq_or_lt_of_le hy with hye | hylt
          · subst hye
            have hstep := RelReach.right h
            have hcast : ((x + 1 : Nat) : Int) = (x : Int) + 1 := by
              push_cast
              ring
            rw [← hcast] at hstep
            have hrec := ihf (x + 1) b.length (by omega) (le_refl _) (by omega)
              (d + 1) hstep
            rw [List.drop_length] at hrec ⊢
            rw [editDist_nil_right] at hrec ⊢
            have harith : d + (a.drop x).length =
                d + 1 + (a.drop (x + 1)).length := by
              rw [List.length_drop, List.length_drop]
              omega
            rw [harith]
            exact hrec
          · have hdx : a.drop x = a.getD x [] :: a.drop (x + 1) := by
              rw [List.getD_eq_getElem a [] hxlt]
              exact List.drop_eq_getElem_cons hxlt
            have hdy : b.drop y = b.getD y [] :: b.drop (y + 1) := by
              rw [List.getD_eq_getElem b [] hylt]
              exact List.drop_eq_getElem_cons hylt
            have hstep2 : editDist (a.drop x) (b.drop y) =
                1 + min (editDist (a.drop (x + 1)) (b.drop y))
                  (editDist (a.drop x) (b.drop (y + 1))) →
                RelReach a b M N (d + editDist (a.drop x) (b.drop y)) M N := by
              intro hed
              by_cases h23 : editDist (a.drop (x + 1)) (b.drop y) ≤
                  editDist (a.drop x) (b.drop (y + 1))
              · have hstep := RelReach.right h
                have hcast : ((x + 1 : Nat) : Int) = (x : Int) + 1 := by
                  push_cast
                  ring
                rw [← hcast] at hstep
                have hrec := ihf (x + 1) y (by omega) (by omega) (by omega)
                  (d + 1) hstep
                have harith : d + editDist (a.drop x) (b.drop y) =
                    d + 1 + editDist (a.drop (x + 1)) (b.drop y) := by
                  rw [hed, min_eq_left h23]
                  omega
                rw [harith]
                exact hrec
              · have hstep := RelReach.down h
                have hcast : ((y + 1 : Nat) : Int) = (y : Int) + 1 := by
                  push_cast
                  ring
                rw [← hcast] at hstep
                have hrec := ihf x (y + 1) (by omega) (by omega) (by omega)
                  (d + 1) hstep
                have harith : d + editDist (a.drop x) (b.drop y) =
                    d + 1 + editDist (a.drop x) (b.drop (y + 1)) := by
                  rw [hed, min_eq_right (by omega)]
                  omega
                rw [harith]
                exact hrec
            by_cases heq : stringEqualIgnoreLF (a.getD x []) (b.getD y []) = true
            · by_cases hle : editDist (a.drop (x + 1)) (b.drop (y + 1)) ≤
                  1 + min (editDist (a.drop (x + 1)) (b.drop y))
                    (editDist (a.drop x) (b.drop (y + 1)))
              · have hstep := RelReach.diag h (by omega) (by omega) (by omega)
                  (by omega)
                  (by rw [Int.toNat_natCast, Int.toNat_natCast]; exact heq)
                have hcast1 : ((x + 1 : Nat) : Int) = (x : Int) + 1 := by
                  push_cast
                  ring
                have hcast2 : ((y + 1 : Nat) : Int) = (y : Int) + 1 := by
                  push_cast
                  ring
                rw [← hcast1, ← hcast2] at hstep
                have hrec := ihf (x + 1) (y + 1) (by omega) (by omega) (by omega)
                  d hstep
                have hed : editDist (a.drop x) (b.drop y) =
                    editDist (a.drop (x + 1)) (b.drop (y + 1)) := by
                  rw [hdx, hdy, editDist, if_pos heq, ← hdx, ← hdy]
                  exact min_eq_left hle
                rw [hed]
                exact hrec
              · apply hstep2
                rw [hdx, hdy, editDist, if_pos heq, ← hdx, ← hdy]
                exact min_eq_right (by omega)
            · apply hstep2
              rw [hdx, hdy, editDist, if_neg heq, ← hdx, ← hdy]
  have h0 := aux (a.length + b.length) 0 0 (by omega) (by omega) (by omega) 0
    (by exact_mod_cast RelReach.start)
  simp only [List.drop_zero, Nat.zero_add] at h0
  exact h0

/-- A firing depth of the forward search bounds the edit distance. -/
theorem editDist_le_of_fire (a b : List GoStr) (e : Nat)
    (hf : FireAt a b (a.length : Int) (b.length : Int) e) :
    editDist a b ≤ e := by
  have hleg := relReach_legit a b (a.length : Int) (b.length : Int) e
    ((a.length : Int) - (b.length : Int)) hf.1 hf.2.1 hf.2.2.1
  rw [hf.2.2.2] at hleg
  have harg : (a.length : Int) - ((a.length : Int) - (b.length : Int)) =
      (b.length : Int) := by ring
  rw [harg] at hleg
  have hcomp := relReach_complete a b (a.length : Int) (b.length : Int)
    rfl rfl hleg
  rw [Int.toNat_natCast, Int.toNat_natCast, List.drop_length,
    List.drop_length, editDist_nil_left] at hcomp
  simp only [List.length_nil] at hcomp
  omega

/-- The forward search fires exactly at depth `editDist a b`. -/
theorem fireAt_editDist (a b : List GoStr) :
    FireAt a b (a.length : Int) (b.length : Int) (editDist a b) := by
  have hex := relReach_exists a b (a.length : Int) (b.length : Int) rfl rfl
  have hb := relReach_bounds hex
  have hdom := relReach_dom a b (a.length : Int) (b.length : Int) hex
  refine ⟨hb.2.2.1, hb.2.2.2.1, hb.2.2.2.2, ?_⟩
  have hub : wreach a b (a.length : Int) (b.length : Int) (editDist a b + 1)
      ((a.length : Int) - (b.length : Int)) ≤ (a.length : Int) := by
    by_contra hcon
    push_neg at hcon
    have hleg := relReach_legit a b (a.length : Int) (b.length : Int)
      (editDist a b) ((a.length : Int) - (b.length : Int))
      hb.2.2.1 hb.2.2.2.1 hb.2.2.2.2
    have hcomp := relReach_complete a b (a.length : Int) (b.length : Int)
      rfl rfl hleg
    have hd1 : a.drop (wreach a b (a.length : Int) (b.length : Int)
        (editDist a b + 1) ((a.length : Int) - (b.length : Int))).toNat = [] :=
      List.drop_eq_nil_of_le (by omega)
    have hd2 : b.drop ((wreach a b (a.length : Int) (b.length : Int)
        (editDist a b + 1) ((a.length : Int) - (b.length : Int)) -
        ((a.length : Int) - (b.length : Int))).toNat) = [] :=
      List.drop_eq_nil_of_le (by omega)
    rw [hd1, hd2, editDist_nil_left] at hcomp
    simp only [List.length_nil] at hcomp
    omega
  omega


/-- Running the delete loop with an operation already open just advances
`x` to the target diagonal (staying short of `M`). -/
theorem delLoop_run_some (M s0 s1 : Int) (o : Op) :
    ∀ (t : Nat) (x y : Int), s0 - s1 - (x - y) = (t : Int) →
      x + (t : Int) ≤ M →
      delLoop M s0 s1 x y (some o) = (some o, x + (t : Int)) := by
  intro t
  induction t with
  | zero =>
      intro x y h1 h2
      rw [delLoop_unfold, if_neg (by push_cast at h1; omega)]
      norm_num
  | succ n ih =>
      intro x y h1 h2
      push_cast at h1 h2
      rw [delLoop_unfold, if_pos (by omega)]
      show (if x + 1 = M then ((some o : Option Op), x + 1)
          else delLoop M s0 s1 (x + 1) y (some o)) = _
      by_cases hM : x + 1 = M
      · rw [if_pos hM]
        have hn : n = 0 := by omega
        subst hn
        norm_num
      · rw [if_neg hM]
        rw [ih (x + 1) y (by push_cast; omega) (by push_cast; omega)]
        have harith : x + 1 + (n : Int) = x + ((n + 1 : Nat) : Int) := by
          push_cast
          ring
        rw [harith]

/-- The delete loop starting with no open operation: opens a `Delete` at
the current position and advances `x` up to the snake's diagonal. -/
theorem delLoop_run (M s0 s1 x y : Int)
    (h1 : x - y < s0 - s1) (h2 : x + (s0 - s1 - (x - y)) ≤ M) :
    delLoop M s0 s1 x y none =
      (some ⟨.del, [], x, 0, y⟩, x + (s0 - s1 - (x - y))) := by
  rw [delLoop_unfold, if_pos h1]
  show (if x + 1 = M then ((some ⟨OpKind.del, [], x, 0, y⟩ : Option Op), x + 1)
      else delLoop M s0 s1 (x + 1) y (some ⟨OpKind.del, [], x, 0, y⟩)) = _
  by_cases hM : x + 1 = M
  · rw [if_pos hM]
    have ht : s0 - s1 - (x - y) = 1 := by omega
    rw [ht]
  · rw [if_neg hM]
    have ht : s0 - s1 - (x + 1 - y) = ((s0 - s1 - (x - y) - 1).toNat : Int) := by
      omega
    rw [delLoop_run_some M s0 s1 _ (s0 - s1 - (x - y) - 1).toNat (x + 1) y ht
      (by omega)]
    have harith : x + 1 + ((s0 - s1 - (x - y) - 1).toNat : Int) =
        x + (s0 - s1 - (x - y)) := by omega
    rw [harith]

/-- The delete loop does nothing when the current diagonal has reached the
snake's diagonal. -/
theorem delLoop_none (M s0 s1 x y : Int) (op : Option Op)
    (h : ¬ x - y < s0 - s1) :
    delLoop M s0 s1 x y op = (op, x) := by
  rw [delLoop_unfold, if_neg h]

/-- Running the insert loop with an operation already open just advances
`y` to the target diagonal. -/
theorem insLoop_run_some (s0 s1 : Int) (o : Op) :
    ∀ (t : Nat) (x y : Int), x - y - (s0 - s1) = (t : Int) →
      insLoop s0 s1 x y (some o) = (some o, y + (t : Int)) := by
  intro t
  induction t with
  | zero =>
      intro x y h1
      rw [insLoop_unfold, if_neg (by push_cast at h1; omega)]
      norm_num
  | succ n ih =>
      intro x y h1
      push_cast at h1
      rw [insLoop_unfold, if_pos (by omega)]
      show insLoop s0 s1 x (y + 1) (some o) = _
      rw [ih x (y + 1) (by push_cast; omega)]
      have harith : y + 1 + (n : Int) = y + ((n + 1 : Nat) : Int) := by
        push_cast
        ring
      rw [harith]

/-- The insert loop starting with no open operation: opens an `Insert` at
the current position and advances `y` down to the snake's diagonal. -/
theorem insLoop_run (s0 s1 x y : Int) (h1 : s0 - s1 < x - y) :
    insLoop s0 s1 x y none =
      (some ⟨.ins, [], x, 0, y⟩, y + (x - y - (s0 - s1))) := by
  rw [insLoop_unfold, if_pos h1]
  show insLoop s0 s1 x (y + 1) (some ⟨OpKind.ins, [], x, 0, y⟩) = _
  have ht : x - (y + 1) - (s0 - s1) = ((x - y - (s0 - s1) - 1).toNat : Int) := by
    omega
  rw [insLoop_run_some s0 s1 _ (x - y - (s0 - s1) - 1).toNat x (y + 1) ht]
  have harith : y + 1 + ((x - y - (s0 - s1) - 1).toNat : Int) =
      y + (x - y - (s0 - s1)) := by omega
  rw [harith]

/-- The insert loop does nothing when the current diagonal has reached the
snake's diagonal. -/
theorem insLoop_none (s0 s1 x y : Int) (op : Option Op)
    (h : ¬ s0 - s1 < x - y) :
    insLoop s0 s1 x y op = (op, y) := by
  rw [insLoop_unfold, if_neg h]

/-- The equal loop advances both coordinates until `x` reaches the
snake's `x`-coordinate. -/
theorem eqLoop_run (s0 : Int) :
    ∀ (t : Nat) (x y : Int), s0 - x = (t : Int) →
      eqLoop s0 x y = (x + (t : Int), y + (t : Int)) := by
  intro t
  induction t with
  | zero =>
      intro x y h1
      rw [eqLoop_unfold, if_neg (by push_cast at h1; omega)]
      norm_num
  | succ n ih =>
      intro x y h1
      push_cast at h1
      rw [eqLoop_unfold, if_pos (by omega)]
      rw [ih (x + 1) (y + 1) (by push_cast; omega)]
      have ha1 : x + 1 + (n : Int) = x + ((n + 1 : Nat) : Int) := by
        push_cast
        ring
      have ha2 : y + 1 + (n : Int) = y + ((n + 1 : Nat) : Int) := by
        push_cast
        ring
      rw [ha1, ha2]

/-- The equal loop does nothing when `x` is already at the snake. -/
theorem eqLoop_none (s0 x y : Int) (h : ¬ x < s0) :
    eqLoop s0 x y = (x, y) := by
  rw [eqLoop_unfold, if_neg h]

/-- `opsLoop` skips empty snake entries. -/
theorem opsLoop_skip (b : List GoStr) (M N : Int) :
    ∀ (n : Nat) (rest : List (Option (List Int))) (x y : Int) (sol : List Op),
      opsLoop b M N (List.replicate n none ++ rest) x y sol =
        opsLoop b M N rest x y sol := by
  intro n
  induction n with
  | zero =>
      intro rest x y sol
      rfl
  | succ m ih =>
      intro rest x y sol
      show opsLoop b M N (none :: (List.replicate m none ++ rest)) x y sol = _
      rw [opsLoop]
      rw [if_pos (by norm_num)]
      exact ih rest x y sol

/-- The edit distance never exceeds the total number of lines. -/
theorem editDist_le_sum (xs : List GoStr) :
    ∀ ys : List GoStr, editDist xs ys ≤ xs.length + ys.length := by
  induction xs with
  | nil =>
      intro ys
      rw [editDist_nil_left]
      omega
  | cons u us ihx =>
      intro ys
      induction ys with
      | nil =>
          rw [editDist_nil_right]
          omega
      | cons v vs ihy =>
          rw [editDist]
          have h1 := ihx (v :: vs)
          have h2 := ihx vs
          simp only [List.length_cons] at h1 h2 ihy ⊢
          split
          · omega
          · omega


/-- Setting the last element of a replicated list appends it structurally. -/
theorem replicate_set_last {α : Type} (x v : α) :
    ∀ n : Nat, (List.replicate (n + 1) x).set n v = List.replicate n x ++ [v] := by
  intro n
  induction n with
  | zero => rfl
  | succ m ih =>
      show x :: (List.replicate (m + 1) x).set m v = _
      rw [ih]
      rfl

/-- Evaluating the tail of `backtrack` once the loop's result is known and
the final coordinates are nonnegative. -/
theorem backtrack_eval (tr : List (Option (List Int))) (M N : Int)
    (s' : List (Option (List Int))) (dEx : Nat) (xe ye : Int)
    (hloop : backtrackLoop tr (N + M) (tr.length - 1) M N
      (List.replicate tr.length none) = some (s', dEx, xe, ye))
    (hxe : 0 ≤ xe) (hye : 0 ≤ ye) (hlen : tr.length ≠ 0) :
    backtrack tr M N (N + M) = some (s'.set dEx (some [xe, ye])) := by
  simp only [backtrack]
  rw [hloop]
  simp only [Option.bind_eq_bind, Option.some_bind]
  rw [if_neg (by omega), if_neg hlen]
  rfl

/-- When either sequence is empty the walk exits immediately and the only
snake is the forced terminal entry at the last index. -/
theorem backtrack_run_degenerate (tr : List (Option (List Int))) (M N : Int)
    (hguard : ¬(0 < M ∧ 0 < N)) (hM : 0 ≤ M) (hN : 0 ≤ N)
    (hlen : 2 ≤ tr.length) :
    backtrack tr M N (N + M) = some
      (List.replicate (tr.length - 1) (none : Option (List Int)) ++
        [some [M, N]]) := by
  obtain ⟨m, hm⟩ : ∃ m, tr.length = m + 2 := ⟨tr.length - 2, by omega⟩
  have hd : tr.length - 1 = m + 1 := by omega
  have hloop : backtrackLoop tr (N + M) (tr.length - 1) M N
      (List.replicate tr.length none) =
      some (List.replicate tr.length none, m + 1, M, N) := by
    rw [hd]
    show (if 0 < M ∧ 0 < N then _ else _) = _
    rw [if_neg hguard]
    rfl
  rw [backtrack_eval tr M N _ (m + 1) M N hloop hM hN (by omega)]
  rw [hm]
  have h1 : m + 2 - 1 = m + 1 := by omega
  rw [h1]
  have h21 : m + 2 = m + 1 + 1 := by omega
  rw [h21, replicate_set_last]

/-- Full characterization of `backtrack` on a well-formed trace for
nonempty inputs: the snakes list is a block of empty entries, then the
walk positions in increasing depth order, then empty entries again. -/
theorem backtrack_run (a b : List GoStr) (M N : Int) (D : Nat)
    (tr : List (Option (List Int))) (hTr : TraceOK a b M N D tr)
    (hM : 0 < M) (hN : 0 < N) (hDle : (D : Int) ≤ N + M)
    (hfire : FireAt a b M N D) :
    ∃ (dEx : Nat) (xe ye : Int) (ps : List (Int × Int)),
      backtrack tr M N (N + M) = some
        (List.replicate dEx (none : Option (List Int)) ++
          (ps.map (fun p => some [p.1, p.2]) ++
            List.replicate (tr.length - (D + 1)) none)) ∧
      dEx ≤ D ∧ (xe ≤ 0 ∨ ye ≤ 0 ∨ dEx = 0) ∧ WPos a b M N dEx xe ye ∧
      ps.length = D - dEx + 1 ∧ ps.head? = some (xe, ye) ∧
      ps.getLast? = some (M, N) ∧ List.Chain' (SnakeStep a b M N) ps := by
  have hNM : 1 ≤ N + M := by omega
  have htl := hTr.1
  have hlen2 : 2 ≤ tr.length := by omega
  have hW : WPos a b M N D M N :=
    ⟨hfire.2.2.2.symm, by omega, by omega, le_refl M, le_refl N, hfire.1,
      hfire.2.1, hfire.2.2.1⟩
  obtain ⟨s', dEx, xe, ye, ps, hrun, hslen, hdEx, hterm, hWterm, hpl, hhd,
      hlast, hchain, hsnk, hunt⟩ :=
    btWalk a b M N D tr hTr hNM hDle D M N (List.replicate tr.length none)
      (le_refl D) (by rw [List.length_replicate]) hW
  have hloop : backtrackLoop tr (N + M) (tr.length - 1) M N
      (List.replicate tr.length none) = some (s', dEx, xe, ye) := by
    rw [btSkip tr (N + M) D hTr.2.2.2 (tr.length - 1) M N
      (List.replicate tr.length none) (by omega) (by omega) hM hN]
    exact hrun
  have hbt := backtrack_eval tr M N s' dEx xe ye hloop hWterm.2.1 hWterm.2.2.1
    (by omega)
  have hset : s'.set dEx (some [xe, ye]) =
      List.replicate dEx (none : Option (List Int)) ++
        (ps.map (fun p => some [p.1, p.2]) ++
          List.replicate (tr.length - (D + 1)) none) := by
    apply List.ext_getElem?
    intro n
    by_cases hn1 : n < dEx
    · rw [List.getElem?_set_ne (by omega)]
      rw [hunt n (Or.inl (by omega))]
      rw [List.getElem?_append, if_pos (by rw [List.length_replicate]; omega)]
      rw [List.getElem?_replicate, List.getElem?_replicate,
        if_pos (show n < tr.length by omega), if_pos hn1]
    · by_cases hn2 : n = dEx
      · subst hn2
        rw [List.getElem?_set_self (by rw [hslen]; omega)]
        rw [List.getElem?_append_right (by rw [List.length_replicate])]
        rw [List.length_replicate, Nat.sub_self]
        rw [List.getElem?_append, if_pos (by
          rw [List.length_map]
          omega)]
        rw [List.getElem?_map]
        rw [← List.head?_eq_getElem?, hhd]
        rfl
      · by_cases hn3 : n ≤ D
        · obtain ⟨p, hp1, hp2⟩ := hsnk (n - dEx) (by omega) (by omega)
          rw [List.getElem?_set_ne (by omega)]
          have hidx : dEx + (n - dEx) = n := by omega
          rw [hidx] at hp2
          rw [hp2]
          rw [List.getElem?_append_right (by rw [List.length_replicate]; omega)]
          rw [List.length_replicate]
          rw [List.getElem?_append, if_pos (by
            rw [List.length_map]
            omega)]
          rw [List.getElem?_map, hp1]
          rfl
        · rw [List.getElem?_set_ne (by omega)]
          rw [hunt n (Or.inr (by omega))]
          rw [List.getElem?_append_right (by rw [List.length_replicate]; omega)]
          rw [List.length_replicate]
          rw [List.getElem?_append_right (by rw [List.length_map]; omega)]
          rw [List.length_map, List.getElem?_replicate, hpl,
            List.getElem?_replicate]
          by_cases hn4 : n < tr.length
          · rw [if_pos hn4, if_pos (by omega)]
          · rw [if_neg hn4, if_neg (by omega)]
  refine ⟨dEx, xe, ye, ps, ?_, hdEx, hterm, hWterm, hpl, hhd, hlast, hchain⟩
  rw [hbt, hset]


/-- Comparer equality of two lines, as a proposition. -/
def LineEq (u v : GoStr) : Prop := stringEqualIgnoreLF u v = true

/-- The replay invariant tying an operation list to a position `(x, y)` of
the edit graph: replaying the list copies a comparer-equal image of
`b`'s prefix, up to a pending equal run `[p, x)` not yet copied. -/
def ReplayInv (a b : List GoStr) (sol : List Op) (x y : Int) : Prop :=
  ∃ out p, applyLoop a sol 0 [] = some (out, p) ∧
    0 ≤ p ∧ p ≤ x ∧ x - p ≤ y ∧ x ≤ (a.length : Int) ∧
    List.Forall₂ LineEq out (b.take (y - (x - p)).toNat) ∧
    (∀ i : Int, p ≤ i → i < x →
      LineEq (a.getD i.toNat []) (b.getD (i - (x - y)).toNat []))

/-- `applyLoop` splits over list concatenation. -/
theorem applyLoop_append (a : List GoStr) :
    ∀ (l1 l2 : List Op) (pr : Int) (out : List GoStr),
      applyLoop a (l1 ++ l2) pr out =
        (applyLoop a l1 pr out).bind fun r => applyLoop a l2 r.2 r.1 := by
  intro l1
  induction l1 with
  | nil =>
      intro l2 pr out
      rfl
  | cons op rest ih =>
      intro l2 pr out
      simp only [List.cons_append, applyLoop, Option.bind_eq_bind,
        List.append_eq, ih, Option.bind_assoc, Option.pure_def,
        Option.some_bind]
      rw [apply_ite (fun o : Option (List GoStr × Int) =>
        o.bind fun r => applyLoop a l2 r.2 r.1)]
      rw [Option.bind_assoc]

/-- Pointwise comparer-equal segments of `a` and `b` are `Forall₂`-related. -/
theorem forall2_slice (a b : List GoStr) :
    ∀ (n pa pb : Nat),
      (∀ j : Nat, j < n → LineEq (a.getD (pa + j) []) (b.getD (pb + j) [])) →
      pa + n ≤ a.length → pb + n ≤ b.length →
      List.Forall₂ LineEq ((a.drop pa).take n) ((b.drop pb).take n) := by
  intro n
  induction n with
  | zero =>
      intro pa pb _ _ _
      simp only [List.take_zero]
      exact List.Forall₂.nil
  | succ m ih =>
      intro pa pb hall ha hb
      have hpa : pa < a.length := by omega
      have hpb : pb < b.length := by omega
      rw [List.drop_eq_getElem_cons hpa, List.drop_eq_getElem_cons hpb,
        List.take_succ_cons, List.take_succ_cons]
      refine List.Forall₂.cons ?_ ?_
      · have h0 := hall 0 (by omega)
        rw [Nat.add_zero, Nat.add_zero] at h0
        rw [List.getD_eq_getElem a [] hpa, List.getD_eq_getElem b [] hpb] at h0
        exact h0
      · refine ih (pa + 1) (pb + 1) ?_ (by omega) (by omega)
        intro j hj
        have hj1 := hall (j + 1) (by omega)
        have e1 : pa + (j + 1) = pa + 1 + j := by omega
        have e2 : pb + (j + 1) = pb + 1 + j := by omega
        rw [e1, e2] at hj1
        exact hj1

/-- A list is `Forall₂ LineEq`-related to itself. -/
theorem forall2_lineEq_refl (l : List GoStr) : List.Forall₂ LineEq l l :=
  List.forall₂_same.mpr fun x _ => stringEqualIgnoreLF_refl x

/-- `opsCost` distributes over appending a single operation. -/
theorem opsCost_append (l : List Op) (o : Op) :
    opsCost (l ++ [o]) = opsCost l + opsCost [o] := by
  simp only [opsCost, List.map_append, List.sum_append]

/-- Appending a delete spanning `[x, x1)` preserves the replay invariant,
moving the position to `(x1, y)`. -/
theorem replay_del (a b : List GoStr) (sol : List Op) (x y x1 : Int)
    (hInv : ReplayInv a b sol x y) (hx1 : x ≤ x1)
    (hlen : x1 ≤ (a.length : Int)) (hyb : y ≤ (b.length : Int)) :
    ReplayInv a b (sol ++ [⟨.del, [], x, x1, y⟩]) x1 y := by
  obtain ⟨out, p, happ, hp0, hpx, hxpy, hxlen, hfa, hpend⟩ := hInv
  refine ⟨out ++ (a.drop p.toNat).take (x - p).toNat, x1, ?_, by omega,
    by omega, by omega, hlen, ?_, ?_⟩
  · rw [applyLoop_append, happ]
    simp only [Option.some_bind]
    simp only [applyLoop]
    simp only [Option.bind_eq_bind]
    by_cases hxp : 0 < x - p
    · rw [if_pos hxp, goSlice, if_pos (⟨hp0, by omega, by omega⟩ :
        0 ≤ p ∧ p ≤ x ∧ x ≤ (a.length : Int))]
      simp only [Option.pure_def, Option.some_bind]
    · rw [if_neg hxp]
      simp only [Option.pure_def, Option.some_bind]
      have h0 : (x - p).toNat = 0 := by omega
      rw [h0, List.take_zero, List.append_nil]
  · have hy0 : y - (x1 - x1) = y := by ring
    rw [hy0]
    have hsplit : b.take y.toNat =
        b.take (y - (x - p)).toNat ++
          (b.drop (y - (x - p)).toNat).take (x - p).toNat := by
      rw [← List.take_add]
      congr 1
      omega
    rw [hsplit]
    refine List.rel_append hfa ?_
    have hax : a.drop p.toNat = a.drop p.toNat := rfl
    refine forall2_slice a b (x - p).toNat p.toNat (y - (x - p)).toNat ?_
      (by omega) (by omega)
    intro j hj
    have hpj := hpend (p + (j : Int)) (by omega) (by omega)
    rw [show (p + (j : Int)).toNat = p.toNat + j from by omega,
      show (p + (j : Int) - (x - y)).toNat = (y - (x - p)).toNat + j from by
        omega] at hpj
    exact hpj
  · intro i h1 h2
    exact absurd h2 (by omega)

/-- Appending an insert of `b[y:y1)` preserves the replay invariant,
moving the position to `(x, y1)`. -/
theorem replay_ins (a b : List GoStr) (sol : List Op) (x y y1 : Int)
    (hInv : ReplayInv a b sol x y) (hy1 : y ≤ y1)
    (hylen : y1 ≤ (b.length : Int)) :
    ReplayInv a b
      (sol ++ [⟨.ins, (b.drop y.toNat).take (y1 - y).toNat, x, x, y⟩]) x y1 := by
  obtain ⟨out, p, happ, hp0, hpx, hxpy, hxlen, hfa, hpend⟩ := hInv
  refine ⟨(out ++ (a.drop p.toNat).take (x - p).toNat) ++
      (b.drop y.toNat).take (y1 - y).toNat, x, ?_, by omega, le_refl x,
    by omega, hxlen, ?_, ?_⟩
  · rw [applyLoop_append, happ]
    simp only [Option.some_bind]
    simp only [applyLoop]
    simp only [Option.bind_eq_bind]
    by_cases hxp : 0 < x - p
    · rw [if_pos hxp, goSlice, if_pos (⟨hp0, by omega, by omega⟩ :
        0 ≤ p ∧ p ≤ x ∧ x ≤ (a.length : Int))]
      simp only [Option.pure_def, Option.some_bind]
    · rw [if_neg hxp]
      simp only [Option.pure_def, Option.some_bind]
      have h0 : (x - p).toNat = 0 := by omega
      rw [h0, List.take_zero, List.append_nil]
  · have hy0 : y1 - (x - x) = y1 := by ring
    rw [hy0]
    have hsplit : b.take y1.toNat =
        (b.take (y - (x - p)).toNat ++
          (b.drop (y - (x - p)).toNat).take (x - p).toNat) ++
          (b.drop y.toNat).take (y1 - y).toNat := by
      rw [← List.take_add]
      rw [show (y - (x - p)).toNat + (x - p).toNat = y.toNat from by omega]
      rw [← List.take_add]
      congr 1
      omega
    rw [hsplit]
    refine List.rel_append (List.rel_append hfa ?_) (forall2_lineEq_refl _)
    refine forall2_slice a b (x - p).toNat p.toNat (y - (x - p)).toNat ?_
      (by omega) (by omega)
    intro j hj
    have hpj := hpend (p + (j : Int)) (by omega) (by omega)
    rw [show (p + (j : Int)).toNat = p.toNat + j from by omega,
      show (p + (j : Int) - (x - y)).toNat = (y - (x - p)).toNat + j from by
        omega] at hpj
    exact hpj
  · intro i h1 h2
    exact absurd h2 (by omega)

/-- Advancing along a comparer-equal diagonal run preserves the replay
invariant without touching the operation list. -/
theorem replay_eq (a b : List GoStr) (sol : List Op) (x y t : Int)
    (hInv : ReplayInv a b sol x y) (ht : 0 ≤ t)
    (hxt : x + t ≤ (a.length : Int))
    (hrun : ∀ i : Int, x ≤ i → i < x + t →
      LineEq (a.getD i.toNat []) (b.getD (i - (x - y)).toNat [])) :
    ReplayInv a b sol (x + t) (y + t) := by
  obtain ⟨out, p, happ, hp0, hpx, hxpy, hxlen, hfa, hpend⟩ := hInv
  refine ⟨out, p, happ, hp0, by omega, by omega, hxt, ?_, ?_⟩
  · have hy0 : y + t - (x + t - p) = y - (x - p) := by ring
    rw [hy0]
    exact hfa
  · intro i h1 h2
    have hoff : i - (x + t - (y + t)) = i - (x - y) := by ring
    rw [hoff]
    by_cases hix : i < x
    · exact hpend i h1 hix
    · exact hrun i (by omega) h2

/-- An extended path pinned to the left edge consists of down moves only. -/
theorem relReach_x0 {a b : List GoStr} {M N : Int} :
    ∀ {d : Nat} {x y : Int}, RelReach a b M N d x y → x = 0 → y = (d : Int) := by
  intro d x y h
  induction h with
  | start =>
      intro _
      norm_num
  | diag h h1 h2 h3 h4 h5 ih =>
      rename_i e p q
      intro hx
      have hb := relReach_bounds h
      omega
  | down h ih =>
      rename_i e p q
      intro hx
      have := ih hx
      push_cast
      omega
  | right h ih =>
      rename_i e p q
      intro hx
      have hb := relReach_bounds h
      push_cast
      omega

/-- An extended path pinned to the top edge consists of right moves only. -/
theorem relReach_y0 {a b : List GoStr} {M N : Int} :
    ∀ {d : Nat} {x y : Int}, RelReach a b M N d x y → y = 0 → x = (d : Int) := by
  intro d x y h
  induction h with
  | start =>
      intro _
      norm_num
  | diag h h1 h2 h3 h4 h5 ih =>
      rename_i e p q
      intro hy
      have hb := relReach_bounds h
      omega
  | down h ih =>
      rename_i e p q
      intro hy
      have hb := relReach_bounds h
      push_cast
      omega
  | right h ih =>
      rename_i e p q
      intro hy
      have := ih hy
      push_cast
      omega

/-- The depth-zero reach on the solution diagonal is the initial diagonal
extension from the origin. -/
theorem wreach_one_zero (a b : List GoStr) (M N : Int) :
    wreach a b M N (0 + 1) 0 = (extendDiag a b M N 0 0).1 := by
  have hw := wreach_succ_eq a b M N 0 0 (by norm_num) (by norm_num)
  have hs : wSel a b M N 0 0 = 0 := by
    simp only [wSel]
    rw [if_pos (Or.inl (by norm_num))]
    rfl
  rw [hw, hs]
  norm_num

/-- All positions of a snake chain ending at `(M, N)` stay inside the grid. -/
theorem snake_mono (a b : List GoStr) (M N : Int) :
    ∀ l : List (Int × Int), List.Chain' (SnakeStep a b M N) l →
      l.getLast? = some (M, N) → ∀ p ∈ l, p.1 ≤ M ∧ p.2 ≤ N := by
  intro l
  induction l with
  | nil =>
      intro _ _ p hp
      cases hp
  | cons q l' ih =>
      intro hch hlast p hp
      rcases l' with _ | ⟨r, l''⟩
      · have hq : q = (M, N) := by simpa using hlast
        have hpq : p = q := by simpa using hp
        rw [hpq, hq]
        exact ⟨le_refl M, le_refl N⟩
      · rw [List.getLast?_cons_cons] at hlast
        rw [List.chain'_cons] at hch
        rcases List.mem_cons.mp hp with hpq | hpm
        · have hr := ih hch.2 hlast r (List.mem_cons_self r _)
          have hs := hch.1
          subst hpq
          exact ⟨le_trans hs.1 hr.1, le_trans hs.2.1 hr.2⟩
        · exact ih hch.2 hlast p hpm


/-- `add` with no open operation is a no-op. -/
theorem addOp_none (b : List GoStr) (cap : Int) (i2 j2 : Int) (sol : List Op) :
    addOp b cap none i2 j2 sol = some sol := rfl

/-- `add` on an open delete: fills `I2` and stores it. -/
theorem addOp_del (b : List GoStr) (cap : Int) (x0 y0 i2 j2 : Int)
    (sol : List Op) (hcap : (sol.length : Int) < cap) :
    addOp b cap (some ⟨.del, [], x0, 0, y0⟩) i2 j2 sol =
      some (sol ++ [⟨.del, [], x0, i2, y0⟩]) := by
  simp only [addOp]
  rw [if_neg (by decide : ¬ (OpKind.del = OpKind.ins))]
  simp only [Option.bind_eq_bind, Option.pure_def, Option.some_bind]
  rw [if_pos hcap]

/-- `add` on an open insert: fills `I2`, slices `b[J1:j2]` as content, and
stores it. -/
theorem addOp_ins (b : List GoStr) (cap : Int) (x0 y0 i2 j2 : Int)
    (sol : List Op) (hj : 0 ≤ y0 ∧ y0 ≤ j2 ∧ j2 ≤ (b.length : Int))
    (hcap : (sol.length : Int) < cap) :
    addOp b cap (some ⟨.ins, [], x0, 0, y0⟩) i2 j2 sol =
      some (sol ++
        [⟨.ins, (b.drop y0.toNat).take (j2 - y0).toNat, x0, i2, y0⟩]) := by
  simp only [addOp]
  rw [if_pos trivial]
  rw [goSlice, if_pos hj]
  simp only [Option.bind_eq_bind, Option.pure_def, Option.some_bind]
  rw [if_pos hcap]

/-- Processing one genuine snake entry: exactly one operation of unit cost
is emitted, the position moves to the snake's endpoint, and the replay
invariant is maintained. -/
theorem opsLoop_step (a b : List GoStr) (M N : Int)
    (hM : M = (a.length : Int)) (hN : N = (b.length : Int))
    (x y : Int) (q : Int × Int) (rest : List (Option (List Int)))
    (sol : List Op)
    (hstep : SnakeStep a b M N (x, y) q)
    (hx0 : 0 ≤ x) (hy0 : 0 ≤ y) (hqM : q.1 ≤ M) (hqN : q.2 ≤ N)
    (hInv : ReplayInv a b sol x y)
    (hlc : (sol.length : Int) ≤ opsCost sol)
    (hcap : opsCost sol + 1 ≤ M + N) :
    ∃ sol1,
      opsLoop b M N (some [q.1, q.2] :: rest) x y sol =
        (if M ≤ q.1 ∧ N ≤ q.2 then some sol1
         else opsLoop b M N rest q.1 q.2 sol1) ∧
      opsCost sol1 = opsCost sol + 1 ∧
      ReplayInv a b sol1 q.1 q.2 ∧
      (sol1.length : Int) ≤ opsCost sol1 := by
  have hxq : x ≤ q.1 := hstep.1
  have hyq : y ≤ q.2 := hstep.2.1
  rcases hstep.2.2 with hc | hc
  · -- right move then diagonal run
    have hcd : q.1 - q.2 = x - y + 1 := hc.1
    have hext : extendDiag a b M N (x + 1) y = q := hc.2
    have hq1x : x + 1 ≤ q.1 := by
      have h := extendDiag_fst_ge a b M N (x + 1) y
      rw [hext] at h
      exact h
    have hsnd := extendDiag_snd a b M N (x + 1) y
    rw [hext] at hsnd
    have hdel : delLoop M q.1 q.2 x y none = (some ⟨.del, [], x, 0, y⟩, x + 1) := by
      rw [delLoop_run M q.1 q.2 x y (by omega) (by omega)]
      rw [show q.1 - q.2 - (x - y) = 1 from by omega]
    have hadd1 : addOp b (M + N) (some ⟨.del, [], x, 0, y⟩) (x + 1) y sol =
        some (sol ++ [⟨.del, [], x, x + 1, y⟩]) :=
      addOp_del b (M + N) x y (x + 1) y sol (by omega)
    have hins : insLoop q.1 q.2 (x + 1) y none = (none, y) :=
      insLoop_none q.1 q.2 (x + 1) y none (by omega)
    have heq2 : eqLoop q.1 (x + 1) y = (q.1, q.2) := by
      rw [eqLoop_run q.1 (q.1 - (x + 1)).toNat (x + 1) y (by omega)]
      rw [show x + 1 + ((q.1 - (x + 1)).toNat : Int) = q.1 from by omega,
        show y + ((q.1 - (x + 1)).toNat : Int) = q.2 from by omega]
    have hcost1 : opsCost (sol ++ [⟨.del, [], x, x + 1, y⟩]) =
        opsCost sol + 1 := by
      rw [opsCost_append]
      simp only [opsCost, List.map_cons, List.map_nil, List.sum_cons,
        List.sum_nil]
      omega
    refine ⟨sol ++ [⟨.del, [], x, x + 1, y⟩], ?_, hcost1, ?_, ?_⟩
    · rw [opsLoop]
      simp only [Option.getD_some]
      rw [if_neg (by norm_num)]
      simp only [List.getD_cons_zero, List.getD_cons_succ]
      rw [hdel]
      simp only []
      rw [hadd1]
      simp only [Option.bind_eq_bind, Option.some_bind]
      rw [hins]
      simp only []
      rw [addOp_none]
      simp only [Option.some_bind]
      rw [heq2]
      simp only [Option.pure_def]
    · have hInv1 := replay_del a b sol x y (x + 1) hInv (by omega) (by omega)
        (by omega)
      have hrunfacts := extendDiag_run a b M N (x + 1) y
      rw [hext] at hrunfacts
      have hfin := replay_eq a b _ (x + 1) y (q.1 - (x + 1)) hInv1 (by omega)
        (by omega) ?_
      · rw [show x + 1 + (q.1 - (x + 1)) = q.1 from by ring,
          show y + (q.1 - (x + 1)) = q.2 from by omega] at hfin
        exact hfin
      · intro i h1 h2
        exact (hrunfacts i h1 (by omega)).2.2
    · rw [hcost1]
      simp only [List.length_append, List.length_cons, List.length_nil]
      push_cast
      omega
  · -- down move then diagonal run
    have hcd : q.1 - q.2 = x - y - 1 := hc.1
    have hext : extendDiag a b M N x (y + 1) = q := hc.2
    have hq1x : x ≤ q.1 := by
      have h := extendDiag_fst_ge a b M N x (y + 1)
      rw [hext] at h
      exact h
    have hsnd := extendDiag_snd a b M N x (y + 1)
    rw [hext] at hsnd
    have hq2y : y + 1 ≤ q.2 := by omega
    have hdel : delLoop M q.1 q.2 x y none = (none, x) :=
      delLoop_none M q.1 q.2 x y none (by omega)
    have hins : insLoop q.1 q.2 x y none =
        (some ⟨.ins, [], x, 0, y⟩, y + 1) := by
      rw [insLoop_run q.1 q.2 x y (by omega)]
      rw [show x - y - (q.1 - q.2) = 1 from by omega]
    have hadd2 : addOp b (M + N) (some ⟨.ins, [], x, 0, y⟩) x (y + 1) sol =
        some (sol ++
          [⟨.ins, (b.drop y.toNat).take (y + 1 - y).toNat, x, x, y⟩]) :=
      addOp_ins b (M + N) x y x (y + 1) sol ⟨by omega, by omega, by omega⟩
        (by omega)
    have heq2 : eqLoop q.1 x (y + 1) = (q.1, q.2) := by
      rw [eqLoop_run q.1 (q.1 - x).toNat x (y + 1) (by omega)]
      rw [show x + ((q.1 - x).toNat : Int) = q.1 from by omega,
        show y + 1 + ((q.1 - x).toNat : Int) = q.2 from by omega]
    have hlen1 : ((b.drop y.toNat).take (y + 1 - y).toNat).length = 1 := by
      rw [List.length_take, List.length_drop]
      have hyb : y.toNat < b.length := by omega
      rw [show (y + 1 - y).toNat = 1 from by omega]
      omega
    have hcost1 : opsCost (sol ++
        [⟨.ins, (b.drop y.toNat).take (y + 1 - y).toNat, x, x, y⟩]) =
        opsCost sol + 1 := by
      rw [opsCost_append]
      simp only [opsCost, List.map_cons, List.map_nil, List.sum_cons,
        List.sum_nil, hlen1]
      omega
    refine ⟨sol ++ [⟨.ins, (b.drop y.toNat).take (y + 1 - y).toNat, x, x, y⟩],
      ?_, hcost1, ?_, ?_⟩
    · rw [opsLoop]
      simp only [Option.getD_some]
      rw [if_neg (by norm_num)]
      simp only [List.getD_cons_zero, List.getD_cons_succ]
      rw [hdel]
      simp only []
      rw [addOp_none]
      simp only [Option.bind_eq_bind, Option.some_bind]
      rw [hins]
      simp only []
      rw [hadd2]
      simp only [Option.some_bind]
      rw [heq2]
      simp only [Option.pure_def]
    · have hInv1 := replay_ins a b sol x y (y + 1) hInv (by omega) (by omega)
      have hrunfacts := extendDiag_run a b M N x (y + 1)
      rw [hext] at hrunfacts
      have hfin := replay_eq a b _ x (y + 1) (q.1 - x) hInv1 (by omega)
        (by omega) ?_
      · rw [show x + (q.1 - x) = q.1 from by ring,
          show y + 1 + (q.1 - x) = q.2 from by omega] at hfin
        exact hfin
      · intro i h1 h2
        exact (hrunfacts i h1 (by omega)).2.2
    · rw [hcost1]
      simp only [List.length_append, List.length_cons, List.length_nil]
      push_cast
      omega


/-- Processing a chain of single-step snakes ending at `(M, N)`: the loop
terminates through its final-position break, emits one unit-cost operation
per snake, and maintains the replay invariant to the full corner. -/
theorem opsLoop_chain (a b : List GoStr) (M N : Int)
    (hM : M = (a.length : Int)) (hN : N = (b.length : Int)) :
    ∀ (ps : List (Int × Int)) (x y : Int) (sol : List Op)
      (rest : List (Option (List Int))),
      List.Chain' (SnakeStep a b M N) ((x, y) :: ps) →
      ps.getLast? = some (M, N) →
      0 ≤ x → 0 ≤ y →
      ReplayInv a b sol x y →
      (sol.length : Int) ≤ opsCost sol →
      opsCost sol + (ps.length : Int) ≤ M + N →
      ∃ sol',
        opsLoop b M N (ps.map (fun p => some [p.1, p.2]) ++ rest) x y sol =
          some sol' ∧
        opsCost sol' = opsCost sol + (ps.length : Int) ∧
        ReplayInv a b sol' M N := by
  intro ps
  induction ps with
  | nil =>
      intro x y sol rest hch hlast hx0 hy0 hInv hlc hcap
      exact absurd hlast (by simp)
  | cons q ps' ih =>
      intro x y sol rest hch hlast hx0 hy0 hInv hlc hcap
      have hstep : SnakeStep a b M N (x, y) q := (List.chain'_cons.mp hch).1
      have hxq : x ≤ q.1 := hstep.1
      have hyq : y ≤ q.2 := hstep.2.1
      have hch' : List.Chain' (SnakeStep a b M N) (q :: ps') :=
        (List.chain'_cons.mp hch).2
      have hqb := snake_mono a b M N (q :: ps') hch' hlast q
        (List.mem_cons_self q ps')
      obtain ⟨sol1, hiter, hcost1, hInv1, hlc1⟩ :=
        opsLoop_step a b M N hM hN x y q
          (ps'.map (fun p => some [p.1, p.2]) ++ rest) sol hstep hx0 hy0
          hqb.1 hqb.2 hInv hlc (by
            simp only [List.length_cons] at hcap
            push_cast at hcap
            omega)
      rcases ps' with _ | ⟨r, ps''⟩
      · have hq : q = (M, N) := by simpa using hlast
        subst hq
        refine ⟨sol1, ?_, ?_, ?_⟩
        · simp only [List.map_cons, List.map_nil, List.nil_append,
            List.cons_append]
          rw [if_pos ⟨le_refl M, le_refl N⟩] at hiter
          simp only [List.map_nil, List.nil_append] at hiter
          exact hiter
        · rw [hcost1]
          simp only [List.length_cons, List.length_nil]
          push_cast
          ring
        · exact hInv1
      · rw [List.getLast?_cons_cons] at hlast
        have hne : ¬(M ≤ q.1 ∧ N ≤ q.2) := by
          intro hcon
          have hq1 : q.1 = M := le_antisymm hqb.1 hcon.1
          have hq2 : q.2 = N := le_antisymm hqb.2 hcon.2
          have hsr : SnakeStep a b M N q r := (List.chain'_cons.mp hch').1
          have hrb := snake_mono a b M N (r :: ps'')
            (List.chain'_cons.mp hch').2 hlast r (List.mem_cons_self r ps'')
          have h1 := hsr.1
          have h2 := hsr.2.1
          rcases hsr.2.2 with hd | hd
          · have := hd.1
            omega
          · have := hd.1
            omega
        rw [if_neg hne] at hiter
        obtain ⟨sol', hrun', hcost', hInv'⟩ := ih q.1 q.2 sol1 rest hch' hlast
          (by omega) (by omega) hInv1 hlc1 (by
            rw [hcost1]
            simp only [List.length_cons] at hcap ⊢
            push_cast at hcap ⊢
            omega)
        refine ⟨sol', ?_, ?_, hInv'⟩
        · simp only [List.map_cons, List.cons_append]
          simp only [List.map_cons, List.cons_append] at hiter
          rw [hiter]
          exact hrun'
        · rw [hcost', hcost1]
          simp only [List.length_cons]
          push_cast
          ring


/-- Processing the forced terminal snake from the origin: it contributes
exactly `dEx` operation cost (a single pure-insert run, a single
pure-delete run, or a free diagonal run) and establishes the replay
invariant at the terminal position. -/
theorem opsLoop_term (a b : List GoStr) (M N : Int)
    (hM : M = (a.length : Int)) (hN : N = (b.length : Int))
    (dEx : Nat) (xe ye : Int) (rest : List (Option (List Int)))
    (hterm : xe ≤ 0 ∨ ye ≤ 0 ∨ dEx = 0)
    (hW : WPos a b M N dEx xe ye) :
    ∃ sol1,
      opsLoop b M N (some [xe, ye] :: rest) 0 0 [] =
        (if M ≤ xe ∧ N ≤ ye then some sol1
         else opsLoop b M N rest xe ye sol1) ∧
      opsCost sol1 = (dEx : Int) ∧
      ReplayInv a b sol1 xe ye ∧
      (sol1.length : Int) ≤ opsCost sol1 ∧
      (xe ≤ 0 → ye ≤ 0 → sol1 = []) ∧
      (xe ≤ 0 → 0 < ye →
        sol1 = [⟨.ins, (b.drop (0 : Int).toNat).take (ye - 0).toNat, 0, 0, 0⟩]) ∧
      (ye ≤ 0 → 0 < xe → sol1 = [⟨.del, [], 0, xe, 0⟩]) := by
  have hrel : RelReach a b M N dEx xe ye := by
    have h := relReach_legit a b M N dEx (xe - ye) hW.2.2.2.2.2.1
      hW.2.2.2.2.2.2.1 hW.2.2.2.2.2.2.2
    rw [← hW.1] at h
    rw [show xe - (xe - ye) = ye from by ring] at h
    exact h
  have hInv0 : ReplayInv a b [] 0 0 := by
    refine ⟨[], 0, rfl, le_refl 0, le_refl 0, by norm_num, by positivity,
      ?_, ?_⟩
    · rw [show ((0 : Int) - (0 - 0)).toNat = 0 from by omega, List.take_zero]
      exact List.Forall₂.nil
    · intro i h1 h2
      exact absurd h2 (by omega)
  have hxe0 : 0 ≤ xe := hW.2.1
  have hye0 : 0 ≤ ye := hW.2.2.1
  have hxeM : xe ≤ M := hW.2.2.2.1
  have hyeN : ye ≤ N := hW.2.2.2.2.1
  by_cases hx : xe ≤ 0
  · have hxe : xe = 0 := by omega
    subst hxe
    have hye : ye = (dEx : Int) := relReach_x0 hrel rfl
    by_cases hy : 0 < ye
    · -- pure insert run
      have hdel : delLoop M 0 ye 0 0 none = (none, 0) :=
        delLoop_none M 0 ye 0 0 none (by omega)
      have hins : insLoop 0 ye 0 0 none = (some ⟨.ins, [], 0, 0, 0⟩, ye) := by
        rw [insLoop_run 0 ye 0 0 (by omega)]
        rw [show (0 : Int) + (0 - 0 - (0 - ye)) = ye from by ring]
      have hadd2 : addOp b (M + N) (some ⟨.ins, [], 0, 0, 0⟩) 0 ye [] =
          some ([] ++ [⟨.ins, (b.drop (0 : Int).toNat).take (ye - 0).toNat,
            0, 0, 0⟩]) :=
        addOp_ins b (M + N) 0 0 0 ye [] ⟨le_refl 0, by omega, by omega⟩
          (by simp only [List.length_nil]; push_cast; omega)
      have heq2 : eqLoop 0 0 ye = (0, ye) := eqLoop_none 0 0 ye (by omega)
      have hclen : (((b.drop (0 : Int).toNat).take (ye - 0).toNat).length : Int)
          = ye := by
        rw [List.length_take, List.length_drop]
        omega
      have hcost1 : opsCost [(⟨.ins,
          (b.drop (0 : Int).toNat).take (ye - 0).toNat, 0, 0, 0⟩ : Op)] =
          (dEx : Int) := by
        simp only [opsCost, List.map_cons, List.map_nil, List.sum_cons,
          List.sum_nil]
        omega
      refine ⟨[⟨.ins, (b.drop (0 : Int).toNat).take (ye - 0).toNat, 0, 0, 0⟩],
        ?_, hcost1, ?_, ?_, ?_, ?_, ?_⟩
      · rw [opsLoop]
        simp only [Option.getD_some]
        rw [if_neg (by norm_num)]
        simp only [List.getD_cons_zero, List.getD_cons_succ]
        rw [hdel]
        simp only []
        rw [addOp_none]
        simp only [Option.bind_eq_bind, Option.some_bind]
        rw [hins]
        simp only []
        rw [hadd2]
        simp only [Option.some_bind, List.nil_append]
        rw [heq2]
        simp only [Option.pure_def]
      · have h := replay_ins a b [] 0 0 ye hInv0 (by omega) (by omega)
        simp only [List.nil_append] at h
        exact h
      · rw [hcost1]
        simp only [List.length_cons, List.length_nil]
        push_cast
        omega
      · intro _ hcon
        exact absurd hcon (by omega)
      · intro _ _
        rfl
      · intro hcon _
        exact absurd hcon (by omega)
    · -- both coordinates zero
      have hye' : ye = 0 := by omega
      subst hye'
      have hd0 : dEx = 0 := by omega
      have hdel : delLoop M 0 0 0 0 none = (none, 0) :=
        delLoop_none M 0 0 0 0 none (by omega)
      have hins : insLoop 0 0 0 0 none = (none, 0) :=
        insLoop_none 0 0 0 0 none (by omega)
      have heq2 : eqLoop 0 0 0 = (0, 0) := eqLoop_none 0 0 0 (by omega)
      refine ⟨[], ?_, by rw [hd0]; rfl, hInv0, by norm_num [opsCost],
        fun _ _ => rfl, ?_, ?_⟩
      · rw [opsLoop]
        simp only [Option.getD_some]
        rw [if_neg (by norm_num)]
        simp only [List.getD_cons_zero, List.getD_cons_succ]
        rw [hdel]
        simp only []
        rw [addOp_none]
        simp only [Option.bind_eq_bind, Option.some_bind]
        rw [hins]
        simp only []
        rw [addOp_none]
        simp only [Option.some_bind]
        rw [heq2]
        simp only [Option.pure_def]
      · intro _ hcon
        exact absurd hcon (by omega)
      · intro _ hcon
        exact absurd hcon (by omega)
  · by_cases hy : ye ≤ 0
    · -- pure delete run
      have hye' : ye = 0 := by omega
      subst hye'
      have hxe : xe = (dEx : Int) := relReach_y0 hrel rfl
      have hdel : delLoop M xe 0 0 0 none =
          (some ⟨.del, [], 0, 0, 0⟩, xe) := by
        rw [delLoop_run M xe 0 0 0 (by omega) (by omega)]
        rw [show (0 : Int) + (xe - 0 - (0 - 0)) = xe from by ring]
      have hadd1 : addOp b (M + N) (some ⟨.del, [], 0, 0, 0⟩) xe 0 [] =
          some ([] ++ [⟨.del, [], 0, xe, 0⟩]) :=
        addOp_del b (M + N) 0 0 xe 0 []
          (by simp only [List.length_nil]; push_cast; omega)
      have hins : insLoop xe 0 xe 0 none = (none, 0) :=
        insLoop_none xe 0 xe 0 none (by omega)
      have heq2 : eqLoop xe xe 0 = (xe, 0) := eqLoop_none xe xe 0 (by omega)
      have hcost1 : opsCost [(⟨.del, [], 0, xe, 0⟩ : Op)] = (dEx : Int) := by
        simp only [opsCost, List.map_cons, List.map_nil, List.sum_cons,
          List.sum_nil]
        omega
      refine ⟨[⟨.del, [], 0, xe, 0⟩], ?_, hcost1, ?_, ?_, ?_, ?_, ?_⟩
      · rw [opsLoop]
        simp only [Option.getD_some]
        rw [if_neg (by norm_num)]
        simp only [List.getD_cons_zero, List.getD_cons_succ]
        rw [hdel]
        simp only []
        rw [hadd1]
        simp only [Option.bind_eq_bind, Option.some_bind, List.nil_append]
        rw [hins]
        simp only []
        rw [addOp_none]
        simp only [Option.some_bind]
        rw [heq2]
        simp only [Option.pure_def]
      · have h := replay_del a b [] 0 0 xe hInv0 (by omega) (by omega)
          (by omega)
        simp only [List.nil_append] at h
        exact h
      · rw [hcost1]
        simp only [List.length_cons, List.length_nil]
        push_cast
        omega
      · intro hcon _
        exact absurd hcon (by omega)
      · intro hcon _
        exact absurd hcon (by omega)
      · intro _ _
        rfl
    · -- free diagonal run
      have hd0 : dEx = 0 := by
        rcases hterm with h | h | h
        · exact absurd h hx
        · exact absurd h hy
        · exact h
      subst hd0
      have hxy : ye = xe := by
        have h6 := hW.2.2.2.2.2.1
        have h7 := hW.2.2.2.2.2.2.1
        push_cast at h6 h7
        omega
      subst hxy
      have hdel : delLoop M ye ye 0 0 none = (none, 0) :=
        delLoop_none M ye ye 0 0 none (by omega)
      have hins : insLoop ye ye 0 0 none = (none, 0) :=
        insLoop_none ye ye 0 0 none (by omega)
      have heq2 : eqLoop ye 0 0 = (ye, ye) := by
        rw [eqLoop_run ye ye.toNat 0 0 (by omega)]
        rw [show (0 : Int) + (ye.toNat : Int) = ye from by omega]
      refine ⟨[], ?_, rfl, ?_, by norm_num [opsCost], fun hcon _ => absurd hcon hx,
        fun hcon _ => absurd hcon hx, fun hcon _ => absurd hcon hy⟩
      · rw [opsLoop]
        simp only [Option.getD_some]
        rw [if_neg (by norm_num)]
        simp only [List.getD_cons_zero, List.getD_cons_succ]
        rw [hdel]
        simp only []
        rw [addOp_none]
        simp only [Option.bind_eq_bind, Option.some_bind]
        rw [hins]
        simp only []
        rw [addOp_none]
        simp only [Option.some_bind]
        rw [heq2]
        simp only [Option.pure_def]
      · have hW1 : ye = wreach a b M N (0 + 1) 0 := by
          have h := hW.1
          rw [show ye - ye = 0 from by ring] at h
          exact h
        rw [wreach_one_zero] at hW1
        have hrun := extendDiag_run a b M N 0 0
        rw [← hW1] at hrun
        have h := replay_eq a b [] 0 0 ye hInv0 (by omega) (by omega) ?_
        · rw [show (0 : Int) + ye = ye from by ring] at h
          exact h
        · intro i h1 h2
          exact (hrun i h1 (by omega)).2.2


/-- Replaying an operation list that satisfies the full-corner replay
invariant reconstructs a comparer-equal image of the target. -/
theorem applyEdits_of_replay (a b : List GoStr) (sol : List Op)
    (hInv : ReplayInv a b sol (a.length : Int) (b.length : Int)) :
    ∃ out, ApplyEdits a sol = some out ∧ List.Forall₂ LineEq out b := by
  obtain ⟨out, p, happ, hp0, hpx, hxpy, hxlen, hfa, hpend⟩ := hInv
  simp only [ApplyEdits]
  rw [happ]
  simp only [Option.bind_eq_bind, Option.some_bind]
  by_cases hp : 0 < (a.length : Int) - p
  · rw [if_pos hp, goSlice, if_pos ⟨hp0, by omega, le_refl _⟩]
    simp only [Option.some_bind, Option.pure_def]
    refine ⟨out ++ (a.drop p.toNat).take ((a.length : Int) - p).toNat, rfl, ?_⟩
    have hsplit : b =
        b.take (((b.length : Int) - ((a.length : Int) - p)).toNat) ++
          (b.drop (((b.length : Int) - ((a.length : Int) - p)).toNat)).take
            (((a.length : Int) - p).toNat) := by
      rw [← List.take_add]
      rw [show ((b.length : Int) - ((a.length : Int) - p)).toNat +
          ((a.length : Int) - p).toNat = b.length from by omega]
      exact (List.take_length b).symm
    nth_rewrite 1 [hsplit]
    refine List.rel_append hfa ?_
    refine forall2_slice a b ((a.length : Int) - p).toNat p.toNat
      (((b.length : Int) - ((a.length : Int) - p)).toNat) ?_ (by omega)
      (by omega)
    intro j hj
    have hpj := hpend (p + (j : Int)) (by omega) (by omega)
    rw [show (p + (j : Int)).toNat = p.toNat + j from by omega,
      show (p + (j : Int) - ((a.length : Int) - (b.length : Int))).toNat =
        ((b.length : Int) - ((a.length : Int) - p)).toNat + j from by
          omega] at hpj
    exact hpj
  · rw [if_neg hp]
    refine ⟨out, rfl, ?_⟩
    rw [show ((b.length : Int) - ((a.length : Int) - p)).toNat = b.length
      from by omega, List.take_length] at hfa
    exact hfa

/-- Full characterization of `Operations` for not-both-empty inputs: it
succeeds, its operation cost is exactly the edit distance, and the replay
invariant holds at the full corner. -/
theorem Operations_run (a b : List GoStr) (hne : ¬(a = [] ∧ b = [])) :
    ∃ sol, Operations a b = some sol ∧
      opsCost sol = (editDist a b : Int) ∧
      ReplayInv a b sol (a.length : Int) (b.length : Int) := by
  have hNM : 1 ≤ (b.length : Int) + (a.length : Int) := by
    rcases Nat.eq_zero_or_pos a.length with ha | ha
    · rcases Nat.eq_zero_or_pos b.length with hb | hb
      · exact absurd ⟨List.length_eq_zero.mp ha, List.length_eq_zero.mp hb⟩ hne
      · push_cast
        omega
    · push_cast
      omega
  have hfire := fireAt_editDist a b
  have hleast : ∀ e : Nat, e < editDist a b →
      ¬FireAt a b (a.length : Int) (b.length : Int) e := fun e he hf =>
    absurd (editDist_le_of_fire a b e hf) (by omega)
  have hDle : ((editDist a b : Nat) : Int) ≤
      (b.length : Int) + (a.length : Int) := by
    have h := editDist_le_sum a b
    push_cast
    omega
  obtain ⟨tr, hses, hTr⟩ := shortestEditSequence_run a b (editDist a b)
    hfire hleast hNM hDle
  have htl := hTr.1
  simp only [Operations]
  rw [hses]
  simp only [Option.bind_eq_bind, Option.some_bind]
  by_cases hpos : 0 < (a.length : Int) ∧ 0 < (b.length : Int)
  · -- both nonempty: full walk
    obtain ⟨dEx, xe, ye, ps, hbt, hdEx, hterm, hWterm, hpl, hhd, hlast,
        hchain⟩ := backtrack_run a b (a.length : Int) (b.length : Int)
      (editDist a b) tr hTr hpos.1 hpos.2 hDle hfire
    rw [hbt]
    simp only [Option.some_bind]
    rw [opsLoop_skip]
    rcases ps with _ | ⟨p0, ps'⟩
    · simp at hpl
    · have hp0 : p0 = (xe, ye) := by
        simp only [List.head?_cons] at hhd
        exact Option.some.inj hhd
      subst hp0
      obtain ⟨sol1, hiter, hcost1, hInv1, hlc1, _, _, _⟩ :=
        opsLoop_term a b (a.length : Int) (b.length : Int) rfl rfl dEx xe ye
          (ps'.map (fun p => some [p.1, p.2]) ++
            List.replicate (tr.length - (editDist a b + 1)) none)
          hterm hWterm
      simp only [List.map_cons, List.cons_append]
      rcases ps' with _ | ⟨r, ps''⟩
      · -- single snake: the terminal is the full corner
        have hxy : (xe, ye) = ((a.length : Int), (b.length : Int)) := by
          simpa using hlast
        have hxe : xe = (a.length : Int) := by
          exact congrArg Prod.fst hxy
        have hye : ye = (b.length : Int) := by
          exact congrArg Prod.snd hxy
        have hD : dEx = editDist a b := by
          simp only [List.length_cons, List.length_nil] at hpl
          omega
        rw [if_pos ⟨le_of_eq hxe.symm, le_of_eq hye.symm⟩] at hiter
        refine ⟨sol1, ?_, ?_, ?_⟩
        · simp only [List.map_nil, List.nil_append] at hiter ⊢
          exact hiter
        · rw [hcost1, hD]
        · rw [hxe, hye] at hInv1
          exact hInv1
      · -- the walk continues past the terminal snake
        rw [List.getLast?_cons_cons] at hlast
        have hchain' : List.Chain' (SnakeStep a b (a.length : Int)
            (b.length : Int)) ((xe, ye) :: r :: ps'') := hchain
        have hqb := snake_mono a b (a.length : Int) (b.length : Int)
          ((xe, ye) :: r :: ps'') hchain'
          (by rw [List.getLast?_cons_cons]; exact hlast) (xe, ye)
          (List.mem_cons_self _ _)
        have hne2 : ¬((a.length : Int) ≤ xe ∧ (b.length : Int) ≤ ye) := by
          intro hcon
          have hq1 : xe = (a.length : Int) := le_antisymm hqb.1 hcon.1
          have hq2 : ye = (b.length : Int) := le_antisymm hqb.2 hcon.2
          have hsr : SnakeStep a b (a.length : Int) (b.length : Int)
              (xe, ye) r := (List.chain'_cons.mp hchain').1
          have hrb := snake_mono a b (a.length : Int) (b.length : Int)
            (r :: ps'') (List.chain'_cons.mp hchain').2 hlast r
            (List.mem_cons_self r ps'')
          have h1 : xe ≤ r.1 := hsr.1
          have h2 : ye ≤ r.2 := hsr.2.1
          rcases hsr.2.2 with hd | hd
          · have := hd.1
            omega
          · have := hd.1
            omega
        rw [if_neg hne2] at hiter
        obtain ⟨sol', hrun', hcost', hInv'⟩ :=
          opsLoop_chain a b (a.length : Int) (b.length : Int) rfl rfl
            (r :: ps'') xe ye sol1
            (List.replicate (tr.length - (editDist a b + 1)) none)
            hchain' hlast hWterm.2.1 hWterm.2.2.1 hInv1 hlc1 (by
              rw [hcost1]
              simp only [List.length_cons, List.length_cons,
                List.length_cons] at hpl ⊢
              push_cast
              omega)
        refine ⟨sol', ?_, ?_, hInv'⟩
        · rw [hiter]
          simp only [List.map_cons, List.cons_append] at hrun' ⊢
          exact hrun'
        · rw [hcost', hcost1]
          simp only [List.length_cons] at hpl ⊢
          push_cast
          omega
  · -- one side empty: degenerate single-snake walk
    have hW : WPos a b (a.length : Int) (b.length : Int) (editDist a b)
        (a.length : Int) (b.length : Int) :=
      ⟨hfire.2.2.2.symm, by positivity, by positivity, le_refl _, le_refl _,
        hfire.1, hfire.2.1, hfire.2.2.1⟩
    rw [backtrack_run_degenerate tr (a.length : Int) (b.length : Int) hpos
      (by positivity) (by positivity) (by omega)]
    simp only [Option.some_bind]
    rw [opsLoop_skip]
    obtain ⟨sol1, hiter, hcost1, hInv1, _, _, _, _⟩ :=
      opsLoop_term a b (a.length : Int) (b.length : Int) rfl rfl
        (editDist a b) (a.length : Int) (b.length : Int) [] (by
          rcases not_and_or.mp hpos with h | h
          · exact Or.inl (by omega)
          · exact Or.inr (Or.inl (by omega))) hW
    rw [if_pos ⟨le_refl _, le_refl _⟩] at hiter
    exact ⟨sol1, hiter, hcost1, hInv1⟩


/-- With an empty source, `Operations` emits the single full insert. -/
theorem Operations_ins_all (b : List GoStr) (hb : b ≠ []) :
    Operations [] b = some [⟨.ins, b, 0, 0, 0⟩] := by
  have hblen : 0 < b.length := List.length_pos.mpr hb
  have hNM : 1 ≤ (b.length : Int) + ((List.length ([] : List GoStr)) : Int) := by
    simp only [List.length_nil]
    push_cast
    omega
  have hfire := fireAt_editDist [] b
  have hleast : ∀ e : Nat, e < editDist [] b →
      ¬FireAt [] b ((List.length ([] : List GoStr)) : Int) (b.length : Int) e :=
    fun e he hf => absurd (editDist_le_of_fire [] b e hf) (by omega)
  have hDle : ((editDist [] b : Nat) : Int) ≤
      (b.length : Int) + ((List.length ([] : List GoStr)) : Int) := by
    have h := editDist_le_sum [] b
    simp only [List.length_nil] at h ⊢
    push_cast
    omega
  obtain ⟨tr, hses, hTr⟩ := shortestEditSequence_run [] b (editDist [] b)
    hfire hleast hNM hDle
  have htl := hTr.1
  simp only [Operations]
  rw [hses]
  simp only [Option.bind_eq_bind, Option.some_bind]
  have hW : WPos [] b ((List.length ([] : List GoStr)) : Int) (b.length : Int)
      (editDist [] b) ((List.length ([] : List GoStr)) : Int)
      (b.length : Int) :=
    ⟨hfire.2.2.2.symm, by positivity, by positivity, le_refl _, le_refl _,
      hfire.1, hfire.2.1, hfire.2.2.1⟩
  rw [backtrack_run_degenerate tr _ _ (by simp) (by positivity) (by positivity)
    (by simp only [List.length_nil] at htl ⊢; omega)]
  simp only [Option.some_bind]
  rw [opsLoop_skip]
  obtain ⟨sol1, hiter, _, _, _, _, hinsc, _⟩ :=
    opsLoop_term [] b ((List.length ([] : List GoStr)) : Int) (b.length : Int)
      rfl rfl (editDist [] b) ((List.length ([] : List GoStr)) : Int)
      (b.length : Int) [] (Or.inl (by simp)) hW
  have hsol : sol1 = [⟨.ins,
      (b.drop (0 : Int).toNat).take ((b.length : Int) - 0).toNat, 0, 0, 0⟩] :=
    hinsc (by simp) (by exact_mod_cast hblen)
  have hc : (b.drop (0 : Int).toNat).take ((b.length : Int) - 0).toNat = b := by
    rw [Int.toNat_zero, List.drop_zero,
      show ((b.length : Int) - 0).toNat = b.length from by omega,
      List.take_length]
  rw [hc] at hsol
  rw [if_pos ⟨le_refl _, le_refl _⟩] at hiter
  rw [hiter, hsol]

/-- With an empty target, `Operations` emits the single full delete. -/
theorem Operations_del_all (a : List GoStr) (ha : a ≠ []) :
    Operations a [] = some [⟨.del, [], 0, (a.length : Int), 0⟩] := by
  have halen : 0 < a.length := List.length_pos.mpr ha
  have hNM : 1 ≤ ((List.length ([] : List GoStr)) : Int) + (a.length : Int) := by
    simp only [List.length_nil]
    push_cast
    omega
  have hfire := fireAt_editDist a []
  have hleast : ∀ e : Nat, e < editDist a [] →
      ¬FireAt a [] (a.length : Int) ((List.length ([] : List GoStr)) : Int) e :=
    fun e he hf => absurd (editDist_le_of_fire a [] e hf) (by omega)
  have hDle : ((editDist a [] : Nat) : Int) ≤
      ((List.length ([] : List GoStr)) : Int) + (a.length : Int) := by
    have h := editDist_le_sum a []
    simp only [List.length_nil] at h ⊢
    push_cast
    omega
  obtain ⟨tr, hses, hTr⟩ := shortestEditSequence_run a [] (editDist a [])
    hfire hleast hNM hDle
  have htl := hTr.1
  simp only [Operations]
  rw [hses]
  simp only [Option.bind_eq_bind, Option.some_bind]
  have hW : WPos a [] (a.length : Int) ((List.length ([] : List GoStr)) : Int)
      (editDist a []) (a.length : Int)
      ((List.length ([] : List GoStr)) : Int) :=
    ⟨hfire.2.2.2.symm, by positivity, by positivity, le_refl _, le_refl _,
      hfire.1, hfire.2.1, hfire.2.2.1⟩
  rw [backtrack_run_degenerate tr _ _ (by simp) (by positivity) (by positivity)
    (by simp only [List.length_nil] at htl ⊢; omega)]
  simp only [Option.some_bind]
  rw [opsLoop_skip]
  obtain ⟨sol1, hiter, _, _, _, _, _, hdelc⟩ :=
    opsLoop_term a [] (a.length : Int) ((List.length ([] : List GoStr)) : Int)
      rfl rfl (editDist a []) (a.length : Int)
      ((List.length ([] : List GoStr)) : Int) [] (Or.inr (Or.inl (by simp))) hW
  have hsol : sol1 = [⟨.del, [], 0, (a.length : Int), 0⟩] :=
    hdelc (by simp) (by exact_mod_cast halen)
  rw [if_pos ⟨le_refl _, le_refl _⟩] at hiter
  rw [hiter, hsol]

/-- C1: the round trip is not exact string equality; with comparer-equal
but textually different lines, `Operations` returns no operations and
`ApplyEdits` reproduces the source, not the target. -/
theorem claim1_counterexample :
    Operations [['x', '\n']] [['x', '\r', '\n']] = some [] ∧
    ApplyEdits [['x', '\n']] [] = some [['x', '\n']] ∧
    [['x', '\n']] ≠ [['x', '\r', '\n']] := by
  refine ⟨by decide, by decide, by decide⟩

/-- C1 (amended): for inputs that are not both empty, `Operations`
succeeds, `ApplyEdits` replays its result, and the reconstruction agrees
with the target up to the line comparer `stringEqualIgnoreLF` (pointwise
`LineEq`), though not up to exact string equality. -/
theorem claim1_roundtrip_comparer (a b : List GoStr)
    (hne : ¬(a = [] ∧ b = [])) :
    ∃ ops out, Operations a b = some ops ∧ ApplyEdits a ops = some out ∧
      List.Forall₂ LineEq out b := by
  obtain ⟨sol, hops, _, hInv⟩ := Operations_run a b hne
  obtain ⟨out, happ, hfa⟩ := applyEdits_of_replay a b sol hInv
  exact ⟨sol, out, hops, happ, hfa⟩

/-- Witness for C1 at a concrete input. -/
theorem claim1_witness :
    (¬(([['a', '\n']] : List GoStr) = [] ∧
        ([['b', '\n']] : List GoStr) = [])) ∧
    (∃ ops out, Operations [['a', '\n']] [['b', '\n']] = some ops ∧
      ApplyEdits [['a', '\n']] ops = some out ∧
      List.Forall₂ LineEq out [['b', '\n']]) :=
  ⟨by decide, claim1_roundtrip_comparer [['a', '\n']] [['b', '\n']] (by decide)⟩

/-- C2: for inputs that are not both empty, the total count of non-Equal
line operations returned by `Operations` equals the reference edit
distance `editDist`, which is also the depth at which the forward search
terminates: the trace holds one snapshot per depth `0..editDist a b` and
nothing beyond. -/
theorem claim2_cost_is_editDist (a b : List GoStr)
    (hne : ¬(a = [] ∧ b = [])) :
    ∃ ops tr,
      Operations a b = some ops ∧
      opsCost ops = (editDist a b : Int) ∧
      shortestEditSequence a b =
        some (tr, (b.length : Int) + (a.length : Int)) ∧
      (∀ e : Nat, e ≤ editDist a b → ∃ V, tr[e]? = some (some V)) ∧
      (∀ e : Nat, editDist a b < e → e < tr.length → tr[e]? = some none) := by
  obtain ⟨sol, hops, hcost, _⟩ := Operations_run a b hne
  have hNM : 1 ≤ (b.length : Int) + (a.length : Int) := by
    rcases Nat.eq_zero_or_pos a.length with ha | ha
    · rcases Nat.eq_zero_or_pos b.length with hb | hb
      · exact absurd ⟨List.length_eq_zero.mp ha, List.length_eq_zero.mp hb⟩ hne
      · push_cast
        omega
    · push_cast
      omega
  have hfire := fireAt_editDist a b
  have hleast : ∀ e : Nat, e < editDist a b →
      ¬FireAt a b (a.length : Int) (b.length : Int) e := fun e he hf =>
    absurd (editDist_le_of_fire a b e hf) (by omega)
  have hDle : ((editDist a b : Nat) : Int) ≤
      (b.length : Int) + (a.length : Int) := by
    have h := editDist_le_sum a b
    push_cast
    omega
  obtain ⟨tr, hses, hTr⟩ := shortestEditSequence_run a b (editDist a b)
    hfire hleast hNM hDle
  refine ⟨sol, tr, hops, hcost, hses, ?_, hTr.2.2.2⟩
  intro e he
  rcases lt_or_eq_of_le he with h | h
  · obtain ⟨V, h1, _⟩ := hTr.2.1 e h
    exact ⟨V, h1⟩
  · obtain ⟨V, h1, _⟩ := hTr.2.2.1
    rw [h]
    exact ⟨V, h1⟩

/-- Witness for C2 at a concrete input. -/
theorem claim2_witness :
    (¬(([['a', '\n']] : List GoStr) = [] ∧
        ([['b', '\n']] : List GoStr) = [])) ∧
    (∃ ops tr,
      Operations [['a', '\n']] [['b', '\n']] = some ops ∧
      opsCost ops = (editDist [['a', '\n']] [['b', '\n']] : Int) ∧
      shortestEditSequence [['a', '\n']] [['b', '\n']] =
        some (tr, (([['b', '\n']] : List GoStr).length : Int) +
          (([['a', '\n']] : List GoStr).length : Int)) ∧
      (∀ e : Nat, e ≤ editDist [['a', '\n']] [['b', '\n']] →
        ∃ V, tr[e]? = some (some V)) ∧
      (∀ e : Nat, editDist [['a', '\n']] [['b', '\n']] < e → e < tr.length →
        tr[e]? = some none)) :=
  ⟨by decide, claim2_cost_is_editDist [['a', '\n']] [['b', '\n']] (by decide)⟩

/-- C5: for a nonempty target against an empty source, `Operations`
returns exactly one `Insert` at `J1 = 0` carrying all of the target; for a
nonempty source against an empty target, exactly one `Delete` spanning
`[0, len a)`. -/
theorem claim5_totally_different (a b : List GoStr) (ha : a ≠ []) (hb : b ≠ []) :
    Operations [] b = some [⟨.ins, b, 0, 0, 0⟩] ∧
    Operations a [] = some [⟨.del, [], 0, (a.length : Int), 0⟩] :=
  ⟨Operations_ins_all b hb, Operations_del_all a ha⟩

/-- Witness for C5 at a concrete input. -/
theorem claim5_witness :
    (([['x', '\n']] : List GoStr) ≠ [] ∧ ([['y', '\n']] : List GoStr) ≠ []) ∧
    (Operations [] [['y', '\n']] = some [⟨.ins, [['y', '\n']], 0, 0, 0⟩] ∧
      Operations [['x', '\n']] [] =
        some [⟨.del, [], 0, (([['x', '\n']] : List GoStr).length : Int), 0⟩]) :=
  ⟨⟨by decide, by decide⟩,
    claim5_totally_different [['x', '\n']] [['y', '\n']] (by decide) (by decide)⟩


/-- C2 fails as a universal statement: with both inputs empty the forward
search reads `V[1]` on a one-element array (a Go index panic), so
`Operations` returns no operation list at all. -/
theorem claim2_counterexample :
    Operations ([] : List GoStr) ([] : List GoStr) = none ∧
      editDist ([] : List GoStr) ([] : List GoStr) = 0 := by
  refine ⟨by decide, by rw [editDist_nil_left]; rfl⟩

end MyersDiff
